import Mathlib

/-!
Verification of the `hextape` record codecs and stream encoders
(Intel hex, Motorola S-records, Signetics absolute object format).

Records are modelled as `List Char` (the JS strings), payload buffers as
`List Nat` (a Node `Buffer` holds bytes, so theorems carry the hypothesis
that every element is `< 256`).  JS numbers on the code paths modelled
here are nonnegative integers, so they are modelled as `Nat`; the 32-bit
signed coercion performed by JS bitwise operators is modelled explicitly
(`toInt32`) where it is observable.
-/
set_option maxRecDepth 4000

set_option linter.unusedVariables false

/-- Uppercase hex digit character for a value `0..15`, as produced by
printf %X (digits then uppercase letters). -/
def hexDigitChar (n : Nat) : Char :=
  if n < 10 then Char.ofNat (48 + n) else Char.ofNat (55 + n)

/-- Value of one hex digit character, as `parseInt(-, 16)` assigns it
(uppercase input only reaches this; lowercase is upcased beforehand). -/
def hexDigitVal (c : Char) : Nat :=
  if 65 ≤ c.toNat then c.toNat - 55 else c.toNat - 48

/-- Test for `[0-9A-F]`, the character class used by the record regexes. -/
def isUpHexDigit (c : Char) : Bool :=
  (48 ≤ c.toNat && c.toNat ≤ 57) || (65 ≤ c.toNat && c.toNat ≤ 70)

/-- Decimal digit value, as `parseInt(-, 10)` assigns it to `0-9`. -/
def decDigitVal (c : Char) : Nat := c.toNat - 48

/-- Big-endian hex digits of `n`, exactly `w` digits (leading zeros kept):
the output of printf %0wX when `n < 16 ^ w`. -/
def hexN : Nat → Nat → List Char
  | 0, _ => []
  | w + 1, n => hexN w (n / 16) ++ [hexDigitChar (n % 16)]

/-- Minimal big-endian hex digits, with explicit fuel so the recursion is
structural (`n + 1` divisions by 16 always more than suffice). -/
def hexDigitsAux : Nat → Nat → List Char
  | 0, _ => []
  | fuel + 1, n =>
    if n < 16 then [hexDigitChar n]
    else hexDigitsAux fuel (n / 16) ++ [hexDigitChar (n % 16)]

/-- Minimal big-endian hex digits of `n` (so `hexDigits 0 = "0"`):
the output of printf %X with no padding. -/
def hexDigits (n : Nat) : List Char := hexDigitsAux (n + 1) n

/-- printf %0wX: `n` in `w` hex digits zero-padded on the left, growing
beyond `w` digits when `n` does not fit (printf pads but never truncates). -/
def padHex (w n : Nat) : List Char :=
  if n < 16 ^ w then hexN w n else hexDigits n

/-- Accumulator form of `parseInt(-, 16)` over hex digit characters. -/
def parseHexAux : Nat → List Char → Nat
  | acc, [] => acc
  | acc, c :: cs => parseHexAux (acc * 16 + hexDigitVal c) cs

/-- `parseInt(s, 16)` on an all-hex-digit string. -/
def parseHex (s : List Char) : Nat := parseHexAux 0 s

/-- `parseInt(s, 10)` on an all-decimal-digit string. -/
def parseDec : List Char → Nat
  | [] => 0
  | c :: cs => parseDecAux (decDigitVal c) cs
where parseDecAux : Nat → List Char → Nat
  | acc, [] => acc
  | acc, c :: cs => parseDecAux (acc * 10 + decDigitVal c) cs

/-- `buf.toString('hex').toUpperCase()` for a byte buffer: each byte as two
uppercase hex digits. -/
def bytesToHex (buf : List Nat) : List Char := buf.flatMap (fun b => padHex 2 b)

/-- Reading a hex string two digits at a time, each pair as one byte value:
this is both the checksum loops (`parseInt(s.slice(i, i+2), 16)` stepped by
two) and `Buffer.from(s, 'hex')`.  A trailing unpaired digit is dropped. -/
def bytePairs : List Char → List Nat
  | a :: b :: rest => (hexDigitVal a * 16 + hexDigitVal b) :: bytePairs rest
  | _ => []

/-- `s.slice(a, b)` on a JS string, for `0 ≤ a ≤ b` (negative ends are
translated to `length - k` at each call site). -/
def jsSlice (a b : Nat) (l : List Char) : List Char := (l.drop a).take (b - a)

/-- Whitespace characters removed by `String.prototype.trim`. -/
def isJsSpace (c : Char) : Bool :=
  c.toNat = 32 || c.toNat = 9 || c.toNat = 10 || c.toNat = 13 || c.toNat = 11 || c.toNat = 12

/-- `String.prototype.trim`. -/
def jsTrim (s : List Char) : List Char :=
  ((s.dropWhile isJsSpace).reverse.dropWhile isJsSpace).reverse

/-- `String.prototype.toUpperCase` on one ASCII character. -/
def jsUpChar (c : Char) : Char :=
  if 97 ≤ c.toNat ∧ c.toNat ≤ 122 then Char.ofNat (c.toNat - 32) else c

/-- `String.prototype.toUpperCase` (ASCII; record strings are ASCII). -/
def jsToUpper (s : List Char) : List Char := s.map jsUpChar

/-- Result shape of every `parseRecord`: `\x7b type, addr, buf \x7d`, with
`type = none` modelling the `null` type of Signetics records. -/
structure ParseResult where
  type : Option Nat
  addr : Nat
  buf : List Nat
deriving DecidableEq, Repr

instance exceptDecEq {e a : Type} [DecidableEq e] [DecidableEq a] : DecidableEq (Except e a) := fun
  | .ok x, .ok y =>
    if h : x = y then .isTrue (by rw [h]) else .isFalse (by intro hh; cases hh; exact h rfl)
  | .ok _, .error _ => .isFalse (by intro hh; cases hh)
  | .error _, .ok _ => .isFalse (by intro hh; cases hh)
  | .error x, .error y =>
    if h : x = y then .isTrue (by rw [h]) else .isFalse (by intro hh; cases hh; exact h rfl)

namespace Intel

/-! ## Intel hex codec (`intel.js`: `buildRecord`, `parseRecord`) -/
/-- The anchored regex test `:([0-9A-F][0-9A-F])` repeated five or more
times: a colon followed by an even number (at least ten) of uppercase hex
digits. -/
def formatOk (s : List Char) : Bool :=
  match s with
  | c :: rest =>
    c == ':' && rest.all isUpHexDigit && rest.length % 2 == 0 && decide (10 ≤ rest.length)
  | [] => false

/-- `buildRecord(type, addr, buf)` from `intel.js`.  `addr & 0xFFFF` and
`type & 0xFF` are `% 65536` and `% 256` on nonnegative integers; the
checksum `-sum & 0xFF` is the two's-complement low byte
`(256 - sum % 256) % 256`; the summing loop reads the summable string two
hex digits at a time (`bytePairs`). -/
def buildRecord (type addr : Nat) (buf : List Nat) : List Char :=
  let summablePart : List Char :=
    padHex 2 buf.length ++ padHex 4 (addr % 65536) ++ padHex 2 (type % 256) ++ bytesToHex buf
  let sum := (bytePairs summablePart).sum
  ':' :: (summablePart ++ padHex 2 ((256 - sum % 256) % 256))

/-- `parseRecord(record)` from `intel.js`: trim and upcase, test the
format regex, compare the declared byte count `(length - 11) / 2` with the
count field, sum every byte from the count field through the checksum and
require `sum & 0xFF == 0`, then extract type (offset 7), address (offset 3)
and data (offset 9 to -2). -/
def parseRecord (record : List Char) : Except String ParseResult :=
  let cleanrec := jsToUpper (jsTrim record)
  if formatOk cleanrec = false then .error "Invalid record"
  else if (cleanrec.length - 11) / 2 ≠ parseHex (jsSlice 1 3 cleanrec) then
    .error "Incorrect byte count"
  else if (bytePairs (cleanrec.drop 1)).sum % 256 ≠ 0 then .error "Incorrect checksum"
  else .ok ⟨some (parseHex (jsSlice 7 9 cleanrec)), parseHex (jsSlice 3 7 cleanrec),
            bytePairs (jsSlice 9 (cleanrec.length - 2) cleanrec)⟩

end Intel

namespace Motorola

/-! ## Motorola S-record codec (`motorola.js`: `buildRecord`, `parseRecord`) -/
/-- Assembling one S-record: printf `S%1d%s%02X` over the summable part
(byte count, address field, data).  The type reaching this point is a
single decimal digit, so `%1d` is one digit character; the checksum
`~sum & 0xFF` is the low byte of the bitwise complement,
`255 - sum % 256`. -/
def mkRecord (type bc : Nat) (addrHex : List Char) (buf : List Nat) : List Char :=
  let summablePart := padHex 2 bc ++ addrHex ++ bytesToHex buf
  let sum := (bytePairs summablePart).sum
  'S' :: hexDigitChar type :: (summablePart ++ padHex 2 (255 - sum % 256))

/-- `buildRecord(type, addr, buf)` from `motorola.js`: a switch on the
record type chooses the address-field width (16/24/32 bits) and the byte
count `buf.length + 3/4/5`; an unsupported type throws.  The JS masks
`& 0xFFFF` / `& 0xFFFFFF` are `% 2^16` / `% 2^24` on nonnegative
integers; `addr & 0xFFFFFFFF` coerces through a signed 32-bit value whose
two's complement printf renders, which is `% 2^32` of a nonnegative
address. -/
def buildRecord (type addr : Nat) (buf : List Nat) : Except String (List Char) :=
  if type = 0 ∨ type = 1 ∨ type = 5 ∨ type = 9 then
    .ok (mkRecord type (buf.length + 3) (padHex 4 (addr % 65536)) buf)
  else if type = 2 ∨ type = 6 ∨ type = 8 then
    .ok (mkRecord type (buf.length + 4) (padHex 6 (addr % 16777216)) buf)
  else if type = 3 ∨ type = 7 then
    .ok (mkRecord type (buf.length + 5) (padHex 8 (addr % 4294967296)) buf)
  else .error ("S" ++ toString type ++ " record not implemented")

/-- The anchored regex test `S[0-35-9]([0-9A-F][0-9A-F])` repeated four or
more times. -/
def formatOk (s : List Char) : Bool :=
  match s with
  | c :: d :: rest =>
    c == 'S' &&
      (d == '0' || d == '1' || d == '2' || d == '3' || d == '5' || d == '6' ||
        d == '7' || d == '8' || d == '9') &&
      rest.all isUpHexDigit && rest.length % 2 == 0 && decide (8 ≤ rest.length)
  | _ => false

/-- `parseRecord(record)` from `motorola.js`: a bare `S9` short form,
then the format regex, the byte-count comparison `(length - 4) / 2`, the
checksum guard, and a switch on the type digit for the field offsets.
The JS checksum guard is written `sum & 0xFF !== 0xFF`, which parses as
`sum & (0xFF !== 0xFF)`; the comparison is `false`, which coerces to `0`,
so the guard tests `sum & 0` and never fires. -/
def parseRecord (record : List Char) : Except String ParseResult :=
  let cleanrec := jsToUpper (jsTrim record)
  if cleanrec = ['S', '9'] then .ok ⟨some 9, 0, []⟩
  else if formatOk cleanrec = false then .error "Invalid record"
  else if (cleanrec.length - 4) / 2 ≠ parseHex (jsSlice 2 4 cleanrec) then
    .error "Incorrect byte count"
  else
    let sum := (bytePairs (cleanrec.drop 2)).sum
    if sum &&& 0 ≠ 0 then .error "Incorrect checksum"
    else
      let type := parseDec (jsSlice 1 2 cleanrec)
      if type = 0 ∨ type = 1 ∨ type = 5 ∨ type = 9 then
        .ok ⟨some type, parseHex (jsSlice 4 8 cleanrec),
          bytePairs (jsSlice 8 (cleanrec.length - 2) cleanrec)⟩
      else if type = 2 ∨ type = 6 ∨ type = 8 then
        .ok ⟨some type, parseHex (jsSlice 4 10 cleanrec),
          bytePairs (jsSlice 10 (cleanrec.length - 2) cleanrec)⟩
      else if type = 3 ∨ type = 7 then
        .ok ⟨some type, parseHex (jsSlice 4 12 cleanrec),
          bytePairs (jsSlice 12 (cleanrec.length - 2) cleanrec)⟩
      else .ok ⟨some type, 0, []⟩

end Motorola

namespace Signetics

/-! ## Signetics codec (`signetics.js`: `bcc`, `buildRecord`, `parseRecord`) -/
/-- The block-control-character update from `signetics.js`:
`sum ^= data; sum <<= 1; sum |= (sum >> 8) & 1; return sum & 0xFF`
(the rotate picks up the updated, shifted value, exactly as the JS
sequencing does). -/
def bcc (sum data : Nat) : Nat :=
  let s1 := sum ^^^ data
  let s2 := s1 <<< 1
  let s3 := s2 ||| ((s2 >>> 8) &&& 1)
  s3 &&& 255

/-- `buildRecord(type, addr, buf)` from `signetics.js` (the type argument
is unused and `null` in every caller).  An empty payload yields the short
EOF record `:AAAA00`; otherwise the address checksum folds `bcc` over the
address high byte, the (already masked) address and the length, and the
data checksum folds it over the payload bytes. -/
def buildRecord (type : Option Nat) (addr0 : Nat) (buf : List Nat) : List Char :=
  let addr := addr0 % 65536
  if buf.length = 0 then ':' :: (padHex 4 addr ++ ['0', '0'])
  else
    let asum := bcc (bcc (bcc 0 (addr >>> 8)) addr) buf.length
    let dsum := buf.foldl bcc 0
    ':' :: (padHex 4 addr ++ padHex 2 buf.length ++ padHex 2 asum ++ bytesToHex buf
      ++ padHex 2 dsum)

/-- The anchored regex test `:[0-9A-F]\x7b4\x7d00` for the short EOF
record: exactly seven characters. -/
def shortEofOk (s : List Char) : Bool :=
  s.length == 7 && s.take 1 == [':'] && ((s.drop 1).take 4).all isUpHexDigit &&
    s.drop 5 == ['0', '0']

/-- The anchored regex test `:([0-9A-F][0-9A-F])` repeated five or more
times, as in the Intel parser. -/
def formatOk (s : List Char) : Bool :=
  match s with
  | c :: rest =>
    c == ':' && rest.all isUpHexDigit && rest.length % 2 == 0 && decide (10 ≤ rest.length)
  | [] => false

/-- `parseRecord(record)` from `signetics.js`: the address is read before
any validation (it is only used on success paths, which guarantee it was
all hex digits); then the short-EOF pattern, the general pattern, the byte
count `(length - 11) / 2`, and both checksums recomputed and compared. -/
def parseRecord (record : List Char) : Except String ParseResult :=
  let cleanrec := jsToUpper (jsTrim record)
  let addr := parseHex (jsSlice 1 5 cleanrec)
  if shortEofOk cleanrec then .ok ⟨none, addr, []⟩
  else if formatOk cleanrec = false then .error "Invalid record"
  else if (cleanrec.length - 11) / 2 ≠ parseHex (jsSlice 5 7 cleanrec) then
    .error "Incorrect byte count"
  else
    let buf := bytePairs (jsSlice 9 (cleanrec.length - 2) cleanrec)
    let asum := bcc (bcc (bcc 0 (addr >>> 8)) addr) buf.length
    let dsum := buf.foldl bcc 0
    if asum ≠ parseHex (jsSlice 7 9 cleanrec) ∨
        dsum ≠ parseHex (jsSlice (cleanrec.length - 2) cleanrec.length cleanrec) then
      .error "Incorrect checksum"
    else .ok ⟨none, addr, buf⟩

end Signetics

/-! ## JS 32-bit helpers for the stream encoders -/
/-- ToInt32: the signed 32-bit coercion JS bitwise operators apply to a
nonnegative integer. -/
def toInt32 (n : Nat) : Int :=
  let m := n % 4294967296
  if m < 2147483648 then (m : Int) else (m : Int) - 4294967296

/-- JS `ptr >> 16` on a nonnegative integer: ToInt32, then an arithmetic
(floor) shift right by 16. -/
def jsShr16 (n : Nat) : Int := (toInt32 n).fdiv 65536

/-- `Buffer.allocUnsafe(2).writeInt16BE(v)`: Node requires
`-32768 ≤ v ≤ 32767`, which always holds of `ptr >> 16` (an arithmetic
shift of a 32-bit value), so the write never throws; it stores the
big-endian two's-complement low 16 bits. -/
def int16BE (v : Int) : List Nat :=
  let m := (v % 65536).toNat
  [m / 256, m % 256]

/-- `Buffer.allocUnsafe(4).writeInt32BE(v)`: Node throws
`ERR_OUT_OF_RANGE` unless `-2147483648 ≤ v ≤ 2147483647`; in range it
stores the big-endian two's-complement low 32 bits. -/
def writeInt32BE (v : Int) : Except String (List Nat) :=
  if v < -2147483648 ∨ 2147483647 < v then .error "ERR_OUT_OF_RANGE"
  else
    let m := (v % 4294967296).toNat
    .ok [m / 16777216, m / 65536 % 256, m / 256 % 256, m % 256]

namespace Intel

/-! ## Intel stream encoder (`intel.js`: `HexStream`) -/
/-- One pushed record, as the argument triple handed to `buildRecord`
(the stream pushes `buildRecord(rtype, addr, buf) + newline`). -/
structure Emit where
  rtype : Nat
  addr : Nat
  buf : List Nat
deriving DecidableEq, Repr

/-- `HexStream` state: `_tmpbuf`, `_ptr`, `_exec`, `_reclen`, `_needea`,
plus the records pushed so far (in push order) and the error thrown, if
any (`none` while the stream is healthy). -/
structure St where
  tmpbuf : List Nat
  ptr : Nat
  exec : Nat
  reclen : Nat
  needea : Bool
  out : List Emit
  err : Option String
deriving DecidableEq, Repr

/-- `new HexStream(header, base, exec, reclen)` from `intel.js`: bad base
or exec addresses throw; a non-integral or out-of-range record length is
silently replaced by the default 0x20.  The header argument is unused. -/
def construct (base exec reclen : Nat) : Except String St :=
  if 4294967295 < base then .error "Bad base address"
  else if 4294967295 < exec then .error "Bad exec address"
  else
    let reclen := if reclen < 1 ∨ 255 < reclen then 32 else reclen
    .ok ⟨[], base, exec, reclen, true, [], none⟩

/-- `this.push(buildRecord(...) + newline)`. -/
def pushRec (s : St) (e : Emit) : St := { s with out := s.out ++ [e] }

/-- The body of the generator loop of `_transform` once `recbytes` has
reached `_reclen` bytes: an extended-address record is pushed first if
`_needea` is set (clearing it), then the data record at the low 16
address bits; `_needea` is set again if the record crossed or ended on a
64KB boundary (`ptr >> 16 !== (ptr + reclen) >> 16`), and the pointer
advances by `_reclen`. -/
def emitStep (s : St) (recb : List Nat) : St :=
  let s1 := if s.needea
    then { pushRec s ⟨4, 0, int16BE (jsShr16 s.ptr)⟩ with needea := false }
    else s
  let s2 := pushRec s1 ⟨0, s.ptr % 65536, recb⟩
  let s3 := if jsShr16 s.ptr ≠ jsShr16 (s.ptr + s.reclen)
    then { s2 with needea := true } else s2
  { s3 with ptr := s.ptr + s.reclen }

/-- The byte generator loop of `_transform`: each byte is appended to
`recbytes`; when `recbytes` reaches `_reclen` bytes, `emitStep` runs and
the record buffer restarts empty.  Exhausting the generator stores the
incomplete record back into `_tmpbuf`. -/
def feedLoop : St → List Nat → List Nat → St
  | s, recbytes, [] => { s with tmpbuf := recbytes }
  | s, recbytes, b :: bs =>
    let recbytes2 := recbytes ++ [b]
    if recbytes2.length = s.reclen then
      feedLoop (emitStep s recbytes2) [] bs
    else
      feedLoop s recbytes2 bs

/-- `_transform(chunk)`: run the generator over `_tmpbuf` followed by the
chunk. -/
def feed (s : St) (chunk : List Nat) : St := feedLoop s [] (s.tmpbuf ++ chunk)

/-- `_flush()`: push the remaining partial payload as a final data record
(extended address first if needed), then the start-linear-address record
when the exec address is nonzero — whose `writeInt32BE` throws for exec
addresses at or above 2^31, aborting before the EOF record — then the
EOF record. -/
def flush (s : St) : St :=
  let s1 :=
    if s.tmpbuf.length ≠ 0 then
      let sa := if s.needea then pushRec s ⟨4, 0, int16BE (jsShr16 s.ptr)⟩ else s
      pushRec sa ⟨0, s.ptr % 65536, s.tmpbuf⟩
    else s
  if s1.exec ≠ 0 then
    match writeInt32BE (s1.exec : Int) with
    | .error e => { s1 with err := some e }
    | .ok b => pushRec (pushRec s1 ⟨5, 0, b⟩) ⟨1, 0, []⟩
  else pushRec s1 ⟨1, 0, []⟩

/-- A whole stream run: construct, feed the chunks in order, flush. -/
def run (base exec reclen : Nat) (chunks : List (List Nat)) : Except String St :=
  (construct base exec reclen).map (fun s0 => flush (chunks.foldl feed s0))

/-- Concatenated payloads of the data (type 0) records, in push order. -/
def dataFlat (out : List Emit) : List Nat :=
  (out.filter (fun e => e.rtype == 0)).flatMap (fun e => e.buf)

end Intel

namespace Motorola

/-! ## Motorola stream encoder (`motorola.js`: `HexStream`) -/
/-- One pushed record, as the argument triple handed to `buildRecord`. -/
structure Emit where
  rtype : Nat
  addr : Nat
  buf : List Nat
deriving DecidableEq, Repr

/-- `HexStream` state: `_tmpbuf`, `_cnt`, `_ptr`, `_exec`, `_reclen`,
the records pushed so far and the error passed to a callback, if any. -/
structure St where
  tmpbuf : List Nat
  cnt : Nat
  ptr : Nat
  exec : Nat
  reclen : Nat
  out : List Emit
  err : Option String
deriving DecidableEq, Repr

/-- `_dtype`: data record type by current pointer magnitude. -/
def dtype (addr : Nat) : Nat :=
  if 16777215 < addr then 3 else if 65535 < addr then 2 else 1

/-- `_ctype`: count record type by record-count magnitude. -/
def ctype (n : Nat) : Nat := if 65535 < n then 6 else 5

/-- `_atype`: termination record type by exec-address magnitude. -/
def atype (addr : Nat) : Nat :=
  if 16777215 < addr then 7 else if 65535 < addr then 8 else 9

/-- `new HexStream(header, base, exec, reclen)` from `motorola.js`: bad
base or exec addresses throw; a record length that is non-integral, below
1 or with `reclen + 5 > 0xFF` is silently replaced by the default 0x20.
A non-empty header longer than the record length throws, otherwise it is
pushed immediately as an S0 record (a falsy — absent or empty — header is
skipped entirely). -/
def construct (header : List Nat) (base exec reclen : Nat) : Except String St :=
  if 4294967295 < base then .error "Bad base address"
  else if 4294967295 < exec then .error "Bad exec address"
  else
    let reclen := if reclen < 1 ∨ 255 < reclen + 5 then 32 else reclen
    if header.length ≠ 0 then
      if reclen < header.length then .error "Header too long"
      else .ok ⟨[], 0, base, exec, reclen, [⟨0, 0, header⟩], none⟩
    else .ok ⟨[], 0, base, exec, reclen, [], none⟩

def pushRec (s : St) (e : Emit) : St := { s with out := s.out ++ [e] }

/-- The while loop of `_transform`: emit one full-length record from
`chunk` at `chunkptr` while one fits, checking the pointer against the
32-bit bound before every record; the remainder becomes `_tmpbuf`.  The
fuel argument only bounds the iteration count (each iteration advances
`chunkptr` by `_reclen ≥ 1`, so `chunk.length + 1` iterations always
suffice); every lemma supplies sufficient fuel. -/
def feedMore : Nat → St → List Nat → Nat → St
  | 0, s, chunk, chunkptr => { s with tmpbuf := chunk.drop chunkptr }
  | fuel + 1, s, chunk, chunkptr =>
    if chunkptr + s.reclen ≤ chunk.length then
      if 4294967295 < s.ptr then { s with err := some "Load address too wide" }
      else
        feedMore fuel
          { pushRec s ⟨dtype s.ptr, s.ptr, (chunk.drop chunkptr).take s.reclen⟩ with
              cnt := s.cnt + 1, ptr := s.ptr + s.reclen }
          chunk (chunkptr + s.reclen)
    else { s with tmpbuf := chunk.drop chunkptr }

/-- `_transform(chunk)`: too little data is only buffered; otherwise the
first record completes the leftover `_tmpbuf`, then the loop emits the
rest.  An errored stream receives no further callbacks, and an error
return leaves `_tmpbuf` as it was. -/
def feed (s : St) (chunk : List Nat) : St :=
  if s.err.isSome then s
  else if s.tmpbuf.length + chunk.length < s.reclen then
    { s with tmpbuf := s.tmpbuf ++ chunk }
  else
    let chunkptr := s.reclen - s.tmpbuf.length
    if 4294967295 < s.ptr then { s with err := some "Load address too wide" }
    else
      feedMore (chunk.length + 1)
        { pushRec s ⟨dtype s.ptr, s.ptr, s.tmpbuf ++ chunk.take chunkptr⟩ with
            cnt := s.cnt + 1, ptr := s.ptr + s.reclen }
        chunk chunkptr

/-- `_flush()`: the remaining partial payload as one short data record
(with the same pointer bound check, which on failure aborts the whole
flush), then the count record when `0 < _cnt ≤ 0xFFFFFF`, then the
termination record carrying the exec address. -/
def flush (s : St) : St :=
  if s.err.isSome then s
  else if s.tmpbuf.length ≠ 0 ∧ 4294967295 < s.ptr then
    { s with err := some "Load address too wide" }
  else
    let s1 := if s.tmpbuf.length ≠ 0 then
        { pushRec s ⟨dtype s.ptr, s.ptr, s.tmpbuf⟩ with cnt := s.cnt + 1 }
      else s
    let s2 := if 0 < s1.cnt ∧ s1.cnt ≤ 16777215 then
        pushRec s1 ⟨ctype s1.cnt, s1.cnt, []⟩
      else s1
    pushRec s2 ⟨atype s2.exec, s2.exec, []⟩

/-- A whole stream run: construct, feed the chunks in order, flush. -/
def run (header : List Nat) (base exec reclen : Nat) (chunks : List (List Nat)) :
    Except String St :=
  (construct header base exec reclen).map (fun s0 => flush (chunks.foldl feed s0))

/-- Data records are those of type S1/S2/S3. -/
def isData (e : Emit) : Bool := e.rtype == 1 || e.rtype == 2 || e.rtype == 3

/-- Concatenated payloads of the data records, in push order. -/
def dataFlat (out : List Emit) : List Nat :=
  (out.filter isData).flatMap (fun e => e.buf)

end Motorola

namespace Signetics

/-! ## Signetics stream encoder (`signetics.js`: `HexStream`) -/
/-- One pushed record, as the (address, payload) pair handed to
`buildRecord` (Signetics records have no type). -/
structure Emit where
  addr : Nat
  buf : List Nat
deriving DecidableEq, Repr

/-- `HexStream` state: `_tmpbuf`, `_ptr`, `_exec`, `_reclen` and the
records pushed so far. -/
structure St where
  tmpbuf : List Nat
  ptr : Nat
  exec : Nat
  reclen : Nat
  out : List Emit
deriving DecidableEq, Repr

/-- `new HexStream(header, base, exec, reclen)` from `signetics.js`: bad
base or exec addresses (16-bit here) throw; a non-integral or
out-of-range record length is silently replaced by the default 0x20.
The header argument is unused. -/
def construct (base exec reclen : Nat) : Except String St :=
  if 65535 < base then .error "Bad base address"
  else if 65535 < exec then .error "Bad exec address"
  else
    let reclen := if reclen < 1 ∨ 255 < reclen then 32 else reclen
    .ok ⟨[], base, exec, reclen, []⟩

def pushRec (s : St) (e : Emit) : St := { s with out := s.out ++ [e] }

/-- The byte generator loop of `_transform`, as in the Intel stream but
with no extended-address bookkeeping. -/
def feedLoop : St → List Nat → List Nat → St
  | s, recbytes, [] => { s with tmpbuf := recbytes }
  | s, recbytes, b :: bs =>
    let recbytes2 := recbytes ++ [b]
    if recbytes2.length = s.reclen then
      feedLoop { pushRec s ⟨s.ptr % 65536, recbytes2⟩ with ptr := s.ptr + s.reclen } [] bs
    else
      feedLoop s recbytes2 bs

/-- `_transform(chunk)`. -/
def feed (s : St) (chunk : List Nat) : St := feedLoop s [] (s.tmpbuf ++ chunk)

/-- `_flush()`: the remaining partial payload as one short record, then
the short EOF record carrying the exec address (`_exec ? _exec : 0`). -/
def flush (s : St) : St :=
  let s1 := if s.tmpbuf.length ≠ 0 then pushRec s ⟨s.ptr % 65536, s.tmpbuf⟩ else s
  pushRec s1 ⟨(if s1.exec ≠ 0 then s1.exec else 0), []⟩

/-- A whole stream run: construct, feed the chunks in order, flush. -/
def run (base exec reclen : Nat) (chunks : List (List Nat)) : Except String St :=
  (construct base exec reclen).map (fun s0 => flush (chunks.foldl feed s0))

/-- Concatenated payloads of the pushed records, in push order (the EOF
record has an empty payload and contributes nothing). -/
def dataFlat (out : List Emit) : List Nat := out.flatMap (fun e => e.buf)

end Signetics

namespace Motorola

/-- The running invariant of a healthy Motorola `HexStream` that was
constructed with base address `base`: no error, the pending buffer
shorter than the record length, the pointer equal to the base plus the
number of data bytes pushed, the counter equal to the number of data
records pushed, and every pushed data record typed by `_dtype` of its own
start address with its span inside the bytes pushed so far. -/
def Inv (base : Nat) (s : St) : Prop :=
  s.err = none ∧ s.tmpbuf.length < s.reclen ∧ 1 ≤ s.reclen ∧
    s.ptr = base + (dataFlat s.out).length ∧
    s.cnt = (s.out.filter isData).length ∧
    (∀ e ∈ s.out, isData e = true →
      e.rtype = dtype e.addr ∧ base ≤ e.addr ∧ 1 ≤ e.buf.length ∧
        e.addr + e.buf.length ≤ base + (dataFlat s.out).length)

end Motorola

namespace Intel

/-- Whether the extended-address record precedes data record `k` of a
`feedLoop` run from pointer `ptr0` with flag `needea0`: record 0 inherits
the flag; a later record needs it exactly when the previous record
crossed or ended on a 64KB boundary (the `ptr >> 16` comparison of the
source, on the signed 32-bit shift). -/
def eaNeeded (needea0 : Bool) (ptr0 r k : Nat) : Bool :=
  if k = 0 then needea0
  else if jsShr16 (ptr0 + (k - 1) * r) ≠ jsShr16 (ptr0 + k * r) then true else false

/-- The record sequence `feedLoop` pushes for a byte list `total`: for
each full-record index `k`, the extended-address record (payload: high 16
bits of the record pointer) exactly when `eaNeeded`, immediately followed
by the data record at the low 16 bits of the pointer carrying bytes
`k*r` to `k*r + r` of the input. -/
def emitsFor (needea0 : Bool) (ptr0 r : Nat) (total : List Nat) : List Emit :=
  (List.range (total.length / r)).flatMap (fun k =>
    (if eaNeeded needea0 ptr0 r k then [⟨4, 0, int16BE (jsShr16 (ptr0 + k * r))⟩] else [])
      ++ [⟨0, (ptr0 + k * r) % 65536, (total.drop (k * r)).take r⟩])

end Intel

-- ### Basic facts about the hex utilities
theorem hexDigitVal_hexDigitChar : ∀ n, n < 16 → hexDigitVal (hexDigitChar n) = n := by decide

theorem isUpHexDigit_hexDigitChar : ∀ n, n < 16 → isUpHexDigit (hexDigitChar n) = true := by
  decide

theorem hexN_length (w : Nat) : ∀ n, (hexN w n).length = w := by
  induction w with
  | zero => intro n; rfl
  | succ w ih => intro n; simp [hexN, ih]

theorem hexN_all_hex (w : Nat) : ∀ n, ∀ c ∈ hexN w n, isUpHexDigit c = true := by
  induction w with
  | zero => intro n c hc; simp [hexN] at hc
  | succ w ih =>
    intro n c hc
    simp only [hexN, List.mem_append, List.mem_singleton] at hc
    rcases hc with h | h
    · exact ih _ c h
    · subst h; exact isUpHexDigit_hexDigitChar _ (Nat.mod_lt _ (by omega))

theorem parseHexAux_append (s t : List Char) :
    ∀ acc, parseHexAux acc (s ++ t) = parseHexAux (parseHexAux acc s) t := by
  induction s with
  | nil => intro acc; rfl
  | cons c cs ih => intro acc; simp [parseHexAux, ih]

theorem parseHex_hexN (w : Nat) : ∀ n, n < 16 ^ w → parseHex (hexN w n) = n := by
  induction w with
  | zero => intro n hn; interval_cases n; rfl
  | succ w ih =>
    intro n hn
    have hdiv : n / 16 < 16 ^ w := by
      rw [Nat.div_lt_iff_lt_mul (by omega)]
      calc n < 16 ^ (w + 1) := hn
        _ = 16 ^ w * 16 := by ring
    have := ih (n / 16) hdiv
    simp only [parseHex, hexN, parseHexAux_append, parseHexAux] at this ⊢
    rw [this, hexDigitVal_hexDigitChar _ (Nat.mod_lt _ (by omega))]
    omega

theorem padHex_eq_hexN (w n : Nat) (h : n < 16 ^ w) : padHex w n = hexN w n := by
  simp [padHex, h]

theorem hexN_split (w1 w2 n : Nat) :
    hexN (w1 + w2) n = hexN w1 (n / 16 ^ w2) ++ hexN w2 (n % 16 ^ w2) := by
  induction w2 generalizing n with
  | zero => simp [hexN, Nat.mod_one]
  | succ w2 ih =>
    have h1 : n % 16 ^ (w2 + 1) % 16 = n % 16 := by
      rw [Nat.mod_mod_of_dvd]
      exact Dvd.intro_left (16 ^ w2) (by ring)
    have h2 : n % 16 ^ (w2 + 1) / 16 = n / 16 % 16 ^ w2 := by
      rw [show (16 : Nat) ^ (w2 + 1) = 16 * 16 ^ w2 by ring]
      rw [Nat.mod_mul_right_div_self]
    have h3 : n / 16 / 16 ^ w2 = n / 16 ^ (w2 + 1) := by
      rw [Nat.div_div_eq_div_mul]
      congr 1
      ring
    calc hexN (w1 + (w2 + 1)) n
        = hexN (w1 + w2) (n / 16) ++ [hexDigitChar (n % 16)] := by
          rw [show w1 + (w2 + 1) = (w1 + w2) + 1 by ring]; rfl
      _ = (hexN w1 (n / 16 / 16 ^ w2) ++ hexN w2 (n / 16 % 16 ^ w2))
            ++ [hexDigitChar (n % 16)] := by rw [ih]
      _ = hexN w1 (n / 16 ^ (w2 + 1)) ++ hexN (w2 + 1) (n % 16 ^ (w2 + 1)) := by
          rw [h3, List.append_assoc]
          congr 1
          show _ = hexN w2 (n % 16 ^ (w2+1) / 16) ++ [hexDigitChar (n % 16 ^ (w2+1) % 16)]
          rw [h1, h2]

theorem bytePairs_append (ys : List Char) :
    ∀ xs : List Char, xs.length % 2 = 0 →
      bytePairs (xs ++ ys) = bytePairs xs ++ bytePairs ys
  | [], _ => rfl
  | [a], h => by simp at h
  | a :: b :: t, h => by
    simp only [List.cons_append, bytePairs, List.append_eq]
    rw [bytePairs_append ys t (by simp only [List.length_cons] at h; omega)]

theorem bytePairs_hexN_two (b : Nat) (hb : b < 256) :
    bytePairs (hexN 2 b) = [b] := by
  show bytePairs (hexN 1 (b / 16) ++ [hexDigitChar (b % 16)]) = [b]
  show bytePairs ((hexN 0 (b / 16 / 16) ++ [hexDigitChar (b / 16 % 16)]) ++ _) = [b]
  have h1 : b / 16 / 16 = 0 := by omega
  have h2 : b / 16 % 16 = b / 16 := Nat.mod_eq_of_lt (by omega)
  simp only [hexN, h1, h2, List.nil_append, List.cons_append, List.nil_append]
  simp only [bytePairs]
  rw [hexDigitVal_hexDigitChar _ (by omega), hexDigitVal_hexDigitChar _ (Nat.mod_lt _ (by omega))]
  congr 1
  omega

theorem bytesToHex_eq_flat_hexN (buf : List Nat) (h : ∀ b ∈ buf, b < 256) :
    bytesToHex buf = buf.flatMap (fun b => hexN 2 b) := by
  induction buf with
  | nil => rfl
  | cons b t ih =>
    simp only [bytesToHex, List.flatMap_cons] at ih ⊢
    rw [padHex_eq_hexN 2 b (by have := h b (by simp); omega),
        ih (fun x hx => h x (by simp [hx]))]

theorem bytesToHex_length (buf : List Nat) (h : ∀ b ∈ buf, b < 256) :
    (bytesToHex buf).length = 2 * buf.length := by
  rw [bytesToHex_eq_flat_hexN buf h]
  induction buf with
  | nil => rfl
  | cons b t ih =>
    simp only [List.flatMap_cons, List.length_append, hexN_length, List.length_cons]
    rw [ih (fun x hx => h x (by simp [hx]))]
    omega

theorem hexDigitsAux_all_hex (fuel : Nat) :
    ∀ n, ∀ c ∈ hexDigitsAux fuel n, isUpHexDigit c = true := by
  induction fuel with
  | zero => intro n c hc; simp [hexDigitsAux] at hc
  | succ fuel ih =>
    intro n c hc
    rw [hexDigitsAux] at hc
    split at hc
    · simp only [List.mem_singleton] at hc
      subst hc
      exact isUpHexDigit_hexDigitChar _ (by omega)
    · simp only [List.mem_append, List.mem_singleton] at hc
      rcases hc with h | h
      · exact ih (n / 16) c h
      · subst h; exact isUpHexDigit_hexDigitChar _ (Nat.mod_lt _ (by omega))

theorem hexDigits_all_hex (n : Nat) : ∀ c ∈ hexDigits n, isUpHexDigit c = true :=
  hexDigitsAux_all_hex (n + 1) n

theorem bytesToHex_all_hex (buf : List Nat) :
    ∀ c ∈ bytesToHex buf, isUpHexDigit c = true := by
  induction buf with
  | nil => intro c hc; simp [bytesToHex] at hc
  | cons b t ih =>
    intro c hc
    simp only [bytesToHex, List.flatMap_cons, List.mem_append] at hc
    rcases hc with h | h
    · unfold padHex at h
      split at h
      · exact hexN_all_hex 2 b c h
      · exact hexDigits_all_hex b c h
    · exact ih c h

theorem bytePairs_bytesToHex (buf : List Nat) (h : ∀ b ∈ buf, b < 256) :
    bytePairs (bytesToHex buf) = buf := by
  rw [bytesToHex_eq_flat_hexN buf h]
  induction buf with
  | nil => rfl
  | cons b t ih =>
    have hb : b < 256 := h b (by simp)
    simp only [List.flatMap_cons]
    rw [bytePairs_append _ _ (by rw [hexN_length])]
    rw [bytePairs_hexN_two b hb, ih (fun x hx => h x (by simp [hx]))]
    rfl

theorem jsSlice_eq (a b : Nat) (l p m s : List Char) (hl : l = p ++ (m ++ s))
    (ha : a = p.length) (hb : b = p.length + m.length) : jsSlice a b l = m := by
  subst hl ha hb
  unfold jsSlice
  rw [List.drop_append_of_le_length (le_refl _), List.drop_length, List.nil_append]
  rw [Nat.add_sub_cancel_left]
  rw [List.take_append_of_le_length (le_refl _), List.take_length]

theorem dropWhile_eq_self_of (p : Char → Bool) :
    ∀ s : List Char, (∀ c ∈ s, p c = false) → s.dropWhile p = s
  | [], _ => rfl
  | c :: cs, h => by simp [List.dropWhile, h c (by simp)]

theorem jsTrim_eq_self (s : List Char) (h : ∀ c ∈ s, isJsSpace c = false) :
    jsTrim s = s := by
  unfold jsTrim
  rw [dropWhile_eq_self_of _ s h]
  rw [dropWhile_eq_self_of _ s.reverse (fun c hc => h c (List.mem_reverse.mp hc))]
  exact List.reverse_reverse s

theorem jsToUpper_eq_self (s : List Char) (h : ∀ c ∈ s, jsUpChar c = c) :
    jsToUpper s = s := by
  unfold jsToUpper
  induction s with
  | nil => rfl
  | cons c cs ih =>
    simp only [List.map_cons, h c (by simp), List.cons.injEq, true_and]
    exact ih (fun x hx => h x (by simp [hx]))

theorem clean_of_hex (c : Char) (h : isUpHexDigit c = true) :
    isJsSpace c = false ∧ jsUpChar c = c := by
  simp only [isUpHexDigit, Bool.or_eq_true, Bool.and_eq_true, decide_eq_true_eq] at h
  constructor
  · simp only [isJsSpace, Bool.or_eq_false_iff, decide_eq_false_iff_not]
    omega
  · unfold jsUpChar
    rw [if_neg]
    omega

theorem clean_colon : isJsSpace ':' = false ∧ jsUpChar ':' = ':' := by decide

theorem clean_S : isJsSpace 'S' = false ∧ jsUpChar 'S' = 'S' := by decide

theorem pairSum_set (c : Char) :
    ∀ (l : List Char) (j : Nat), j < l.length → l.length % 2 = 0 →
      (bytePairs (l.set j c)).sum + hexDigitVal (l.getD j ' ') * (if j % 2 = 0 then 16 else 1)
        = (bytePairs l).sum + hexDigitVal c * (if j % 2 = 0 then 16 else 1)
  | [], j, h, _ => by simp at h
  | [a], _, _, he => by simp at he
  | a :: b :: t, 0, _, _ => by
    show (bytePairs (c :: b :: t)).sum + hexDigitVal a * _ = _
    simp only [bytePairs, List.sum_cons, Nat.zero_mod, if_true, reduceIte]
    omega
  | a :: b :: t, 1, _, _ => by
    show (bytePairs (a :: c :: t)).sum + hexDigitVal b * _ = _
    have h1 : (if 1 % 2 = 0 then (16 : Nat) else 1) = 1 := by norm_num
    rw [h1]
    simp only [bytePairs, List.sum_cons]
    omega
  | a :: b :: t, j + 2, h, he => by
    show (bytePairs (a :: b :: t.set j c)).sum + hexDigitVal (t.getD j ' ') * _ = _
    simp only [bytePairs, List.sum_cons]
    have hj : j < t.length := by simp only [List.length_cons] at h; omega
    have het : t.length % 2 = 0 := by simp only [List.length_cons] at he; omega
    have := pairSum_set c t j hj het
    have hmod : (j + 2) % 2 = j % 2 := by omega
    rw [hmod]
    omega

/-- Concrete case from the documentation: building the Intel record for
"address gap" at address 0x0010 yields the documented string. -/
theorem intel_concrete_case :
    Intel.buildRecord 0 16 [97, 100, 100, 114, 101, 115, 115, 32, 103, 97, 112]
      = ":0B0010006164647265737320676170A7".toList := by decide

theorem clean_record (s : List Char)
    (h : ∀ c ∈ s, isUpHexDigit c = true ∨ c = ':' ∨ c = 'S') :
    jsToUpper (jsTrim s) = s := by
  have hs : ∀ c ∈ s, isJsSpace c = false ∧ jsUpChar c = c := by
    intro c hc
    rcases h c hc with hh | hh | hh
    · exact clean_of_hex c hh
    · subst hh; exact clean_colon
    · subst hh; exact clean_S
  rw [jsTrim_eq_self s (fun c hc => (hs c hc).1), jsToUpper_eq_self s (fun c hc => (hs c hc).2)]

namespace Intel

theorem buildRecord_eq (t a : Nat) (buf : List Nat) (ht : t < 256) (ha : a < 65536)
    (hlen : buf.length ≤ 255) :
    buildRecord t a buf =
      ':' :: (hexN 2 buf.length ++ hexN 4 a ++ hexN 2 t ++ bytesToHex buf
        ++ hexN 2 ((256 -
            (bytePairs (hexN 2 buf.length ++ hexN 4 a ++ hexN 2 t ++ bytesToHex buf)).sum % 256)
              % 256)) := by
  simp only [buildRecord]
  rw [Nat.mod_eq_of_lt ha, Nat.mod_eq_of_lt ht]
  rw [padHex_eq_hexN 2 buf.length (by norm_num; omega), padHex_eq_hexN 4 a (by norm_num; omega),
    padHex_eq_hexN 2 t (by norm_num; omega),
    padHex_eq_hexN 2 _ (by
      have := Nat.mod_lt (256 - (bytePairs (hexN 2 buf.length ++ hexN 4 a ++ hexN 2 t
        ++ bytesToHex buf)).sum % 256) (show 0 < 256 by norm_num)
      norm_num
      omega)]

theorem bytePairs_hexN_four (a : Nat) (ha : a < 65536) :
    bytePairs (hexN 4 a) = [a / 256, a % 256] := by
  rw [show (4 : Nat) = 2 + 2 from rfl, hexN_split 2 2 a]
  rw [bytePairs_append _ _ (by rw [hexN_length])]
  rw [show (16 : Nat) ^ 2 = 256 from rfl]
  rw [bytePairs_hexN_two (a / 256) (by omega), bytePairs_hexN_two (a % 256) (by omega)]
  rfl

/-- Round-trip for the Intel codec: parsing a built record recovers the
masked-in-range type, address and payload exactly. -/
theorem parse_build (t a : Nat) (buf : List Nat) (ht : t < 256) (ha : a < 65536)
    (hlen : buf.length ≤ 255) (hb : ∀ b ∈ buf, b < 256) :
    parseRecord (buildRecord t a buf) = .ok ⟨some t, a, buf⟩ := by
  have hB_len : (bytesToHex buf).length = 2 * buf.length := bytesToHex_length buf hb
  -- names for the pieces of the record
  set S : List Char := hexN 2 buf.length ++ hexN 4 a ++ hexN 2 t ++ bytesToHex buf with hS
  set sumS : Nat := (bytePairs S).sum with hsumS
  set cks : Nat := (256 - sumS % 256) % 256 with hcks
  have hcks_lt : cks < 256 := Nat.mod_lt _ (by norm_num)
  have hrec : buildRecord t a buf = ':' :: (S ++ hexN 2 cks) :=
    buildRecord_eq t a buf ht ha hlen
  have hS_len : S.length = 8 + 2 * buf.length := by
    simp only [hS, List.length_append, hexN_length, hB_len]
  -- every character of the record is clean
  have hrest_hex : ∀ c ∈ S ++ hexN 2 cks, isUpHexDigit c = true := by
    intro c hc
    simp only [hS, List.append_assoc, List.mem_append] at hc
    rcases hc with h | h | h | h | h
    · exact hexN_all_hex 2 _ c h
    · exact hexN_all_hex 4 _ c h
    · exact hexN_all_hex 2 _ c h
    · exact bytesToHex_all_hex buf c h
    · exact hexN_all_hex 2 _ c h
  have hclean : jsToUpper (jsTrim (buildRecord t a buf)) = buildRecord t a buf := by
    apply clean_record
    intro c hc
    rw [hrec] at hc
    rcases List.mem_cons.mp hc with h | h
    · right; left; exact h
    · left; exact hrest_hex c h
  -- the record passes the format test
  have hformat : formatOk (buildRecord t a buf) = true := by
    rw [hrec]
    simp only [formatOk, beq_self_eq_true, Bool.true_and, Bool.and_eq_true,
      List.all_eq_true, beq_iff_eq, decide_eq_true_eq]
    refine ⟨⟨fun c hc => hrest_hex c hc, ?_⟩, ?_⟩ <;>
      simp only [List.length_append, hexN_length, hB_len] <;> omega
  have hlen_rec : (buildRecord t a buf).length = 11 + 2 * buf.length := by
    rw [hrec]
    simp only [List.length_cons, List.length_append, hexN_length, hS_len]
    omega
  -- field slices
  have hslice13 : jsSlice 1 3 (buildRecord t a buf) = hexN 2 buf.length := by
    refine jsSlice_eq 1 3 _ [':'] (hexN 2 buf.length)
      (hexN 4 a ++ hexN 2 t ++ bytesToHex buf ++ hexN 2 cks) ?_ (by simp) (by simp [hexN_length])
    rw [hrec]
    simp [hS, List.append_assoc]
  have hslice37 : jsSlice 3 7 (buildRecord t a buf) = hexN 4 a := by
    refine jsSlice_eq 3 7 _ (':' :: hexN 2 buf.length) (hexN 4 a)
      (hexN 2 t ++ bytesToHex buf ++ hexN 2 cks) ?_ (by simp [hexN_length])
      (by simp [hexN_length])
    rw [hrec]
    simp [hS, List.append_assoc]
  have hslice79 : jsSlice 7 9 (buildRecord t a buf) = hexN 2 t := by
    refine jsSlice_eq 7 9 _ (':' :: (hexN 2 buf.length ++ hexN 4 a)) (hexN 2 t)
      (bytesToHex buf ++ hexN 2 cks) ?_ (by simp [hexN_length]) (by simp [hexN_length])
    rw [hrec]
    simp [hS, List.append_assoc]
  have hslice9 : jsSlice 9 ((buildRecord t a buf).length - 2) (buildRecord t a buf)
      = bytesToHex buf := by
    refine jsSlice_eq 9 _ _ (':' :: (hexN 2 buf.length ++ hexN 4 a ++ hexN 2 t))
      (bytesToHex buf) (hexN 2 cks) ?_ (by simp [hexN_length]) ?_
    · rw [hrec]
      simp [hS, List.append_assoc]
    · simp only [hlen_rec, List.length_cons, List.length_append, hexN_length, hB_len]
      omega
  -- the checksum balances
  have hpairs_S : bytePairs S = buf.length :: (a / 256) :: (a % 256) :: t :: buf := by
    simp only [hS]
    rw [List.append_assoc, List.append_assoc]
    rw [bytePairs_append _ _ (by rw [hexN_length])]
    rw [bytePairs_append _ _ (by rw [hexN_length])]
    rw [bytePairs_append _ _ (by rw [hexN_length])]
    rw [bytePairs_hexN_two buf.length (by omega), bytePairs_hexN_four a ha,
      bytePairs_hexN_two t ht, bytePairs_bytesToHex buf hb]
    rfl
  have hsum_all : (bytePairs ((buildRecord t a buf).drop 1)).sum % 256 = 0 := by
    have hdrop : (buildRecord t a buf).drop 1 = S ++ hexN 2 cks := by rw [hrec]; rfl
    rw [hdrop, bytePairs_append _ _ (by rw [hS_len]; omega), bytePairs_hexN_two cks hcks_lt]
    simp only [List.sum_append, List.sum_cons, List.sum_nil]
    have : (bytePairs S).sum = sumS := hsumS.symm
    omega
  -- evaluate the parser
  simp only [parseRecord]
  rw [hclean, hformat]
  simp only [Bool.true_eq_false, if_false]
  rw [hslice13, parseHex_hexN 2 buf.length (by norm_num; omega), hlen_rec]
  rw [if_neg (by omega)]
  rw [if_neg (by rw [hsum_all]; exact fun hh => hh rfl)]
  rw [hlen_rec] at hslice9
  rw [hslice79, hslice37, hslice9]
  rw [parseHex_hexN 2 t (by norm_num; omega), parseHex_hexN 4 a (by norm_num; omega),
    bytePairs_bytesToHex buf hb]

end Intel

/-- Concrete case from the documentation: the Motorola record for
"Hello world.\n\0" at address 0x0038 with type 1, both directions. -/
theorem motorola_concrete_case :
    Motorola.buildRecord 1 56 [72, 101, 108, 108, 111, 32, 119, 111, 114, 108, 100, 46, 10, 0]
        = .ok "S111003848656C6C6F20776F726C642E0A0042".toList ∧
      Motorola.parseRecord "S111003848656C6C6F20776F726C642E0A0042".toList
        = .ok ⟨some 1, 56, [72, 101, 108, 108, 111, 32, 119, 111, 114, 108, 100, 46, 10, 0]⟩ := by
  constructor <;> decide

namespace Motorola

theorem mkRecord_eq (t bc : Nat) (aHex : List Char) (buf : List Nat) (hbc : bc < 256) :
    mkRecord t bc aHex buf =
      'S' :: hexDigitChar t :: (hexN 2 bc ++ aHex ++ bytesToHex buf
        ++ hexN 2 (255 - (bytePairs (hexN 2 bc ++ aHex ++ bytesToHex buf)).sum % 256)) := by
  simp only [mkRecord]
  rw [padHex_eq_hexN 2 bc (by norm_num; omega),
    padHex_eq_hexN 2 _ (by
      have := Nat.mod_lt ((bytePairs (hexN 2 bc ++ aHex ++ bytesToHex buf)).sum)
        (show 0 < 256 by norm_num)
      norm_num
      omega)]

theorem digit_class_ok : ∀ t, t < 10 → t ≠ 4 →
    ((hexDigitChar t == '0') || (hexDigitChar t == '1') || (hexDigitChar t == '2') ||
      (hexDigitChar t == '3') || (hexDigitChar t == '5') || (hexDigitChar t == '6') ||
      (hexDigitChar t == '7') || (hexDigitChar t == '8') || (hexDigitChar t == '9')) = true := by
  decide

theorem parseDec_digit : ∀ t, t < 10 → parseDec [hexDigitChar t] = t := by decide

/-- Common shape of the Motorola round-trip: parsing an assembled record
`S <digit t> <2-digit bc> <w-digit addr> <data> <checksum>` with in-range
fields reaches the type switch with the digit value `t`. -/
theorem parse_mk (t w bc a : Nat) (buf : List Nat)
    (ht10 : t < 10) (ht4 : t ≠ 4) (hw : w = 4 ∨ w = 6 ∨ w = 8)
    (hbc_eq : bc = buf.length + w / 2 + 1) (hbc : bc < 256)
    (hb : ∀ b ∈ buf, b < 256) :
    parseRecord (mkRecord t bc (hexN w a) buf)
      = (if t = 0 ∨ t = 1 ∨ t = 5 ∨ t = 9 then
          .ok ⟨some t, parseHex (jsSlice 4 8 (mkRecord t bc (hexN w a) buf)),
            bytePairs (jsSlice 8 ((mkRecord t bc (hexN w a) buf).length - 2)
              (mkRecord t bc (hexN w a) buf))⟩
        else if t = 2 ∨ t = 6 ∨ t = 8 then
          .ok ⟨some t, parseHex (jsSlice 4 10 (mkRecord t bc (hexN w a) buf)),
            bytePairs (jsSlice 10 ((mkRecord t bc (hexN w a) buf).length - 2)
              (mkRecord t bc (hexN w a) buf))⟩
        else if t = 3 ∨ t = 7 then
          .ok ⟨some t, parseHex (jsSlice 4 12 (mkRecord t bc (hexN w a) buf)),
            bytePairs (jsSlice 12 ((mkRecord t bc (hexN w a) buf).length - 2)
              (mkRecord t bc (hexN w a) buf))⟩
        else .ok ⟨some t, 0, []⟩) := by
  have hB_len : (bytesToHex buf).length = 2 * buf.length := bytesToHex_length buf hb
  set n := buf.length with hn
  set B := bytesToHex buf with hB
  set body := hexN 2 bc ++ hexN w a ++ B with hbody
  set ck := 255 - (bytePairs body).sum % 256 with hck
  have hck_lt : ck < 256 := by omega
  have hrec : mkRecord t bc (hexN w a) buf
      = 'S' :: hexDigitChar t :: (body ++ hexN 2 ck) := mkRecord_eq t _ _ buf (by omega)
  have hbody_len : body.length = 2 + w + 2 * n := by
    simp only [hbody, List.length_append, hexN_length, hB, hB_len]
  have hdigit_hex : isUpHexDigit (hexDigitChar t) = true :=
    isUpHexDigit_hexDigitChar t (by omega)
  have hrest_hex : ∀ c ∈ body ++ hexN 2 ck, isUpHexDigit c = true := by
    intro c hc
    simp only [hbody, hB, List.append_assoc, List.mem_append] at hc
    rcases hc with h | h | h | h
    · exact hexN_all_hex 2 _ c h
    · exact hexN_all_hex _ _ c h
    · exact bytesToHex_all_hex buf c h
    · exact hexN_all_hex 2 _ c h
  have hclean : jsToUpper (jsTrim (mkRecord t bc (hexN w a) buf))
      = mkRecord t bc (hexN w a) buf := by
    apply clean_record
    intro c hc
    rw [hrec] at hc
    rcases List.mem_cons.mp hc with h | h
    · right; right; exact h
    rcases List.mem_cons.mp h with h | h
    · left; rw [h]; exact hdigit_hex
    · left; exact hrest_hex c h
  have hlen_rec : (mkRecord t bc (hexN w a) buf).length = 6 + w + 2 * n := by
    rw [hrec]
    simp only [List.length_cons, List.length_append, hexN_length, hbody_len]
    omega
  have hnotS9 : ¬ (mkRecord t bc (hexN w a) buf = ['S', '9']) := by
    intro h
    have := congrArg List.length h
    rw [hlen_rec] at this
    simp at this
    omega
  have hformat : formatOk (mkRecord t bc (hexN w a) buf) = true := by
    rw [hrec]
    simp only [formatOk, beq_self_eq_true, Bool.true_and, Bool.and_eq_true,
      List.all_eq_true, beq_iff_eq, decide_eq_true_eq]
    refine ⟨⟨⟨?_, ?_⟩, ?_⟩, ?_⟩
    · have := digit_class_ok t ht10 ht4
      simpa using this
    · intro c hc; exact hrest_hex c hc
    · simp only [List.length_append, hexN_length, hbody_len]; omega
    · simp only [List.length_append, hexN_length, hbody_len]; omega
  have hslice24 : jsSlice 2 4 (mkRecord t bc (hexN w a) buf) = hexN 2 bc := by
    refine jsSlice_eq 2 4 _ ['S', hexDigitChar t] (hexN 2 bc)
      (hexN w a ++ B ++ hexN 2 ck) ?_ (by simp) (by simp [hexN_length])
    rw [hrec]
    simp [hbody, List.append_assoc]
  have hslice12 : jsSlice 1 2 (mkRecord t bc (hexN w a) buf) = [hexDigitChar t] := by
    refine jsSlice_eq 1 2 _ ['S'] [hexDigitChar t]
      (body ++ hexN 2 ck) ?_ (by simp) (by simp)
    rw [hrec]
    simp
  -- evaluate the parser up to the type switch
  simp only [parseRecord]
  rw [hclean, if_neg hnotS9, hformat]
  simp only [Bool.true_eq_false, if_false]
  rw [hslice24, parseHex_hexN 2 bc (by norm_num; omega), hlen_rec]
  rw [if_neg (by omega)]
  rw [if_neg (by simp [Nat.and_zero])]
  rw [hslice12, parseDec_digit t ht10]

theorem except_bind_ok {e a b : Type} (x : a) (f : a → Except e b) :
    (Except.ok (ε := e) x).bind f = f x := rfl

theorem parse_build16 (t a : Nat) (buf : List Nat)
    (ht : t = 0 ∨ t = 1 ∨ t = 5 ∨ t = 9) (ha : a < 65536) (hlen : buf.length ≤ 252)
    (hb : ∀ b ∈ buf, b < 256) :
    (buildRecord t a buf).bind parseRecord = .ok ⟨some t, a, buf⟩ := by
  have ht10 : t < 10 := by rcases ht with h | h | h | h <;> omega
  have ht4 : t ≠ 4 := by rcases ht with h | h | h | h <;> omega
  rw [buildRecord, if_pos ht, Nat.mod_eq_of_lt ha, padHex_eq_hexN 4 a (by norm_num; omega),
    except_bind_ok]
  rw [parse_mk t 4 (buf.length + 3) a buf ht10 ht4 (Or.inl rfl) (by omega) (by omega) hb]
  rw [if_pos ht]
  have hrec : mkRecord t (buf.length + 3) (hexN 4 a) buf
      = 'S' :: hexDigitChar t :: ((hexN 2 (buf.length + 3) ++ hexN 4 a ++ bytesToHex buf)
        ++ hexN 2 (255 - (bytePairs (hexN 2 (buf.length + 3) ++ hexN 4 a
          ++ bytesToHex buf)).sum % 256)) :=
    mkRecord_eq t _ _ buf (by omega)
  have hB_len : (bytesToHex buf).length = 2 * buf.length := bytesToHex_length buf hb
  have hlen_rec : (mkRecord t (buf.length + 3) (hexN 4 a) buf).length
      = 10 + 2 * buf.length := by
    rw [hrec]
    simp only [List.length_cons, List.length_append, hexN_length, hB_len]
    omega
  rw [hlen_rec]
  rw [jsSlice_eq 4 8 _ ('S' :: hexDigitChar t :: hexN 2 (buf.length + 3)) (hexN 4 a)
        (bytesToHex buf ++ hexN 2 (255 - (bytePairs (hexN 2 (buf.length + 3)
          ++ hexN 4 a ++ bytesToHex buf)).sum % 256))
        (by rw [hrec]; simp [List.append_assoc]) (by simp [hexN_length])
        (by simp [hexN_length])]
  rw [jsSlice_eq 8 (10 + 2 * buf.length - 2) _
        ('S' :: hexDigitChar t :: (hexN 2 (buf.length + 3) ++ hexN 4 a)) (bytesToHex buf)
        (hexN 2 (255 - (bytePairs (hexN 2 (buf.length + 3) ++ hexN 4 a
          ++ bytesToHex buf)).sum % 256))
        (by rw [hrec]; simp [List.append_assoc]) (by simp [hexN_length])
        (by simp [hexN_length, hB_len]; omega)]
  rw [parseHex_hexN _ a (by norm_num; omega), bytePairs_bytesToHex buf hb]

theorem parse_build24 (t a : Nat) (buf : List Nat)
    (ht : t = 2 ∨ t = 6 ∨ t = 8) (ha : a < 16777216) (hlen : buf.length ≤ 251)
    (hb : ∀ b ∈ buf, b < 256) :
    (buildRecord t a buf).bind parseRecord = .ok ⟨some t, a, buf⟩ := by
  have ht10 : t < 10 := by rcases ht with h | h | h <;> omega
  have ht4 : t ≠ 4 := by rcases ht with h | h | h <;> omega
  have hnot16 : ¬ (t = 0 ∨ t = 1 ∨ t = 5 ∨ t = 9) := by
    rcases ht with h | h | h <;> omega
  rw [buildRecord, if_neg hnot16, if_pos ht, Nat.mod_eq_of_lt ha,
    padHex_eq_hexN 6 a (by norm_num; omega), except_bind_ok]
  rw [parse_mk t 6 (buf.length + 4) a buf ht10 ht4 (Or.inr (Or.inl rfl)) (by omega)
    (by omega) hb]
  rw [if_neg hnot16, if_pos ht]
  have hrec : mkRecord t (buf.length + 4) (hexN 6 a) buf
      = 'S' :: hexDigitChar t :: ((hexN 2 (buf.length + 4) ++ hexN 6 a ++ bytesToHex buf)
        ++ hexN 2 (255 - (bytePairs (hexN 2 (buf.length + 4) ++ hexN 6 a
          ++ bytesToHex buf)).sum % 256)) :=
    mkRecord_eq t _ _ buf (by omega)
  have hB_len : (bytesToHex buf).length = 2 * buf.length := bytesToHex_length buf hb
  have hlen_rec : (mkRecord t (buf.length + 4) (hexN 6 a) buf).length
      = 12 + 2 * buf.length := by
    rw [hrec]
    simp only [List.length_cons, List.length_append, hexN_length, hB_len]
    omega
  rw [hlen_rec]
  rw [jsSlice_eq 4 10 _ ('S' :: hexDigitChar t :: hexN 2 (buf.length + 4)) (hexN 6 a)
        (bytesToHex buf ++ hexN 2 (255 - (bytePairs (hexN 2 (buf.length + 4)
          ++ hexN 6 a ++ bytesToHex buf)).sum % 256))
        (by rw [hrec]; simp [List.append_assoc]) (by simp [hexN_length])
        (by simp [hexN_length])]
  rw [jsSlice_eq 10 (12 + 2 * buf.length - 2) _
        ('S' :: hexDigitChar t :: (hexN 2 (buf.length + 4) ++ hexN 6 a)) (bytesToHex buf)
        (hexN 2 (255 - (bytePairs (hexN 2 (buf.length + 4) ++ hexN 6 a
          ++ bytesToHex buf)).sum % 256))
        (by rw [hrec]; simp [List.append_assoc]) (by simp [hexN_length])
        (by simp [hexN_length, hB_len]; omega)]
  rw [parseHex_hexN _ a (by norm_num; omega), bytePairs_bytesToHex buf hb]

theorem parse_build32 (t a : Nat) (buf : List Nat)
    (ht : t = 3 ∨ t = 7) (ha : a < 4294967296) (hlen : buf.length ≤ 250)
    (hb : ∀ b ∈ buf, b < 256) :
    (buildRecord t a buf).bind parseRecord = .ok ⟨some t, a, buf⟩ := by
  have ht10 : t < 10 := by rcases ht with h | h <;> omega
  have ht4 : t ≠ 4 := by rcases ht with h | h <;> omega
  have hnot16 : ¬ (t = 0 ∨ t = 1 ∨ t = 5 ∨ t = 9) := by
    rcases ht with h | h <;> omega
  have hnot24 : ¬ (t = 2 ∨ t = 6 ∨ t = 8) := by
    rcases ht with h | h <;> omega
  rw [buildRecord, if_neg hnot16, if_neg hnot24, if_pos ht, Nat.mod_eq_of_lt ha,
    padHex_eq_hexN 8 a (by norm_num; omega), except_bind_ok]
  rw [parse_mk t 8 (buf.length + 5) a buf ht10 ht4 (Or.inr (Or.inr rfl)) (by omega)
    (by omega) hb]
  rw [if_neg hnot16, if_neg hnot24, if_pos ht]
  have hrec : mkRecord t (buf.length + 5) (hexN 8 a) buf
      = 'S' :: hexDigitChar t :: ((hexN 2 (buf.length + 5) ++ hexN 8 a ++ bytesToHex buf)
        ++ hexN 2 (255 - (bytePairs (hexN 2 (buf.length + 5) ++ hexN 8 a
          ++ bytesToHex buf)).sum % 256)) :=
    mkRecord_eq t _ _ buf (by omega)
  have hB_len : (bytesToHex buf).length = 2 * buf.length := bytesToHex_length buf hb
  have hlen_rec : (mkRecord t (buf.length + 5) (hexN 8 a) buf).length
      = 14 + 2 * buf.length := by
    rw [hrec]
    simp only [List.length_cons, List.length_append, hexN_length, hB_len]
    omega
  rw [hlen_rec]
  rw [jsSlice_eq 4 12 _ ('S' :: hexDigitChar t :: hexN 2 (buf.length + 5)) (hexN 8 a)
        (bytesToHex buf ++ hexN 2 (255 - (bytePairs (hexN 2 (buf.length + 5)
          ++ hexN 8 a ++ bytesToHex buf)).sum % 256))
        (by rw [hrec]; simp [List.append_assoc]) (by simp [hexN_length])
        (by simp [hexN_length])]
  rw [jsSlice_eq 12 (14 + 2 * buf.length - 2) _
        ('S' :: hexDigitChar t :: (hexN 2 (buf.length + 5) ++ hexN 8 a)) (bytesToHex buf)
        (hexN 2 (255 - (bytePairs (hexN 2 (buf.length + 5) ++ hexN 8 a
          ++ bytesToHex buf)).sum % 256))
        (by rw [hrec]; simp [List.append_assoc]) (by simp [hexN_length])
        (by simp [hexN_length, hB_len]; omega)]
  rw [parseHex_hexN _ a (by norm_num; omega), bytePairs_bytesToHex buf hb]

end Motorola

/-- Concrete cases from the documentation and `examples.js`: the short
EOF record at 0x0500, and the ten-byte record at 0x0500 both ways. -/
theorem signetics_concrete_case :
    Signetics.buildRecord none 1280 [] = ":050000".toList ∧
      Signetics.buildRecord none 1280 [4, 85, 176, 36, 255, 240, 31, 5, 4, 0]
        = ":05000A3C0455B024FFF01F05040030".toList ∧
      Signetics.parseRecord ":05000A3C0455B024FFF01F05040030".toList
        = .ok ⟨none, 1280, [4, 85, 176, 36, 255, 240, 31, 5, 4, 0]⟩ := by
  refine ⟨by decide, by decide, by decide⟩

namespace Signetics

theorem bcc_lt (sum data : Nat) : bcc sum data < 256 := by
  have h : bcc sum data ≤ 255 := by
    simp only [bcc]
    exact Nat.and_le_right
  omega

theorem foldl_bcc_lt (buf : List Nat) : ∀ s, s < 256 → buf.foldl bcc s < 256 := by
  induction buf with
  | nil => intro s hs; simpa using hs
  | cons b t ih =>
    intro s hs
    simpa [List.foldl_cons] using ih (bcc s b) (bcc_lt s b)

theorem parse_build_empty (a : Nat) (ha : a < 65536) :
    parseRecord (buildRecord none a []) = .ok ⟨none, a, []⟩ := by
  have hrec : buildRecord none a [] = ':' :: (hexN 4 a ++ ['0', '0']) := by
    simp only [buildRecord, List.length_nil, reduceIte]
    rw [Nat.mod_eq_of_lt ha, padHex_eq_hexN 4 a (by norm_num; omega)]
  have hclean : jsToUpper (jsTrim (buildRecord none a [])) = buildRecord none a [] := by
    apply clean_record
    intro c hc
    rw [hrec] at hc
    rcases List.mem_cons.mp hc with h | h
    · right; left; exact h
    simp only [List.mem_append, List.mem_cons, List.not_mem_nil, or_false] at h
    rcases h with h | h | h
    · left; exact hexN_all_hex 4 a c h
    · left; subst h; decide
    · left; subst h; decide
  have hshort : shortEofOk (buildRecord none a []) = true := by
    rw [hrec]
    simp only [shortEofOk, Bool.and_eq_true, beq_iff_eq, List.all_eq_true, decide_eq_true_eq]
    refine ⟨⟨⟨?_, ?_⟩, ?_⟩, ?_⟩
    · simp [hexN_length]
    · rfl
    · intro c hc
      have : (List.drop 1 (':' :: (hexN 4 a ++ ['0', '0']))).take 4 = hexN 4 a := by
        simp only [List.drop_succ_cons, List.drop_zero]
        exact List.take_left' (hexN_length 4 a)
      rw [this] at hc
      exact hexN_all_hex 4 a c hc
    · show List.drop 5 (':' :: (hexN 4 a ++ ['0', '0'])) = ['0', '0']
      simp only [List.drop_succ_cons]
      exact List.drop_left' (hexN_length 4 a)
  have haddr : jsSlice 1 5 (buildRecord none a []) = hexN 4 a :=
    jsSlice_eq 1 5 _ [':'] (hexN 4 a) ['0', '0'] (by rw [hrec]; simp)
      (by simp) (by simp [hexN_length])
  simp only [parseRecord]
  rw [hclean, haddr, if_pos hshort, parseHex_hexN 4 a (by norm_num; omega)]

theorem parse_build_data (a : Nat) (buf : List Nat) (ha : a < 65536)
    (hne : buf.length ≠ 0) (hlen : buf.length ≤ 255) (hb : ∀ b ∈ buf, b < 256) :
    parseRecord (buildRecord none a buf) = .ok ⟨none, a, buf⟩ := by
  have hB_len : (bytesToHex buf).length = 2 * buf.length := bytesToHex_length buf hb
  have hrec : buildRecord none a buf
      = ':' :: (hexN 4 a ++ hexN 2 buf.length
          ++ hexN 2 (bcc (bcc (bcc 0 (a >>> 8)) a) buf.length) ++ bytesToHex buf
          ++ hexN 2 (buf.foldl bcc 0)) := by
    simp only [buildRecord]
    rw [Nat.mod_eq_of_lt ha, if_neg hne]
    rw [padHex_eq_hexN 4 a (by norm_num; omega),
      padHex_eq_hexN 2 buf.length (by norm_num; omega),
      padHex_eq_hexN 2 _ (by
        have := bcc_lt (bcc (bcc 0 (a >>> 8)) a) buf.length
        norm_num
        omega),
      padHex_eq_hexN 2 _ (by
        have := foldl_bcc_lt buf 0 (by omega)
        norm_num
        omega)]
  set n := buf.length with hn
  set asum := bcc (bcc (bcc 0 (a >>> 8)) a) n with hasum
  set dsum := buf.foldl bcc 0 with hdsum
  have hasum_lt : asum < 256 := bcc_lt _ _
  have hdsum_lt : dsum < 256 := foldl_bcc_lt buf 0 (by omega)
  set B := bytesToHex buf with hB
  have hrest_hex : ∀ c ∈ hexN 4 a ++ hexN 2 n ++ hexN 2 asum ++ B ++ hexN 2 dsum,
      isUpHexDigit c = true := by
    intro c hc
    simp only [List.append_assoc, List.mem_append, hB] at hc
    rcases hc with h | h | h | h | h
    · exact hexN_all_hex 4 _ c h
    · exact hexN_all_hex 2 _ c h
    · exact hexN_all_hex 2 _ c h
    · exact bytesToHex_all_hex buf c h
    · exact hexN_all_hex 2 _ c h
  have hclean : jsToUpper (jsTrim (buildRecord none a buf)) = buildRecord none a buf := by
    apply clean_record
    intro c hc
    rw [hrec] at hc
    rcases List.mem_cons.mp hc with h | h
    · right; left; exact h
    · left; exact hrest_hex c h
  have hlen_rec : (buildRecord none a buf).length = 11 + 2 * n := by
    rw [hrec]
    simp only [List.length_cons, List.length_append, hexN_length, hB, hB_len]
    omega
  have hshort : ¬ (shortEofOk (buildRecord none a buf) = true) := by
    simp only [shortEofOk, Bool.and_eq_true, beq_iff_eq]
    intro hco
    have := hco.1.1.1
    rw [hlen_rec] at this
    omega
  have hformat : formatOk (buildRecord none a buf) = true := by
    rw [hrec]
    simp only [formatOk, beq_self_eq_true, Bool.true_and, Bool.and_eq_true,
      List.all_eq_true, beq_iff_eq, decide_eq_true_eq]
    refine ⟨⟨fun c hc => hrest_hex c hc, ?_⟩, ?_⟩ <;>
      simp only [List.length_append, hexN_length, hB, hB_len] <;> omega
  have haddr : jsSlice 1 5 (buildRecord none a buf) = hexN 4 a :=
    jsSlice_eq 1 5 _ [':'] (hexN 4 a)
      (hexN 2 n ++ hexN 2 asum ++ B ++ hexN 2 dsum)
      (by rw [hrec]; simp [List.append_assoc]) (by simp) (by simp [hexN_length])
  have hbc : jsSlice 5 7 (buildRecord none a buf) = hexN 2 n :=
    jsSlice_eq 5 7 _ (':' :: hexN 4 a) (hexN 2 n)
      (hexN 2 asum ++ B ++ hexN 2 dsum)
      (by rw [hrec]; simp [List.append_assoc]) (by simp [hexN_length])
      (by simp [hexN_length])
  have hacks : jsSlice 7 9 (buildRecord none a buf) = hexN 2 asum :=
    jsSlice_eq 7 9 _ (':' :: (hexN 4 a ++ hexN 2 n)) (hexN 2 asum)
      (B ++ hexN 2 dsum)
      (by rw [hrec]; simp [List.append_assoc]) (by simp [hexN_length])
      (by simp [hexN_length])
  have hdata : jsSlice 9 (11 + 2 * n - 2) (buildRecord none a buf) = B :=
    jsSlice_eq 9 _ _ (':' :: (hexN 4 a ++ hexN 2 n ++ hexN 2 asum)) B (hexN 2 dsum)
      (by rw [hrec]; simp [List.append_assoc]) (by simp [hexN_length])
      (by simp [hexN_length, hB, hB_len]; omega)
  have hdcks : jsSlice (11 + 2 * n - 2) (11 + 2 * n) (buildRecord none a buf)
      = hexN 2 dsum := by
    refine jsSlice_eq _ _ _ (':' :: (hexN 4 a ++ hexN 2 n ++ hexN 2 asum ++ B))
      (hexN 2 dsum) [] ?_ ?_ ?_
    · rw [hrec]; simp [List.append_assoc]
    · simp [hexN_length, hB, hB_len]; omega
    · simp [hexN_length, hB, hB_len]; omega
  simp only [parseRecord]
  rw [hclean, if_neg hshort, hformat]
  simp only [Bool.true_eq_false, if_false]
  rw [hlen_rec, hbc, parseHex_hexN 2 n (by norm_num; omega)]
  rw [if_neg (by omega)]
  rw [hdata, haddr, hacks, hdcks, bytePairs_bytesToHex buf hb]
  rw [parseHex_hexN 4 a (by norm_num; omega), parseHex_hexN 2 asum (by norm_num; omega),
    parseHex_hexN 2 dsum (by norm_num; omega)]
  rw [if_neg (by push_neg; exact ⟨rfl, rfl⟩)]

end Signetics

namespace Intel

theorem dataFlat_append_int (x y : List Emit) :
    dataFlat (x ++ y) = dataFlat x ++ dataFlat y := by
  simp [dataFlat, List.filter_append, List.flatMap_append]

theorem emitStep_fields (s : St) (recb : List Nat) :
    (emitStep s recb).out = s.out
        ++ ((if s.needea then [⟨4, 0, int16BE (jsShr16 s.ptr)⟩] else [])
          ++ [⟨0, s.ptr % 65536, recb⟩]) ∧
      (emitStep s recb).ptr = s.ptr + s.reclen ∧
      (emitStep s recb).needea
        = (if jsShr16 s.ptr ≠ jsShr16 (s.ptr + s.reclen) then true else false) ∧
      (emitStep s recb).tmpbuf = s.tmpbuf ∧
      (emitStep s recb).reclen = s.reclen ∧
      (emitStep s recb).exec = s.exec ∧
      (emitStep s recb).err = s.err := by
  simp only [emitStep, pushRec]
  by_cases h1 : s.needea <;>
    by_cases h2 : jsShr16 s.ptr ≠ jsShr16 (s.ptr + s.reclen) <;>
      simp [h1, h2, List.append_assoc]

theorem dataFlat_emitStep (s : St) (recb : List Nat) :
    dataFlat (emitStep s recb).out = dataFlat s.out ++ recb := by
  rw [(emitStep_fields s recb).1, dataFlat_append_int, dataFlat_append_int]
  by_cases h : s.needea <;> simp [h, dataFlat]

theorem feedLoop_data_int : ∀ (bs rb : List Nat) (s : St),
    dataFlat (feedLoop s rb bs).out ++ (feedLoop s rb bs).tmpbuf
      = dataFlat s.out ++ (rb ++ bs) := by
  intro bs
  induction bs with
  | nil => intro rb s; simp [feedLoop]
  | cons b bs ih =>
    intro rb s
    have hstep : feedLoop s rb (b :: bs)
        = if (rb ++ [b]).length = s.reclen then feedLoop (emitStep s (rb ++ [b])) [] bs
          else feedLoop s (rb ++ [b]) bs := rfl
    rw [hstep]
    split
    · rw [ih [] (emitStep s (rb ++ [b])), dataFlat_emitStep]
      simp [List.append_assoc]
    · rw [ih (rb ++ [b]) s]
      simp [List.append_assoc]

theorem feedLoop_inv_int : ∀ (bs rb : List Nat) (s : St), rb.length < s.reclen →
    (feedLoop s rb bs).tmpbuf.length < s.reclen ∧
      (feedLoop s rb bs).reclen = s.reclen ∧
      (feedLoop s rb bs).exec = s.exec ∧
      (feedLoop s rb bs).err = s.err := by
  intro bs
  induction bs with
  | nil => intro rb s h; simpa [feedLoop] using h
  | cons b bs ih =>
    intro rb s h
    have hstep : feedLoop s rb (b :: bs)
        = if (rb ++ [b]).length = s.reclen then feedLoop (emitStep s (rb ++ [b])) [] bs
          else feedLoop s (rb ++ [b]) bs := rfl
    rw [hstep]
    split
    · have hf := emitStep_fields s (rb ++ [b])
      have := ih [] (emitStep s (rb ++ [b]))
        (by rw [hf.2.2.2.2.1]; simp only [List.length_nil]; omega)
      rw [hf.2.2.2.2.1, hf.2.2.2.2.2.1, hf.2.2.2.2.2.2] at this
      exact this
    · rename_i hne
      exact ih (rb ++ [b]) s
        (by simp only [List.length_append, List.length_singleton] at hne ⊢; omega)

theorem feed_data_int (s : St) (c : List Nat) :
    dataFlat (feed s c).out ++ (feed s c).tmpbuf = dataFlat s.out ++ s.tmpbuf ++ c := by
  rw [feed, feedLoop_data_int]
  simp [List.append_assoc]

theorem feed_inv_int (s : St) (c : List Nat) (h : 1 ≤ s.reclen) :
    (feed s c).tmpbuf.length < s.reclen ∧ (feed s c).reclen = s.reclen ∧
      (feed s c).exec = s.exec ∧ (feed s c).err = s.err := by
  exact feedLoop_inv_int (s.tmpbuf ++ c) [] s (by simpa using h)

theorem foldl_feed_data_int : ∀ (chunks : List (List Nat)) (s : St),
    dataFlat (chunks.foldl feed s).out ++ (chunks.foldl feed s).tmpbuf
      = dataFlat s.out ++ s.tmpbuf ++ chunks.flatten := by
  intro chunks
  induction chunks with
  | nil => intro s; simp
  | cons c cs ih =>
    intro s
    rw [List.foldl_cons, ih (feed s c), feed_data_int]
    simp [List.append_assoc]

theorem foldl_feed_inv_int : ∀ (chunks : List (List Nat)) (s : St), 1 ≤ s.reclen →
    s.tmpbuf.length < s.reclen →
    (chunks.foldl feed s).tmpbuf.length < s.reclen ∧
      (chunks.foldl feed s).reclen = s.reclen ∧
      (chunks.foldl feed s).exec = s.exec ∧
      (chunks.foldl feed s).err = s.err := by
  intro chunks
  induction chunks with
  | nil => intro s h1 h2; exact ⟨h2, rfl, rfl, rfl⟩
  | cons c cs ih =>
    intro s h1 h2
    have hf := feed_inv_int s c h1
    have := ih (feed s c) (by omega) (by omega)
    rw [hf.2.1] at this
    rw [hf.2.2.1, hf.2.2.2] at this
    exact ⟨this.1, this.2.1, this.2.2.1, this.2.2.2⟩

theorem flush_data_int (s : St) : dataFlat (flush s).out = dataFlat s.out ++ s.tmpbuf := by
  have hX : dataFlat (if s.tmpbuf.length ≠ 0 then
      pushRec (if s.needea then pushRec s ⟨4, 0, int16BE (jsShr16 s.ptr)⟩ else s)
        ⟨0, s.ptr % 65536, s.tmpbuf⟩ else s).out = dataFlat s.out ++ s.tmpbuf := by
    split
    · by_cases hn : s.needea <;>
        simp [hn, pushRec, dataFlat_append_int, dataFlat]
    · rename_i h0
      simp only [ne_eq, not_not] at h0
      rw [List.length_eq_zero.mp h0]
      simp
  simp only [flush]
  set s1 := (if s.tmpbuf.length ≠ 0 then
      pushRec (if s.needea then pushRec s ⟨4, 0, int16BE (jsShr16 s.ptr)⟩ else s)
        ⟨0, s.ptr % 65536, s.tmpbuf⟩ else s) with hs1
  split
  · rcases hw : writeInt32BE (s1.exec : Int) with e | bts
    · simpa using hX
    · simp only [pushRec, dataFlat_append_int, hX]
      simp [dataFlat]
  · simp only [pushRec, dataFlat_append_int, hX]
    simp [dataFlat]

theorem construct_ok_int (base exec reclen : Nat) (s0 : St)
    (h : construct base exec reclen = .ok s0) :
    s0.tmpbuf = [] ∧ s0.out = [] ∧ s0.ptr = base ∧ s0.exec = exec ∧ s0.needea = true ∧
      s0.err = none ∧ 1 ≤ s0.reclen ∧ s0.reclen ≤ 255 ∧
      base ≤ 4294967295 ∧ exec ≤ 4294967295 := by
  simp only [construct] at h
  split at h
  · exact absurd h (by simp)
  split at h
  · exact absurd h (by simp)
  rename_i hbase hexec
  simp only [Except.ok.injEq] at h
  subst h
  refine ⟨rfl, rfl, rfl, rfl, rfl, rfl, ?_, ?_, by omega, by omega⟩
  · show (1 : Nat) ≤ if reclen < 1 ∨ 255 < reclen then 32 else reclen
    split <;> omega
  · show (if reclen < 1 ∨ 255 < reclen then 32 else reclen) ≤ 255
    split <;> omega

end Intel

namespace Signetics

theorem dataFlat_append_sig (x y : List Emit) :
    dataFlat (x ++ y) = dataFlat x ++ dataFlat y := by
  simp [dataFlat, List.flatMap_append]

theorem feedLoop_data_sig : ∀ (bs rb : List Nat) (s : St),
    dataFlat (feedLoop s rb bs).out ++ (feedLoop s rb bs).tmpbuf
      = dataFlat s.out ++ (rb ++ bs) := by
  intro bs
  induction bs with
  | nil => intro rb s; simp [feedLoop]
  | cons b bs ih =>
    intro rb s
    have hstep : feedLoop s rb (b :: bs)
        = if (rb ++ [b]).length = s.reclen then
            feedLoop { pushRec s ⟨s.ptr % 65536, rb ++ [b]⟩ with ptr := s.ptr + s.reclen } [] bs
          else feedLoop s (rb ++ [b]) bs := rfl
    rw [hstep]
    split
    · rw [ih [] _]
      simp [pushRec, dataFlat_append_sig, dataFlat, List.append_assoc]
    · rw [ih (rb ++ [b]) s]
      simp [List.append_assoc]

theorem feedLoop_inv_sig : ∀ (bs rb : List Nat) (s : St), rb.length < s.reclen →
    (feedLoop s rb bs).tmpbuf.length < s.reclen ∧
      (feedLoop s rb bs).reclen = s.reclen ∧
      (feedLoop s rb bs).exec = s.exec := by
  intro bs
  induction bs with
  | nil => intro rb s h; simpa [feedLoop] using h
  | cons b bs ih =>
    intro rb s h
    have hstep : feedLoop s rb (b :: bs)
        = if (rb ++ [b]).length = s.reclen then
            feedLoop { pushRec s ⟨s.ptr % 65536, rb ++ [b]⟩ with ptr := s.ptr + s.reclen } [] bs
          else feedLoop s (rb ++ [b]) bs := rfl
    rw [hstep]
    split
    · exact ih [] _ (by simp only [List.length_nil, pushRec]; omega)
    · rename_i hne
      exact ih (rb ++ [b]) s
        (by simp only [List.length_append, List.length_singleton] at hne ⊢; omega)

theorem feed_data_sig (s : St) (c : List Nat) :
    dataFlat (feed s c).out ++ (feed s c).tmpbuf = dataFlat s.out ++ s.tmpbuf ++ c := by
  rw [feed, feedLoop_data_sig]
  simp [List.append_assoc]

theorem feed_inv_sig (s : St) (c : List Nat) (h : 1 ≤ s.reclen) :
    (feed s c).tmpbuf.length < s.reclen ∧ (feed s c).reclen = s.reclen ∧
      (feed s c).exec = s.exec :=
  feedLoop_inv_sig (s.tmpbuf ++ c) [] s (by simpa using h)

theorem foldl_feed_data_sig : ∀ (chunks : List (List Nat)) (s : St),
    dataFlat (chunks.foldl feed s).out ++ (chunks.foldl feed s).tmpbuf
      = dataFlat s.out ++ s.tmpbuf ++ chunks.flatten := by
  intro chunks
  induction chunks with
  | nil => intro s; simp
  | cons c cs ih =>
    intro s
    rw [List.foldl_cons, ih (feed s c), feed_data_sig]
    simp [List.append_assoc]

theorem foldl_feed_inv_sig : ∀ (chunks : List (List Nat)) (s : St), 1 ≤ s.reclen →
    s.tmpbuf.length < s.reclen →
    (chunks.foldl feed s).tmpbuf.length < s.reclen ∧
      (chunks.foldl feed s).reclen = s.reclen := by
  intro chunks
  induction chunks with
  | nil => intro s h1 h2; exact ⟨h2, rfl⟩
  | cons c cs ih =>
    intro s h1 h2
    have hf := feed_inv_sig s c h1
    have := ih (feed s c) (by omega) (by omega)
    rw [hf.2.1] at this
    exact this

theorem flush_data_sig (s : St) : dataFlat (flush s).out = dataFlat s.out ++ s.tmpbuf := by
  simp only [flush]
  split
  · simp [pushRec, dataFlat_append_sig, dataFlat]
  · rename_i h0
    simp only [ne_eq, not_not] at h0
    rw [List.length_eq_zero.mp h0]
    simp [pushRec, dataFlat_append_sig, dataFlat]

theorem construct_ok_sig (base exec reclen : Nat) (s0 : St)
    (h : construct base exec reclen = .ok s0) :
    s0.tmpbuf = [] ∧ s0.out = [] ∧ s0.ptr = base ∧ s0.exec = exec ∧
      1 ≤ s0.reclen ∧ s0.reclen ≤ 255 ∧ base ≤ 65535 ∧ exec ≤ 65535 := by
  simp only [construct] at h
  split at h
  · exact absurd h (by simp)
  split at h
  · exact absurd h (by simp)
  rename_i hbase hexec
  simp only [Except.ok.injEq] at h
  subst h
  refine ⟨rfl, rfl, rfl, rfl, ?_, ?_, by omega, by omega⟩
  · show (1 : Nat) ≤ if reclen < 1 ∨ 255 < reclen then 32 else reclen
    split <;> omega
  · show (if reclen < 1 ∨ 255 < reclen then 32 else reclen) ≤ 255
    split <;> omega

end Signetics

namespace Motorola

theorem dataFlat_append_mot (x y : List Emit) :
    dataFlat (x ++ y) = dataFlat x ++ dataFlat y := by
  simp [dataFlat, List.filter_append, List.flatMap_append]

theorem dtype_cases (p : Nat) : dtype p = 1 ∨ dtype p = 2 ∨ dtype p = 3 := by
  simp only [dtype]
  split
  · exact Or.inr (Or.inr rfl)
  split
  · exact Or.inr (Or.inl rfl)
  · exact Or.inl rfl

theorem isData_mk (p a : Nat) (buf : List Nat) :
    isData ⟨dtype p, a, buf⟩ = true := by
  rcases dtype_cases p with h | h | h <;> simp [isData, h]

theorem dataFlat_push_data (out : List Emit) (p a : Nat) (buf : List Nat) :
    dataFlat (out ++ [⟨dtype p, a, buf⟩]) = dataFlat out ++ buf := by
  rw [dataFlat_append_mot]
  simp [dataFlat, List.filter, isData_mk p a buf]

theorem feedMore_master (base : Nat) :
    ∀ (fuel : Nat) (s : St) (chunk : List Nat) (chunkptr : Nat),
      chunk.length - chunkptr < fuel →
      chunkptr ≤ chunk.length →
      s.err = none → 1 ≤ s.reclen →
      s.ptr = base + (dataFlat s.out).length →
      s.cnt = (s.out.filter isData).length →
      (∀ e ∈ s.out, isData e = true →
        e.rtype = dtype e.addr ∧ base ≤ e.addr ∧ 1 ≤ e.buf.length ∧
          e.addr + e.buf.length ≤ base + (dataFlat s.out).length) →
      base + (dataFlat s.out).length + (chunk.length - chunkptr) ≤ 4294967296 →
      (feedMore fuel s chunk chunkptr).err = none ∧
        (feedMore fuel s chunk chunkptr).reclen = s.reclen ∧
        (feedMore fuel s chunk chunkptr).exec = s.exec ∧
        (feedMore fuel s chunk chunkptr).tmpbuf.length < s.reclen ∧
        (feedMore fuel s chunk chunkptr).ptr
          = base + (dataFlat (feedMore fuel s chunk chunkptr).out).length ∧
        (feedMore fuel s chunk chunkptr).cnt
          = ((feedMore fuel s chunk chunkptr).out.filter isData).length ∧
        dataFlat (feedMore fuel s chunk chunkptr).out
            ++ (feedMore fuel s chunk chunkptr).tmpbuf
          = dataFlat s.out ++ chunk.drop chunkptr ∧
        (∀ e ∈ (feedMore fuel s chunk chunkptr).out, isData e = true →
          e.rtype = dtype e.addr ∧ base ≤ e.addr ∧ 1 ≤ e.buf.length ∧
            e.addr + e.buf.length
              ≤ base + (dataFlat (feedMore fuel s chunk chunkptr).out).length) := by
  intro fuel
  induction fuel with
  | zero => intro s chunk chunkptr hfuel; omega
  | succ fuel ih =>
    intro s chunk chunkptr hfuel hcp herr hrl hptr hcnt hinv4 hbound
    have hstep : feedMore (fuel + 1) s chunk chunkptr
        = if chunkptr + s.reclen ≤ chunk.length then
            (if 4294967295 < s.ptr then { s with err := some "Load address too wide" }
             else feedMore fuel
              { pushRec s ⟨dtype s.ptr, s.ptr, (chunk.drop chunkptr).take s.reclen⟩ with
                  cnt := s.cnt + 1, ptr := s.ptr + s.reclen }
              chunk (chunkptr + s.reclen))
          else { s with tmpbuf := chunk.drop chunkptr } := rfl
    rw [hstep]
    split
    · rename_i hfit
      rw [if_neg (by omega)]
      set e0 : Emit := ⟨dtype s.ptr, s.ptr, (chunk.drop chunkptr).take s.reclen⟩ with he0
      set s2 : St := { pushRec s e0 with cnt := s.cnt + 1, ptr := s.ptr + s.reclen } with hs2
      have hbuflen : e0.buf.length = s.reclen := by
        simp only [he0, List.length_take, List.length_drop]
        omega
      have hout2 : s2.out = s.out ++ [e0] := rfl
      have hD2 : dataFlat s2.out = dataFlat s.out ++ e0.buf := by
        rw [hout2, he0, dataFlat_push_data]
      have hD2len : (dataFlat s2.out).length = (dataFlat s.out).length + s.reclen := by
        rw [hD2]
        simp [hbuflen]
      have h2err : s2.err = s.err := rfl
      have h2rl : s2.reclen = s.reclen := rfl
      have h2exec : s2.exec = s.exec := rfl
      have h2ptr : s2.ptr = base + (dataFlat s2.out).length := by
        show s.ptr + s.reclen = _
        rw [hD2len, hptr]
        omega
      have he0data : isData e0 = true := by rw [he0]; exact isData_mk _ _ _
      have h2cnt : s2.cnt = (s2.out.filter isData).length := by
        show s.cnt + 1 = _
        rw [hout2, List.filter_append]
        simp only [List.length_append, hcnt]
        simp [List.filter, he0data]
      have h2inv4 : ∀ e ∈ s2.out, isData e = true →
          e.rtype = dtype e.addr ∧ base ≤ e.addr ∧ 1 ≤ e.buf.length ∧
            e.addr + e.buf.length ≤ base + (dataFlat s2.out).length := by
        intro e he hd
        rw [hout2] at he
        rcases List.mem_append.mp he with h | h
        · have := hinv4 e h hd
          refine ⟨this.1, this.2.1, this.2.2.1, ?_⟩
          rw [hD2len]
          omega
        · simp only [List.mem_singleton] at h
          subst h
          refine ⟨rfl, ?_, ?_, ?_⟩
          · show base ≤ s.ptr
            omega
          · rw [hbuflen]; omega
          · show s.ptr + e0.buf.length ≤ _
            rw [hbuflen, hD2len, hptr]
            omega
      have := ih s2 chunk (chunkptr + s.reclen) (by omega) (by omega)
        (h2err.trans herr) (by rw [h2rl]; omega) h2ptr h2cnt h2inv4
        (by rw [hD2len]; omega)
      rw [h2rl, h2exec] at this
      refine ⟨this.1, this.2.1, this.2.2.1, this.2.2.2.1, this.2.2.2.2.1,
        this.2.2.2.2.2.1, ?_, this.2.2.2.2.2.2.2⟩
      rw [this.2.2.2.2.2.2.1, hD2]
      have hdrop : e0.buf ++ chunk.drop (chunkptr + s.reclen) = chunk.drop chunkptr := by
        rw [he0]
        show (chunk.drop chunkptr).take s.reclen ++ _ = _
        have : chunk.drop (chunkptr + s.reclen) = (chunk.drop chunkptr).drop s.reclen := by
          rw [List.drop_drop]
        rw [this, List.take_append_drop]
      rw [List.append_assoc, hdrop]
    · rename_i hnofit
      refine ⟨herr, rfl, rfl, ?_, ?_, hcnt, ?_, ?_⟩
      · show (chunk.drop chunkptr).length < s.reclen
        simp only [List.length_drop]
        omega
      · exact hptr
      · rfl
      · exact hinv4

theorem feed_master (base : Nat) (s : St) (c : List Nat)
    (herr : s.err = none) (htmp : s.tmpbuf.length < s.reclen) (hrl : 1 ≤ s.reclen)
    (hptr : s.ptr = base + (dataFlat s.out).length)
    (hcnt : s.cnt = (s.out.filter isData).length)
    (hinv4 : ∀ e ∈ s.out, isData e = true →
      e.rtype = dtype e.addr ∧ base ≤ e.addr ∧ 1 ≤ e.buf.length ∧
        e.addr + e.buf.length ≤ base + (dataFlat s.out).length)
    (hbound : base + (dataFlat s.out).length + s.tmpbuf.length + c.length ≤ 4294967296) :
    (feed s c).err = none ∧ (feed s c).reclen = s.reclen ∧ (feed s c).exec = s.exec ∧
      (feed s c).tmpbuf.length < s.reclen ∧
      (feed s c).ptr = base + (dataFlat (feed s c).out).length ∧
      (feed s c).cnt = ((feed s c).out.filter isData).length ∧
      dataFlat (feed s c).out ++ (feed s c).tmpbuf = dataFlat s.out ++ s.tmpbuf ++ c ∧
      (∀ e ∈ (feed s c).out, isData e = true →
        e.rtype = dtype e.addr ∧ base ≤ e.addr ∧ 1 ≤ e.buf.length ∧
          e.addr + e.buf.length ≤ base + (dataFlat (feed s c).out).length) := by
  have hfeed : feed s c
      = if s.err.isSome then s
        else if s.tmpbuf.length + c.length < s.reclen then { s with tmpbuf := s.tmpbuf ++ c }
        else if 4294967295 < s.ptr then { s with err := some "Load address too wide" }
        else feedMore (c.length + 1)
          { pushRec s ⟨dtype s.ptr, s.ptr, s.tmpbuf ++ c.take (s.reclen - s.tmpbuf.length)⟩ with
              cnt := s.cnt + 1, ptr := s.ptr + s.reclen }
          c (s.reclen - s.tmpbuf.length) := rfl
  rw [hfeed, if_neg (by rw [herr]; simp)]
  split
  · rename_i hsmall
    refine ⟨herr, rfl, rfl, ?_, hptr, hcnt, ?_, hinv4⟩
    · show (s.tmpbuf ++ c).length < s.reclen
      simp only [List.length_append]
      omega
    · show dataFlat s.out ++ (s.tmpbuf ++ c) = _
      simp [List.append_assoc]
  · rename_i hbig
    rw [if_neg (by omega)]
    set cp := s.reclen - s.tmpbuf.length with hcp
    set e0 : Emit := ⟨dtype s.ptr, s.ptr, s.tmpbuf ++ c.take cp⟩ with he0
    set s2 : St := { pushRec s e0 with cnt := s.cnt + 1, ptr := s.ptr + s.reclen } with hs2
    have hcple : cp ≤ c.length := by omega
    have hbuflen : e0.buf.length = s.reclen := by
      simp only [he0, List.length_append, List.length_take]
      omega
    have hout2 : s2.out = s.out ++ [e0] := rfl
    have hD2 : dataFlat s2.out = dataFlat s.out ++ e0.buf := by
      rw [hout2, he0, dataFlat_push_data]
    have hD2len : (dataFlat s2.out).length = (dataFlat s.out).length + s.reclen := by
      rw [hD2]; simp [hbuflen]
    have he0data : isData e0 = true := by rw [he0]; exact isData_mk _ _ _
    have h2cnt : s2.cnt = (s2.out.filter isData).length := by
      show s.cnt + 1 = _
      rw [hout2, List.filter_append]
      simp only [List.length_append, hcnt]
      simp [List.filter, he0data]
    have h2inv4 : ∀ e ∈ s2.out, isData e = true →
        e.rtype = dtype e.addr ∧ base ≤ e.addr ∧ 1 ≤ e.buf.length ∧
          e.addr + e.buf.length ≤ base + (dataFlat s2.out).length := by
      intro e he hd
      rw [hout2] at he
      rcases List.mem_append.mp he with h | h
      · have := hinv4 e h hd
        refine ⟨this.1, this.2.1, this.2.2.1, ?_⟩
        rw [hD2len]
        omega
      · simp only [List.mem_singleton] at h
        subst h
        refine ⟨rfl, by show base ≤ s.ptr; omega, by rw [hbuflen]; omega, ?_⟩
        show s.ptr + e0.buf.length ≤ _
        rw [hbuflen, hD2len, hptr]
        omega
    have hm := feedMore_master base (c.length + 1) s2 c cp (by omega) hcple
      herr (by show 1 ≤ s.reclen; omega)
      (by show s.ptr + s.reclen = _; rw [hD2len, hptr]; omega) h2cnt h2inv4
      (by rw [hD2len]; omega)
    have h2rl : s2.reclen = s.reclen := rfl
    have h2exec : s2.exec = s.exec := rfl
    rw [h2rl, h2exec] at hm
    refine ⟨hm.1, hm.2.1, hm.2.2.1, hm.2.2.2.1, hm.2.2.2.2.1, hm.2.2.2.2.2.1, ?_,
      hm.2.2.2.2.2.2.2⟩
    rw [hm.2.2.2.2.2.2.1, hD2, he0]
    show dataFlat s.out ++ (s.tmpbuf ++ c.take cp) ++ c.drop cp = _
    rw [List.append_assoc, List.append_assoc, List.take_append_drop]
    simp [List.append_assoc]

theorem foldl_feed_master (base : Nat) :
    ∀ (chunks : List (List Nat)) (s : St),
      s.err = none → s.tmpbuf.length < s.reclen → 1 ≤ s.reclen →
      s.ptr = base + (dataFlat s.out).length →
      s.cnt = (s.out.filter isData).length →
      (∀ e ∈ s.out, isData e = true →
        e.rtype = dtype e.addr ∧ base ≤ e.addr ∧ 1 ≤ e.buf.length ∧
          e.addr + e.buf.length ≤ base + (dataFlat s.out).length) →
      base + (dataFlat s.out).length + s.tmpbuf.length + chunks.flatten.length
          ≤ 4294967296 →
      (chunks.foldl feed s).err = none ∧
        (chunks.foldl feed s).reclen = s.reclen ∧
        (chunks.foldl feed s).exec = s.exec ∧
        (chunks.foldl feed s).tmpbuf.length < s.reclen ∧
        (chunks.foldl feed s).ptr = base + (dataFlat (chunks.foldl feed s).out).length ∧
        (chunks.foldl feed s).cnt = ((chunks.foldl feed s).out.filter isData).length ∧
        dataFlat (chunks.foldl feed s).out ++ (chunks.foldl feed s).tmpbuf
          = dataFlat s.out ++ s.tmpbuf ++ chunks.flatten ∧
        (∀ e ∈ (chunks.foldl feed s).out, isData e = true →
          e.rtype = dtype e.addr ∧ base ≤ e.addr ∧ 1 ≤ e.buf.length ∧
            e.addr + e.buf.length
              ≤ base + (dataFlat (chunks.foldl feed s).out).length) := by
  intro chunks
  induction chunks with
  | nil =>
    intro s herr htmp hrl hptr hcnt hinv4 hbound
    exact ⟨herr, rfl, rfl, htmp, hptr, hcnt, by simp, hinv4⟩
  | cons c cs ih =>
    intro s herr htmp hrl hptr hcnt hinv4 hbound
    have hc := feed_master base s c herr htmp hrl hptr hcnt hinv4
      (by simp only [List.flatten_cons, List.length_append] at hbound; omega)
    have hlen : (dataFlat (feed s c).out).length + (feed s c).tmpbuf.length
        = (dataFlat s.out).length + s.tmpbuf.length + c.length := by
      have := congrArg List.length hc.2.2.2.2.2.2.1
      simp only [List.length_append] at this
      omega
    have := ih (feed s c) hc.1 (by rw [hc.2.1]; exact hc.2.2.2.1) (by rw [hc.2.1]; omega)
      hc.2.2.2.2.1 hc.2.2.2.2.2.1 hc.2.2.2.2.2.2.2
      (by simp only [List.flatten_cons, List.length_append] at hbound; omega)
    rw [hc.2.1, hc.2.2.1] at this
    refine ⟨this.1, this.2.1, this.2.2.1, this.2.2.2.1, this.2.2.2.2.1,
      this.2.2.2.2.2.1, ?_, this.2.2.2.2.2.2.2⟩
    show dataFlat (cs.foldl feed (feed s c)).out ++ (cs.foldl feed (feed s c)).tmpbuf = _
    rw [this.2.2.2.2.2.2.1, hc.2.2.2.2.2.2.1]
    simp [List.append_assoc]

theorem feedMore_out_mono :
    ∀ (fuel : Nat) (s : St) (chunk : List Nat) (chunkptr : Nat),
      ∃ new, (feedMore fuel s chunk chunkptr).out = s.out ++ new ∧
        ∀ e ∈ new, isData e = true := by
  intro fuel
  induction fuel with
  | zero => intro s chunk cp; exact ⟨[], by simp [feedMore], by simp⟩
  | succ fuel ih =>
    intro s chunk cp
    have hstep : feedMore (fuel + 1) s chunk cp
        = if cp + s.reclen ≤ chunk.length then
            (if 4294967295 < s.ptr then { s with err := some "Load address too wide" }
             else feedMore fuel
              { pushRec s ⟨dtype s.ptr, s.ptr, (chunk.drop cp).take s.reclen⟩ with
                  cnt := s.cnt + 1, ptr := s.ptr + s.reclen }
              chunk (cp + s.reclen)) 
          else { s with tmpbuf := chunk.drop cp } := rfl
    rw [hstep]
    split
    · split
      · exact ⟨[], by simp, by simp⟩
      · obtain ⟨new, hn1, hn2⟩ := ih
          { pushRec s ⟨dtype s.ptr, s.ptr, (chunk.drop cp).take s.reclen⟩ with
              cnt := s.cnt + 1, ptr := s.ptr + s.reclen } chunk (cp + s.reclen)
        refine ⟨⟨dtype s.ptr, s.ptr, (chunk.drop cp).take s.reclen⟩ :: new, ?_, ?_⟩
        · rw [hn1]
          simp [pushRec]
        · intro e he
          rcases List.mem_cons.mp he with h | h
          · subst h; exact isData_mk _ _ _
          · exact hn2 e h
    · exact ⟨[], by simp, by simp⟩

theorem feed_out_mono (s : St) (c : List Nat) :
    ∃ new, (feed s c).out = s.out ++ new ∧ ∀ e ∈ new, isData e = true := by
  have hfeed : feed s c
      = if s.err.isSome then s
        else if s.tmpbuf.length + c.length < s.reclen then { s with tmpbuf := s.tmpbuf ++ c }
        else if 4294967295 < s.ptr then { s with err := some "Load address too wide" }
        else feedMore (c.length + 1)
          { pushRec s ⟨dtype s.ptr, s.ptr, s.tmpbuf ++ c.take (s.reclen - s.tmpbuf.length)⟩ with
              cnt := s.cnt + 1, ptr := s.ptr + s.reclen }
          c (s.reclen - s.tmpbuf.length) := rfl
  rw [hfeed]
  split
  · exact ⟨[], by simp, by simp⟩
  split
  · exact ⟨[], by simp, by simp⟩
  split
  · exact ⟨[], by simp, by simp⟩
  · obtain ⟨new, hn1, hn2⟩ := feedMore_out_mono (c.length + 1)
      { pushRec s ⟨dtype s.ptr, s.ptr, s.tmpbuf ++ c.take (s.reclen - s.tmpbuf.length)⟩ with
          cnt := s.cnt + 1, ptr := s.ptr + s.reclen } c (s.reclen - s.tmpbuf.length)
    refine ⟨⟨dtype s.ptr, s.ptr, s.tmpbuf ++ c.take (s.reclen - s.tmpbuf.length)⟩ :: new, ?_, ?_⟩
    · rw [hn1]
      simp [pushRec]
    · intro e he
      rcases List.mem_cons.mp he with h | h
      · subst h; exact isData_mk _ _ _
      · exact hn2 e h

theorem foldl_feed_out_mono :
    ∀ (chunks : List (List Nat)) (s : St),
      ∃ new, (chunks.foldl feed s).out = s.out ++ new ∧ ∀ e ∈ new, isData e = true := by
  intro chunks
  induction chunks with
  | nil => intro s; exact ⟨[], by simp, by simp⟩
  | cons c cs ih =>
    intro s
    obtain ⟨n1, h11, h12⟩ := feed_out_mono s c
    obtain ⟨n2, h21, h22⟩ := ih (feed s c)
    refine ⟨n1 ++ n2, ?_, ?_⟩
    · rw [List.foldl_cons, h21, h11, List.append_assoc]
    · intro e he
      rcases List.mem_append.mp he with h | h
      · exact h12 e h
      · exact h22 e h

theorem flush_shape (base : Nat) (s : St)
    (herr : s.err = none)
    (hptr : s.ptr = base + (dataFlat s.out).length)
    (hbound : base + (dataFlat s.out).length + s.tmpbuf.length ≤ 4294967296) :
    (flush s).err = none ∧
      (flush s).out = (s.out
          ++ (if s.tmpbuf.length ≠ 0 then [⟨dtype s.ptr, s.ptr, s.tmpbuf⟩] else []))
        ++ ((if 0 < s.cnt + (if s.tmpbuf.length ≠ 0 then 1 else 0) ∧
                s.cnt + (if s.tmpbuf.length ≠ 0 then 1 else 0) ≤ 16777215 then
              [⟨ctype (s.cnt + (if s.tmpbuf.length ≠ 0 then 1 else 0)),
                s.cnt + (if s.tmpbuf.length ≠ 0 then 1 else 0), []⟩] else [])
          ++ [⟨atype s.exec, s.exec, []⟩]) := by
  have hover : ¬ (s.tmpbuf.length ≠ 0 ∧ 4294967295 < s.ptr) := by
    rintro ⟨h1, h2⟩
    rw [hptr] at h2
    omega
  by_cases h1 : s.tmpbuf.length ≠ 0
  · simp only [flush, herr, Option.isSome_none, Bool.false_eq_true, if_false,
      if_neg hover, if_pos h1, pushRec]
    split <;> rename_i hc <;> simp [pushRec, List.append_assoc, herr, hc]
  · simp only [flush, herr, Option.isSome_none, Bool.false_eq_true, if_false,
      if_neg hover, if_neg h1, pushRec]
    split <;> rename_i hc <;> simp [pushRec, List.append_assoc, herr, hc]

theorem construct_ok_mot (header : List Nat) (base exec reclen : Nat) (s0 : St)
    (h : construct header base exec reclen = .ok s0) :
    s0.tmpbuf = [] ∧ s0.cnt = 0 ∧ s0.ptr = base ∧ s0.exec = exec ∧ s0.err = none ∧
      1 ≤ s0.reclen ∧ s0.reclen ≤ 250 ∧ base ≤ 4294967295 ∧ exec ≤ 4294967295 ∧
      (s0.out = [] ∨ s0.out = [⟨0, 0, header⟩]) := by
  simp only [construct] at h
  split at h
  · exact absurd h (by simp)
  split at h
  · exact absurd h (by simp)
  rename_i hbase hexec
  by_cases hR : reclen < 1 ∨ 255 < reclen + 5
  case pos =>
    rw [if_pos hR] at h
    by_cases hh : header.length ≠ 0
    · rw [if_pos hh] at h
      split at h
      · exact absurd h (by simp)
      simp only [Except.ok.injEq] at h
      subst h
      exact ⟨rfl, rfl, rfl, rfl, rfl, by show (1 : Nat) ≤ 32; omega,
        by show (32 : Nat) ≤ 250; omega, by omega, by omega, Or.inr rfl⟩
    · rw [if_neg hh] at h
      simp only [Except.ok.injEq] at h
      subst h
      exact ⟨rfl, rfl, rfl, rfl, rfl, by show (1 : Nat) ≤ 32; omega,
        by show (32 : Nat) ≤ 250; omega, by omega, by omega, Or.inl rfl⟩
  case neg =>
    rw [if_neg hR] at h
    by_cases hh : header.length ≠ 0
    · rw [if_pos hh] at h
      split at h
      · exact absurd h (by simp)
      simp only [Except.ok.injEq] at h
      subst h
      exact ⟨rfl, rfl, rfl, rfl, rfl, by show (1 : Nat) ≤ reclen; omega,
        by show reclen ≤ 250; omega, by omega, by omega, Or.inr rfl⟩
    · rw [if_neg hh] at h
      simp only [Except.ok.injEq] at h
      subst h
      exact ⟨rfl, rfl, rfl, rfl, rfl, by show (1 : Nat) ≤ reclen; omega,
        by show reclen ≤ 250; omega, by omega, by omega, Or.inl rfl⟩

end Motorola

namespace Intel

theorem feedLoop_short : ∀ (bs rb : List Nat) (s : St),
    rb.length + bs.length < s.reclen →
    feedLoop s rb bs = { s with tmpbuf := rb ++ bs } := by
  intro bs
  induction bs with
  | nil => intro rb s h; simp [feedLoop]
  | cons b bs ih =>
    intro rb s h
    simp only [List.length_cons] at h
    have hstep : feedLoop s rb (b :: bs)
        = if (rb ++ [b]).length = s.reclen then feedLoop (emitStep s (rb ++ [b])) [] bs
          else feedLoop s (rb ++ [b]) bs := rfl
    rw [hstep, if_neg (by simp only [List.length_append, List.length_singleton]; omega)]
    rw [ih (rb ++ [b]) s (by simp only [List.length_append, List.length_singleton]; omega)]
    simp

theorem feedLoop_first : ∀ (bs rb : List Nat) (s : St),
    rb.length < s.reclen → s.reclen ≤ rb.length + bs.length →
    feedLoop s rb bs
      = feedLoop (emitStep s (rb ++ bs.take (s.reclen - rb.length))) []
          (bs.drop (s.reclen - rb.length)) := by
  intro bs
  induction bs with
  | nil => intro rb s h1 h2; simp only [List.length_nil] at h2; omega
  | cons b bs ih =>
    intro rb s h1 h2
    have hstep : feedLoop s rb (b :: bs)
        = if (rb ++ [b]).length = s.reclen then feedLoop (emitStep s (rb ++ [b])) [] bs
          else feedLoop s (rb ++ [b]) bs := rfl
    rw [hstep]
    by_cases hc : (rb ++ [b]).length = s.reclen
    · rw [if_pos hc]
      simp only [List.length_append, List.length_singleton] at hc
      have h3 : s.reclen - rb.length = 1 := by omega
      rw [h3]
      simp [List.take, List.drop]
    · rw [if_neg hc]
      simp only [List.length_append, List.length_singleton] at hc
      have h4 : rb.length + 1 < s.reclen := by omega
      rw [ih (rb ++ [b]) s (by simpa using h4)
        (by simp only [List.length_append, List.length_singleton, List.length_cons] at h2 ⊢
            omega)]
      have h5 : s.reclen - rb.length = (s.reclen - (rb.length + 1)) + 1 := by omega
      have h6 : (b :: bs).take (s.reclen - rb.length)
          = b :: bs.take (s.reclen - (rb.length + 1)) := by
        rw [h5]
        rfl
      have h7 : (b :: bs).drop (s.reclen - rb.length)
          = bs.drop (s.reclen - (rb.length + 1)) := by
        rw [h5]
        rfl
      rw [h6, h7]
      congr 2
      · simp [List.append_assoc]
      · simp

theorem flatMap_congr {α β : Type} (l : List α) (f g : α → List β)
    (h : ∀ x ∈ l, f x = g x) : l.flatMap f = l.flatMap g := by
  induction l with
  | nil => rfl
  | cons a t ih =>
    simp only [List.flatMap_cons]
    rw [h a (by simp), ih (fun x hx => h x (by simp [hx]))]

theorem div_shift (n r : Nat) (hr : 1 ≤ r) (h : r ≤ n) : n / r = (n - r) / r + 1 := by
  have h2 : n = (n - r) + r := by omega
  conv_lhs => rw [h2]
  rw [Nat.add_div_right _ (by omega)]

theorem eaNeeded_shift (n0 : Bool) (p r k : Nat) :
    eaNeeded (if jsShr16 p ≠ jsShr16 (p + r) then true else false) (p + r) r k
      = eaNeeded n0 p r (k + 1) := by
  rcases k with _ | k
  · simp [eaNeeded]
  · simp only [eaNeeded, if_neg (by omega : ¬ k + 1 = 0), if_neg (by omega : ¬ k + 2 = 0)]
    have h1 : p + r + (k + 1 - 1) * r = p + (k + 2 - 1) * r := by
      have : k + 1 - 1 = k := by omega
      have h2 : k + 2 - 1 = k + 1 := by omega
      rw [this, h2]
      ring
    have h3 : p + r + (k + 1) * r = p + (k + 2) * r := by ring
    rw [h1, h3]

theorem emitsFor_step (n0 : Bool) (p r : Nat) (total : List Nat)
    (hr : 1 ≤ r) (hlen : r ≤ total.length) :
    emitsFor n0 p r total
      = ((if n0 then [⟨4, 0, int16BE (jsShr16 p)⟩] else [])
          ++ [⟨0, p % 65536, total.take r⟩])
        ++ emitsFor (if jsShr16 p ≠ jsShr16 (p + r) then true else false) (p + r) r
            (total.drop r) := by
  have hm : total.length / r = (total.drop r).length / r + 1 := by
    rw [List.length_drop]
    exact div_shift total.length r hr hlen
  simp only [emitsFor, hm, List.range_succ_eq_map, List.flatMap_cons]
  congr 1
  · simp [eaNeeded]
  · rw [List.flatMap_map]
    apply flatMap_congr
    intro k hk
    show _ = (if eaNeeded _ (p + r) r k then
        [⟨4, 0, int16BE (jsShr16 (p + r + k * r))⟩] else [])
      ++ [⟨0, (p + r + k * r) % 65536, ((total.drop r).drop (k * r)).take r⟩]
    rw [eaNeeded_shift n0 p r k]
    have h1 : p + r + k * r = p + (k + 1) * r := by ring
    have h2 : (total.drop r).drop (k * r) = total.drop ((k + 1) * r) := by
      rw [List.drop_drop]
      congr 1
      ring
    rw [h1, h2]

theorem feedLoop_closed_short (s : St) (total : List Nat) (h : total.length < s.reclen) :
    (feedLoop s [] total).out = s.out ++ emitsFor s.needea s.ptr s.reclen total ∧
      (feedLoop s [] total).ptr = s.ptr + total.length / s.reclen * s.reclen ∧
      (feedLoop s [] total).needea
        = eaNeeded s.needea s.ptr s.reclen (total.length / s.reclen) ∧
      (feedLoop s [] total).tmpbuf = total.drop (total.length / s.reclen * s.reclen) ∧
      (feedLoop s [] total).reclen = s.reclen ∧
      (feedLoop s [] total).exec = s.exec ∧
      (feedLoop s [] total).err = s.err := by
  rw [feedLoop_short total [] s (by simpa using h)]
  have hm : total.length / s.reclen = 0 := Nat.div_eq_of_lt h
  simp [emitsFor, eaNeeded, hm]

theorem feedLoop_closed (r : Nat) (hr : 1 ≤ r) :
    ∀ (n : Nat) (total : List Nat), total.length ≤ n → ∀ s : St, s.reclen = r →
      (feedLoop s [] total).out = s.out ++ emitsFor s.needea s.ptr r total ∧
        (feedLoop s [] total).ptr = s.ptr + total.length / r * r ∧
        (feedLoop s [] total).needea = eaNeeded s.needea s.ptr r (total.length / r) ∧
        (feedLoop s [] total).tmpbuf = total.drop (total.length / r * r) ∧
        (feedLoop s [] total).reclen = r ∧
        (feedLoop s [] total).exec = s.exec ∧
        (feedLoop s [] total).err = s.err := by
  intro n
  induction n with
  | zero =>
    intro total hlen s hrl
    have h : total.length < s.reclen := by omega
    have := feedLoop_closed_short s total h
    rw [hrl] at this
    exact this
  | succ n ih =>
    intro total hlen s hrl
    by_cases hcase : total.length < r
    · have := feedLoop_closed_short s total (by omega)
      rw [hrl] at this
      exact this
    · have hle : r ≤ total.length := by omega
      have hfirst := feedLoop_first total [] s
        (by rw [hrl]; simp only [List.length_nil]; omega)
        (by rw [hrl]; simpa using hle)
      have h0 : ([] : List Nat) ++ total.take (s.reclen - ([] : List Nat).length)
          = total.take r := by simp [hrl]
      have h0d : total.drop (s.reclen - ([] : List Nat).length) = total.drop r := by
        simp [hrl]
      rw [h0, h0d] at hfirst
      rw [hfirst]
      have hf := emitStep_fields s (total.take r)
      have ih2 := ih (total.drop r) (by simp only [List.length_drop]; omega)
        (emitStep s (total.take r)) (by rw [hf.2.2.2.2.1]; exact hrl)
      have hm : total.length / r = (total.drop r).length / r + 1 := by
        rw [List.length_drop]
        exact div_shift total.length r hr hle
      have hptr2 : (emitStep s (total.take r)).ptr = s.ptr + r := by
        rw [hf.2.1, hrl]
      have hneed2 : (emitStep s (total.take r)).needea
          = (if jsShr16 s.ptr ≠ jsShr16 (s.ptr + r) then true else false) := by
        rw [hf.2.2.1, hrl]
      refine ⟨?_, ?_, ?_, ?_, ?_, ?_, ?_⟩
      · rw [ih2.1, hf.1, hptr2, hneed2]
        rw [emitsFor_step s.needea s.ptr r total hr hle]
        rw [List.append_assoc]
      · rw [ih2.2.1, hptr2, hm]
        ring
      · rw [ih2.2.2.1, hneed2, hptr2, eaNeeded_shift s.needea s.ptr r, hm]
      · rw [ih2.2.2.2.1, List.drop_drop, hm]
        congr 1
        ring
      · exact ih2.2.2.2.2.1
      · rw [ih2.2.2.2.2.2.1, hf.2.2.2.2.2.1]
      · rw [ih2.2.2.2.2.2.2, hf.2.2.2.2.2.2]

end Intel

/-! ## Helpers for the tamper-sensitivity analysis -/
theorem char_toNat_inj (a b : Char) (h : a.toNat = b.toNat) : a = b := by
  apply Char.ext
  apply UInt32.ext
  exact h

theorem hexVal_lt (c : Char) (h : isUpHexDigit c = true) : hexDigitVal c < 16 := by
  simp only [isUpHexDigit, Bool.or_eq_true, Bool.and_eq_true, decide_eq_true_eq] at h
  simp only [hexDigitVal]
  split <;> omega

theorem hexVal_inj (c d : Char) (hc : isUpHexDigit c = true) (hd : isUpHexDigit d = true)
    (h : hexDigitVal c = hexDigitVal d) : c = d := by
  simp only [isUpHexDigit, Bool.or_eq_true, Bool.and_eq_true, decide_eq_true_eq] at hc hd
  simp only [hexDigitVal] at h
  apply char_toNat_inj
  split at h <;> split at h <;> omega

theorem getD_mem_of_lt {α : Type} (l : List α) (j : Nat) (d : α) (h : j < l.length) :
    l.getD j d ∈ l := by
  rw [List.getD_eq_getElem l d h]
  exact List.getElem_mem h

theorem take_set_of_le (c : Char) :
    ∀ (l : List Char) (j m : Nat), m ≤ j → (l.set j c).take m = l.take m := by
  intro l
  induction l with
  | nil => intro j m h; simp
  | cons a t ih =>
    intro j m h
    rcases j with _ | j
    · interval_cases m
      simp
    rcases m with _ | m
    · simp
    · simp only [List.set_cons_succ, List.take_succ_cons, List.cons.injEq, true_and]
      exact ih j m (by omega)

theorem drop_set_of_lt (c : Char) :
    ∀ (l : List Char) (j m : Nat), j < m → (l.set j c).drop m = l.drop m := by
  intro l
  induction l with
  | nil => intro j m h; simp
  | cons a t ih =>
    intro j m h
    rcases j with _ | j
    · rcases m with _ | m
      · omega
      · simp
    rcases m with _ | m
    · omega
    · simp only [List.set_cons_succ, List.drop_succ_cons]
      exact ih j m (by omega)

theorem hexN_two_list (n : Nat) (h : n < 256) :
    hexN 2 n = [hexDigitChar (n / 16), hexDigitChar (n % 16)] := by
  show hexN 1 (n / 16) ++ [hexDigitChar (n % 16)] = _
  show (hexN 0 (n / 16 / 16) ++ [hexDigitChar (n / 16 % 16)]) ++ _ = _
  have h2 : n / 16 % 16 = n / 16 := Nat.mod_eq_of_lt (by omega)
  rw [h2]
  rfl

/-! ### Arithmetic characterization of the Signetics `bcc` -/
theorem two_mul_div_256 (x : Nat) : 2 * x / 256 = x / 128 := by
  have := Nat.mul_div_mul_left (m := 2) x 128 (by omega)
  simpa using this

theorem or_bit_eq_add (a b : Nat) (ha : a % 2 = 0) (hb : b ≤ 1) : a ||| b = a + b := by
  rcases Nat.le_one_iff_eq_zero_or_eq_one.mp hb with h | h
  · subst h; simp
  · subst h
    apply Nat.eq_of_testBit_eq
    intro i
    rcases i with _ | i
    · simp only [Nat.testBit_or, Nat.testBit_zero]
      rw [decide_eq_true (by omega : (a + 1) % 2 = 1)]
      simp
    · simp only [Nat.testBit_or]
      rw [Nat.testBit_succ, Nat.testBit_succ, Nat.testBit_succ]
      have h1 : (1 : Nat) / 2 = 0 := rfl
      have h2 : (a + 1) / 2 = a / 2 := by omega
      rw [h1, h2]
      simp

theorem and_255_eq_mod (n : Nat) : n &&& 255 = n % 256 := by
  have := Nat.and_pow_two_sub_one_eq_mod n 8
  norm_num at this
  exact this

theorem bcc_val (s d : Nat) :
    Signetics.bcc s d = 2 * ((s ^^^ d) % 128) + (s ^^^ d) / 128 % 2 := by
  simp only [Signetics.bcc]
  rw [Nat.shiftLeft_eq, Nat.shiftRight_eq_div_pow]
  norm_num [Nat.and_one_is_mod]
  rw [show (s ^^^ d) * 2 = 2 * (s ^^^ d) by ring]
  rw [two_mul_div_256]
  rw [or_bit_eq_add _ _ (by omega) (by omega)]
  rw [and_255_eq_mod]
  omega

theorem mod256_split (x : Nat) : x % 256 = x % 128 + 128 * (x / 128 % 2) := by
  have h1 : x % 256 % 128 = x % 128 := Nat.mod_mod_of_dvd _ (by norm_num)
  have h2 : x % 256 / 128 = x / 128 % 2 := by
    rw [show (256 : Nat) = 128 * 2 by norm_num]
    exact Nat.mod_mul_right_div_self x 128 2
  omega

theorem bcc_eq_iff (s d s2 d2 : Nat) :
    Signetics.bcc s d = Signetics.bcc s2 d2 ↔ (s ^^^ d) % 256 = (s2 ^^^ d2) % 256 := by
  rw [bcc_val, bcc_val]
  have hx := mod256_split (s ^^^ d)
  have hy := mod256_split (s2 ^^^ d2)
  omega

theorem xor_mod_two_pow (a b k : Nat) :
    (a ^^^ b) % 2 ^ k = (a % 2 ^ k) ^^^ (b % 2 ^ k) := by
  apply Nat.eq_of_testBit_eq
  intro i
  rw [Nat.testBit_mod_two_pow, Nat.testBit_xor, Nat.testBit_xor,
    Nat.testBit_mod_two_pow, Nat.testBit_mod_two_pow]
  by_cases h : i < k <;> simp [h]

theorem bcc_lt_256 (s d : Nat) : Signetics.bcc s d < 256 := Signetics.bcc_lt s d

theorem bcc_inj_data (s d d2 : Nat) (hd : d < 256) (hd2 : d2 < 256) (hne : d ≠ d2) :
    Signetics.bcc s d ≠ Signetics.bcc s d2 := by
  intro h
  rw [bcc_eq_iff] at h
  rw [show (256 : Nat) = 2 ^ 8 by norm_num, xor_mod_two_pow, xor_mod_two_pow] at h
  have := Nat.xor_right_injective h
  apply hne
  rw [Nat.mod_eq_of_lt (by omega), Nat.mod_eq_of_lt (by omega)] at this
  exact this

theorem bcc_inj_state (s s2 d : Nat) (hs : s < 256) (hs2 : s2 < 256) (hne : s ≠ s2) :
    Signetics.bcc s d ≠ Signetics.bcc s2 d := by
  intro h
  rw [bcc_eq_iff] at h
  rw [show (256 : Nat) = 2 ^ 8 by norm_num, xor_mod_two_pow, xor_mod_two_pow] at h
  rw [Nat.xor_comm (s % 2 ^ 8), Nat.xor_comm (s2 % 2 ^ 8)] at h
  have := Nat.xor_right_injective h
  apply hne
  rw [Nat.mod_eq_of_lt (by omega), Nat.mod_eq_of_lt (by omega)] at this
  exact this

theorem foldl_bcc_ne (l : List Nat) : ∀ s s2, s < 256 → s2 < 256 → s ≠ s2 →
    l.foldl Signetics.bcc s ≠ l.foldl Signetics.bcc s2 := by
  induction l with
  | nil => intro s s2 _ _ hne; simpa using hne
  | cons d t ih =>
    intro s s2 hs hs2 hne
    simp only [List.foldl_cons]
    exact ih (Signetics.bcc s d) (Signetics.bcc s2 d) (bcc_lt_256 s d) (bcc_lt_256 s2 d)
      (bcc_inj_state s s2 d hs hs2 hne)

theorem foldl_bcc_set (buf : List Nat) (p b2 : Nat) (hp : p < buf.length)
    (hb : ∀ x ∈ buf, x < 256) (hb2 : b2 < 256) (hne : b2 ≠ buf.getD p 0) :
    (buf.set p b2).foldl Signetics.bcc 0 ≠ buf.foldl Signetics.bcc 0 := by
  have hdec : buf = buf.take p ++ buf.getD p 0 :: buf.drop (p + 1) := by
    conv_lhs => rw [(List.take_append_drop p buf).symm]
    congr 1
    rw [List.getD_eq_getElem buf 0 hp]
    exact (List.getElem_cons_drop buf p hp).symm
  have hset : buf.set p b2 = buf.take p ++ b2 :: buf.drop (p + 1) := by
    conv_lhs => rw [hdec]
    rw [List.set_append]
    rw [if_neg (by simp only [List.length_take]; omega)]
    congr 1
    have : p - (buf.take p).length = 0 := by simp only [List.length_take]; omega
    rw [this]
    rfl
  rw [hset]
  conv_rhs => rw [hdec]
  rw [List.foldl_append, List.foldl_append, List.foldl_cons, List.foldl_cons]
  apply foldl_bcc_ne
  · exact bcc_lt_256 _ _
  · exact bcc_lt_256 _ _
  · apply bcc_inj_data
    · exact hb2
    · exact hb _ (getD_mem_of_lt buf p 0 hp)
    · exact hne

namespace Intel

theorem tamper_int (t a : Nat) (buf : List Nat) (ht : t < 256) (ha : a < 65536)
    (hlen : buf.length ≤ 255) (hb : ∀ b ∈ buf, b < 256)
    (i : Nat) (c : Char) (hi1 : 1 ≤ i) (hi2 : i < (buildRecord t a buf).length)
    (hc : isUpHexDigit c = true) (hne : c ≠ (buildRecord t a buf).getD i ' ') :
    parseRecord ((buildRecord t a buf).set i c) = .error "Incorrect byte count" ∨
      parseRecord ((buildRecord t a buf).set i c) = .error "Incorrect checksum" := by
  obtain ⟨j, rfl⟩ : ∃ j, i = j + 1 := ⟨i - 1, by omega⟩
  have hB_len : (bytesToHex buf).length = 2 * buf.length := bytesToHex_length buf hb
  set S : List Char := hexN 2 buf.length ++ hexN 4 a ++ hexN 2 t ++ bytesToHex buf with hS
  set sumS : Nat := (bytePairs S).sum with hsumS
  set cks : Nat := (256 - sumS % 256) % 256 with hcks
  have hcks_lt : cks < 256 := Nat.mod_lt _ (by norm_num)
  have hrec : buildRecord t a buf = ':' :: (S ++ hexN 2 cks) :=
    buildRecord_eq t a buf ht ha hlen
  set rest : List Char := S ++ hexN 2 cks with hrest
  have hS_len : S.length = 8 + 2 * buf.length := by
    simp only [hS, List.length_append, hexN_length, hB_len]
  have hrest_len : rest.length = 10 + 2 * buf.length := by
    simp only [hrest, List.length_append, hexN_length, hS_len]
    omega
  have hrest_hex : ∀ x ∈ rest, isUpHexDigit x = true := by
    intro x hx
    simp only [hrest, hS, List.append_assoc, List.mem_append] at hx
    rcases hx with h | h | h | h | h
    · exact hexN_all_hex 2 _ x h
    · exact hexN_all_hex 4 _ x h
    · exact hexN_all_hex 2 _ x h
    · exact bytesToHex_all_hex buf x h
    · exact hexN_all_hex 2 _ x h
  have hj : j < rest.length := by
    rw [hrec] at hi2
    simpa using hi2
  have hset : (buildRecord t a buf).set (j + 1) c = ':' :: rest.set j c := by
    rw [hrec]
    rfl
  -- old and new digit values differ
  have hold_hex : isUpHexDigit (rest.getD j ' ') = true :=
    hrest_hex _ (getD_mem_of_lt rest j ' ' hj)
  have hne2 : c ≠ rest.getD j ' ' := by
    intro h
    apply hne
    rw [hrec]
    simpa using h
  have hvne : hexDigitVal c ≠ hexDigitVal (rest.getD j ' ') := by
    intro h
    exact hne2 (hexVal_inj c _ hc hold_hex h)
  have hvc : hexDigitVal c < 16 := hexVal_lt c hc
  have hvo : hexDigitVal (rest.getD j ' ') < 16 := hexVal_lt _ hold_hex
  -- set-record structure and cleanliness
  have hset_hex : ∀ x ∈ rest.set j c, isUpHexDigit x = true := by
    intro x hx
    rcases List.mem_or_eq_of_mem_set hx with h | h
    · exact hrest_hex x h
    · subst h; exact hc
  have hclean : jsToUpper (jsTrim (':' :: rest.set j c)) = ':' :: rest.set j c := by
    apply clean_record
    intro x hx
    rcases List.mem_cons.mp hx with h | h
    · right; left; exact h
    · left; exact hset_hex x h
  have hformat : formatOk (':' :: rest.set j c) = true := by
    simp only [formatOk, beq_self_eq_true, Bool.true_and, Bool.and_eq_true,
      List.all_eq_true, beq_iff_eq, decide_eq_true_eq]
    refine ⟨⟨fun x hx => hset_hex x hx, ?_⟩, ?_⟩ <;>
      simp only [List.length_set, hrest_len] <;> omega
  have hlen_set : (':' :: rest.set j c).length = 11 + 2 * buf.length := by
    simp [List.length_set, hrest_len]
    omega
  -- the original checksum balances
  have hpairs_S : bytePairs S = buf.length :: (a / 256) :: (a % 256) :: t :: buf := by
    simp only [hS]
    rw [List.append_assoc, List.append_assoc]
    rw [bytePairs_append _ _ (by rw [hexN_length])]
    rw [bytePairs_append _ _ (by rw [hexN_length])]
    rw [bytePairs_append _ _ (by rw [hexN_length])]
    rw [bytePairs_hexN_two buf.length (by omega), bytePairs_hexN_four a ha,
      bytePairs_hexN_two t ht, bytePairs_bytesToHex buf hb]
    rfl
  have hsum0 : (bytePairs rest).sum % 256 = 0 := by
    rw [hrest, bytePairs_append _ _ (by rw [hS_len]; omega), bytePairs_hexN_two cks hcks_lt]
    simp only [List.sum_append, List.sum_cons, List.sum_nil]
    omega
  by_cases hj2 : j < 2
  · -- the byte-count field was changed: declared count no longer matches
    left
    have hsplit : rest.set j c = (hexN 2 buf.length).set j c
        ++ (hexN 4 a ++ hexN 2 t ++ bytesToHex buf ++ hexN 2 cks) := by
      rw [hrest, hS]
      rw [show hexN 2 buf.length ++ hexN 4 a ++ hexN 2 t ++ bytesToHex buf ++ hexN 2 cks
          = hexN 2 buf.length ++ (hexN 4 a ++ hexN 2 t ++ bytesToHex buf ++ hexN 2 cks) by
        simp [List.append_assoc]]
      rw [List.set_append, if_pos (by rw [hexN_length]; omega)]
    have hslice : jsSlice 1 3 (':' :: rest.set j c) = (hexN 2 buf.length).set j c := by
      refine jsSlice_eq 1 3 _ [':'] ((hexN 2 buf.length).set j c)
        (hexN 4 a ++ hexN 2 t ++ bytesToHex buf ++ hexN 2 cks) ?_ (by simp)
        (by simp [List.length_set, hexN_length])
      rw [hset.symm, hset, hsplit]
      simp
    have hbc_ne : parseHex ((hexN 2 buf.length).set j c) ≠ buf.length := by
      rw [hexN_two_list buf.length (by omega)]
      have hd0 : hexDigitVal (hexDigitChar (buf.length / 16)) = buf.length / 16 :=
        hexDigitVal_hexDigitChar _ (by omega)
      have hd1 : hexDigitVal (hexDigitChar (buf.length % 16)) = buf.length % 16 :=
        hexDigitVal_hexDigitChar _ (Nat.mod_lt _ (by omega))
      have hgetd : rest.getD j ' '
          = [hexDigitChar (buf.length / 16), hexDigitChar (buf.length % 16)].getD j ' ' := by
        rw [hrest, hS]
        rcases (by omega : j = 0 ∨ j = 1) with h | h <;> subst h <;>
          · rw [← hexN_two_list buf.length (by omega)]
            rfl
      rcases (by omega : j = 0 ∨ j = 1) with h | h <;> subst h
      · show parseHex [c, hexDigitChar (buf.length % 16)] ≠ _
        show parseHexAux (parseHexAux 0 [c]) _ ≠ _
        simp only [parseHexAux, hd1]
        rw [hgetd] at hvne hvo
        simp only [List.getD_cons_zero] at hvne hvo
        omega
      · show parseHex [hexDigitChar (buf.length / 16), c] ≠ _
        show parseHexAux (parseHexAux 0 [hexDigitChar (buf.length / 16)]) _ ≠ _
        simp only [parseHexAux, hd0]
        rw [hgetd] at hvne hvo
        simp only [List.getD_cons_succ, List.getD_cons_zero] at hvne hvo
        omega
    rw [hset]
    simp only [parseRecord]
    rw [hclean, hformat]
    simp only [Bool.true_eq_false, if_false]
    rw [hslice, hlen_set]
    rw [if_pos (by
      intro hcontra
      apply hbc_ne
      omega)]
  · -- a later digit was changed: the checksum no longer balances
    right
    have hslice : jsSlice 1 3 (':' :: rest.set j c) = hexN 2 buf.length := by
      have htake : (rest.set j c).take 2 = rest.take 2 := take_set_of_le c rest j 2 (by omega)
      have htake2 : rest.take 2 = hexN 2 buf.length := by
        rw [hrest, hS]
        rw [show hexN 2 buf.length ++ hexN 4 a ++ hexN 2 t ++ bytesToHex buf ++ hexN 2 cks
            = hexN 2 buf.length ++ (hexN 4 a ++ hexN 2 t ++ bytesToHex buf ++ hexN 2 cks) by
          simp [List.append_assoc]]
        rw [List.take_append_of_le_length (by rw [hexN_length])]
        rw [← hexN_length 2 buf.length]
        exact List.take_length _
      show ((':' :: rest.set j c).drop 1).take 2 = _
      rw [List.drop_succ_cons, List.drop_zero, htake, htake2]
    have hsum_ne : (bytePairs (rest.set j c)).sum % 256 ≠ 0 := by
      have hps := pairSum_set c rest j hj (by rw [hrest_len]; omega)
      have h0 := hsum0
      set vc := hexDigitVal c with hvc_def
      set vo := hexDigitVal (rest.getD j ' ') with hvo_def
      set N := (bytePairs (rest.set j c)).sum with hN_def
      set O := (bytePairs rest).sum with hO_def
      rcases Nat.even_or_odd j with he | ho
      · rw [if_pos (Nat.even_iff.mp he)] at hps
        omega
      · have hjo := Nat.odd_iff.mp ho
        rw [if_neg (by omega)] at hps
        omega
    rw [hset]
    simp only [parseRecord]
    rw [hclean, hformat]
    simp only [Bool.true_eq_false, if_false]
    rw [hslice, hlen_set, parseHex_hexN 2 buf.length (by norm_num; omega)]
    rw [if_neg (by omega)]
    rw [if_pos (by
      show (bytePairs ((':' :: rest.set j c).drop 1)).sum % 256 ≠ 0
      rw [List.drop_succ_cons, List.drop_zero]
      exact hsum_ne)]

end Intel

/-! ### Helpers for the Signetics tamper analysis -/
theorem getD_append_left_own {α : Type} : ∀ (x y : List α) (j : Nat) (d : α),
    j < x.length → (x ++ y).getD j d = x.getD j d := by
  intro x
  induction x with
  | nil => intro y j d h; simp at h
  | cons a t ih =>
    intro y j d h
    rcases j with _ | j
    · simp
    · simp only [List.cons_append, List.getD_cons_succ]
      exact ih y j d (by simpa using h)

theorem getD_append_right_own {α : Type} : ∀ (x y : List α) (j : Nat) (d : α),
    x.length ≤ j → (x ++ y).getD j d = y.getD (j - x.length) d := by
  intro x
  induction x with
  | nil => intro y j d h; simp
  | cons a t ih =>
    intro y j d h
    rcases j with _ | j
    · simp at h
    · simp only [List.cons_append, List.getD_cons_succ, List.length_cons]
      rw [ih y j d (by simpa using h)]
      congr 1
      omega

theorem take_cons_drop_getD {α : Type} (l : List α) (p : Nat) (d : α) (hp : p < l.length) :
    l.take p ++ l.getD p d :: l.drop (p + 1) = l := by
  rw [List.getD_eq_getElem l d hp]
  conv_rhs => rw [(List.take_append_drop p l).symm]
  congr 1
  exact List.getElem_cons_drop l p hp

theorem set_eq_take_cons_drop {α : Type} (l : List α) (p : Nat) (x : α) (hp : p < l.length) :
    l.set p x = l.take p ++ x :: l.drop (p + 1) := by
  conv_lhs => rw [(take_cons_drop_getD l p x hp).symm]
  rw [List.set_append]
  rw [if_neg (by simp only [List.length_take]; omega)]
  have h0 : p - (l.take p).length = 0 := by simp only [List.length_take]; omega
  rw [h0]
  rfl

theorem set_middle {α : Type} (pre mid suf : List α) (j : Nat) (c : α)
    (h1 : pre.length ≤ j) (h2 : j < pre.length + mid.length) :
    (pre ++ (mid ++ suf)).set j c = pre ++ (mid.set (j - pre.length) c ++ suf) := by
  rw [List.set_append, if_neg (by omega), List.set_append, if_pos (by omega)]

theorem hexN_four_list (n : Nat) (h : n < 65536) :
    hexN 4 n = [hexDigitChar (n / 4096), hexDigitChar (n / 256 % 16),
      hexDigitChar (n / 16 % 16), hexDigitChar (n % 16)] := by
  have h2 : n / 16 / 16 = n / 256 := by omega
  have h3 : n / 256 / 16 = n / 4096 := by omega
  have h4 : n / 4096 % 16 = n / 4096 := Nat.mod_eq_of_lt (by omega)
  simp [hexN, h2, h3, h4]

theorem parseHex_set_two_ne (v : Nat) (hv : v < 256) (j : Nat) (hj : j < 2) (c : Char)
    (hvne : hexDigitVal c ≠ hexDigitVal ((hexN 2 v).getD j ' ')) :
    parseHex ((hexN 2 v).set j c) ≠ v := by
  have e0 : hexDigitVal (hexDigitChar (v / 16)) = v / 16 :=
    hexDigitVal_hexDigitChar _ (by omega)
  have e1 : hexDigitVal (hexDigitChar (v % 16)) = v % 16 :=
    hexDigitVal_hexDigitChar _ (by omega)
  rw [hexN_two_list v hv] at hvne ⊢
  interval_cases j <;>
    simp only [List.set_cons_zero, List.set_cons_succ, List.getD_cons_zero,
      List.getD_cons_succ, parseHex, parseHexAux, e0, e1] at hvne ⊢ <;>
    omega

theorem parseHex_set_four (a : Nat) (ha : a < 65536) (j : Nat) (hj : j < 4) (c : Char)
    (hc : isUpHexDigit c = true)
    (hvne : hexDigitVal c ≠ hexDigitVal ((hexN 4 a).getD j ' ')) :
    parseHex ((hexN 4 a).set j c) < 65536 ∧
      ((j < 2 ∧ parseHex ((hexN 4 a).set j c) / 256 ≠ a / 256 ∧
          parseHex ((hexN 4 a).set j c) % 256 = a % 256) ∨
        (2 ≤ j ∧ parseHex ((hexN 4 a).set j c) / 256 = a / 256 ∧
          parseHex ((hexN 4 a).set j c) % 256 ≠ a % 256)) := by
  have hvc := hexVal_lt c hc
  have e0 : hexDigitVal (hexDigitChar (a / 4096)) = a / 4096 :=
    hexDigitVal_hexDigitChar _ (by omega)
  have e1 : hexDigitVal (hexDigitChar (a / 256 % 16)) = a / 256 % 16 :=
    hexDigitVal_hexDigitChar _ (by omega)
  have e2 : hexDigitVal (hexDigitChar (a / 16 % 16)) = a / 16 % 16 :=
    hexDigitVal_hexDigitChar _ (by omega)
  have e3 : hexDigitVal (hexDigitChar (a % 16)) = a % 16 :=
    hexDigitVal_hexDigitChar _ (by omega)
  rw [hexN_four_list a ha] at hvne ⊢
  interval_cases j <;>
    simp only [List.set_cons_zero, List.set_cons_succ, List.getD_cons_zero,
      List.getD_cons_succ, parseHex, parseHexAux, e0, e1, e2, e3] at hvne ⊢ <;>
    omega

theorem bytePairs_set_two (bp : Nat) (hbp : bp < 256) (r : Nat) (hr : r < 2) (c : Char)
    (hc : isUpHexDigit c = true)
    (hvne : hexDigitVal c ≠ hexDigitVal ((hexN 2 bp).getD r ' ')) :
    ∃ b2, bytePairs ((hexN 2 bp).set r c) = [b2] ∧ b2 < 256 ∧ b2 ≠ bp := by
  have hvc := hexVal_lt c hc
  have e0 : hexDigitVal (hexDigitChar (bp / 16)) = bp / 16 :=
    hexDigitVal_hexDigitChar _ (by omega)
  have e1 : hexDigitVal (hexDigitChar (bp % 16)) = bp % 16 :=
    hexDigitVal_hexDigitChar _ (by omega)
  rw [hexN_two_list bp hbp] at hvne ⊢
  interval_cases r
  · refine ⟨hexDigitVal c * 16 + bp % 16, ?_, by omega, ?_⟩
    · simp only [List.set_cons_zero]
      simp [bytePairs, e1]
    · simp only [List.getD_cons_zero, e0] at hvne
      omega
  · refine ⟨bp / 16 * 16 + hexDigitVal c, ?_, by omega, ?_⟩
    · simp only [List.set_cons_succ, List.set_cons_zero]
      simp [bytePairs, e0]
    · simp only [List.getD_cons_succ, List.getD_cons_zero, e1] at hvne
      omega

theorem asum_inj (a2 a n : Nat) (ha2 : a2 < 65536) (ha : a < 65536)
    (hcase : (a2 / 256 ≠ a / 256 ∧ a2 % 256 = a % 256) ∨
      (a2 / 256 = a / 256 ∧ a2 % 256 ≠ a % 256)) :
    Signetics.bcc (Signetics.bcc (Signetics.bcc 0 (a2 >>> 8)) a2) n
      ≠ Signetics.bcc (Signetics.bcc (Signetics.bcc 0 (a >>> 8)) a) n := by
  have hs2 : a2 >>> 8 = a2 / 256 := by
    rw [Nat.shiftRight_eq_div_pow]
  have hs : a >>> 8 = a / 256 := by
    rw [Nat.shiftRight_eq_div_pow]
  apply bcc_inj_state _ _ n (bcc_lt_256 _ _) (bcc_lt_256 _ _)
  intro heq
  rw [bcc_eq_iff] at heq
  rw [show (256 : Nat) = 2 ^ 8 from by norm_num] at heq
  rw [xor_mod_two_pow, xor_mod_two_pow] at heq
  rw [Nat.mod_eq_of_lt (show Signetics.bcc 0 (a2 >>> 8) < 2 ^ 8 from by
      have := bcc_lt_256 0 (a2 >>> 8)
      omega),
    Nat.mod_eq_of_lt (show Signetics.bcc 0 (a >>> 8) < 2 ^ 8 from by
      have := bcc_lt_256 0 (a >>> 8)
      omega)] at heq
  rcases hcase with ⟨hne, heql⟩ | ⟨heqh, hne⟩
  · have heql2 : a2 % 2 ^ 8 = a % 2 ^ 8 := by omega
    rw [heql2] at heq
    have hb0 : Signetics.bcc 0 (a2 >>> 8) = Signetics.bcc 0 (a >>> 8) := by
      have h1 : a % 2 ^ 8 ^^^ Signetics.bcc 0 (a2 >>> 8)
          = a % 2 ^ 8 ^^^ Signetics.bcc 0 (a >>> 8) := by
        rw [Nat.xor_comm (a % 2 ^ 8), Nat.xor_comm (a % 2 ^ 8)]
        exact heq
      exact Nat.xor_right_injective h1
    rw [bcc_eq_iff] at hb0
    simp only [Nat.zero_xor] at hb0
    rw [hs2, hs] at hb0
    apply hne
    omega
  · rw [hs2, hs, heqh] at heq
    have h2 := Nat.xor_right_injective heq
    apply hne
    omega

namespace Signetics

theorem parse_shape (A N2 K B D : List Char) (n : Nat) (hn : 1 ≤ n)
    (hA : A.length = 4) (hN : N2.length = 2) (hK : K.length = 2)
    (hB : B.length = 2 * n) (hD : D.length = 2)
    (hhex : ∀ c ∈ A ++ (N2 ++ (K ++ (B ++ D))), isUpHexDigit c = true) :
    parseRecord (':' :: (A ++ (N2 ++ (K ++ (B ++ D))))) =
      if n ≠ parseHex N2 then .error "Incorrect byte count"
      else if bcc (bcc (bcc 0 (parseHex A >>> 8)) (parseHex A)) (bytePairs B).length
            ≠ parseHex K ∨ (bytePairs B).foldl bcc 0 ≠ parseHex D then
        .error "Incorrect checksum"
      else .ok ⟨none, parseHex A, bytePairs B⟩ := by
  have hrest_len : (A ++ (N2 ++ (K ++ (B ++ D)))).length = 10 + 2 * n := by
    simp only [List.length_append, hA, hN, hK, hB, hD]
    omega
  have hclean : jsToUpper (jsTrim (':' :: (A ++ (N2 ++ (K ++ (B ++ D))))))
      = ':' :: (A ++ (N2 ++ (K ++ (B ++ D)))) := by
    apply clean_record
    intro x hx
    rcases List.mem_cons.mp hx with h | h
    · right; left; exact h
    · left; exact hhex x h
  have hlen_rec : (':' :: (A ++ (N2 ++ (K ++ (B ++ D))))).length = 11 + 2 * n := by
    simp only [List.length_cons, hrest_len]
    omega
  have hshort : ¬ (shortEofOk (':' :: (A ++ (N2 ++ (K ++ (B ++ D))))) = true) := by
    simp only [shortEofOk, Bool.and_eq_true, beq_iff_eq]
    intro hco
    have := hco.1.1.1
    rw [hlen_rec] at this
    omega
  have hformat : formatOk (':' :: (A ++ (N2 ++ (K ++ (B ++ D))))) = true := by
    simp only [formatOk, beq_self_eq_true, Bool.true_and, Bool.and_eq_true,
      List.all_eq_true, beq_iff_eq, decide_eq_true_eq]
    refine ⟨⟨fun x hx => hhex x hx, ?_⟩, ?_⟩ <;> rw [hrest_len] <;> omega
  have haddr : jsSlice 1 5 (':' :: (A ++ (N2 ++ (K ++ (B ++ D))))) = A :=
    jsSlice_eq 1 5 _ [':'] A (N2 ++ (K ++ (B ++ D)))
      (by simp) (by simp) (by simp [hA])
  have hbc : jsSlice 5 7 (':' :: (A ++ (N2 ++ (K ++ (B ++ D))))) = N2 :=
    jsSlice_eq 5 7 _ (':' :: A) N2 (K ++ (B ++ D))
      (by simp) (by simp [hA]) (by simp [hA, hN])
  have hacks : jsSlice 7 9 (':' :: (A ++ (N2 ++ (K ++ (B ++ D))))) = K :=
    jsSlice_eq 7 9 _ (':' :: (A ++ N2)) K (B ++ D)
      (by simp) (by simp [hA, hN]) (by simp [hA, hN, hK])
  have hdata : jsSlice 9 (11 + 2 * n - 2) (':' :: (A ++ (N2 ++ (K ++ (B ++ D))))) = B :=
    jsSlice_eq 9 _ _ (':' :: (A ++ N2 ++ K)) B D
      (by simp) (by simp [hA, hN, hK]) (by simp [hA, hN, hK, hB]; omega)
  have hdcks : jsSlice (11 + 2 * n - 2) (11 + 2 * n)
      (':' :: (A ++ (N2 ++ (K ++ (B ++ D))))) = D := by
    refine jsSlice_eq _ _ _ (':' :: (A ++ N2 ++ K ++ B)) D [] ?_ ?_ ?_
    · simp
    · simp [hA, hN, hK, hB]
      omega
    · simp [hA, hN, hK, hB, hD]
      omega
  simp only [parseRecord]
  rw [hclean, if_neg hshort, hformat]
  simp only [Bool.true_eq_false, if_false]
  rw [hlen_rec, hbc, haddr, hacks, hdata, hdcks]
  rw [show (11 + 2 * n - 11) / 2 = n from by omega]

end Signetics

theorem mem_of_mem_set_own {α : Type} (l : List α) (j : Nat) (c x : α)
    (hx : x ∈ l.set j c) : x ∈ l ∨ x = c := by
  rcases List.mem_or_eq_of_mem_set hx with h | h
  · exact Or.inl h
  · exact Or.inr h

namespace Signetics

theorem tamper_sig (a : Nat) (buf : List Nat) (ha : a < 65536) (hn1 : 1 ≤ buf.length)
    (hlen : buf.length ≤ 255) (hb : ∀ b ∈ buf, b < 256)
    (i : Nat) (c : Char) (hi1 : 1 ≤ i) (hi2 : i < (buildRecord none a buf).length)
    (hc : isUpHexDigit c = true) (hne : c ≠ (buildRecord none a buf).getD i ' ') :
    parseRecord ((buildRecord none a buf).set i c) = .error "Incorrect byte count" ∨
      parseRecord ((buildRecord none a buf).set i c) = .error "Incorrect checksum" := by
  obtain ⟨j, rfl⟩ : ∃ j, i = j + 1 := ⟨i - 1, by omega⟩
  have hB_len0 : (bytesToHex buf).length = 2 * buf.length := bytesToHex_length buf hb
  have hasum_lt : bcc (bcc (bcc 0 (a >>> 8)) a) buf.length < 256 := bcc_lt _ _
  have hdsum_lt : buf.foldl bcc 0 < 256 := foldl_bcc_lt buf 0 (by omega)
  have hrec : buildRecord none a buf
      = ':' :: (hexN 4 a ++ (hexN 2 buf.length
          ++ (hexN 2 (bcc (bcc (bcc 0 (a >>> 8)) a) buf.length)
          ++ (bytesToHex buf ++ hexN 2 (buf.foldl bcc 0))))) := by
    simp only [buildRecord]
    rw [Nat.mod_eq_of_lt ha, if_neg (by omega : ¬ buf.length = 0)]
    rw [padHex_eq_hexN 4 a (by norm_num; omega),
      padHex_eq_hexN 2 buf.length (by norm_num; omega),
      padHex_eq_hexN 2 _ (by norm_num; omega : bcc (bcc (bcc 0 (a >>> 8)) a) buf.length < 16 ^ 2),
      padHex_eq_hexN 2 _ (by norm_num; omega : buf.foldl bcc 0 < 16 ^ 2)]
    simp only [List.append_assoc]
  set A := hexN 4 a with hA_def
  set N2 := hexN 2 buf.length with hN_def
  set K := hexN 2 (bcc (bcc (bcc 0 (a >>> 8)) a) buf.length) with hK_def
  set B := bytesToHex buf with hB_def
  set D := hexN 2 (buf.foldl bcc 0) with hD_def
  have hA_len : A.length = 4 := by rw [hA_def]; exact hexN_length 4 a
  have hN_len : N2.length = 2 := by rw [hN_def]; exact hexN_length 2 _
  have hK_len : K.length = 2 := by rw [hK_def]; exact hexN_length 2 _
  have hD_len : D.length = 2 := by rw [hD_def]; exact hexN_length 2 _
  have hB_len : B.length = 2 * buf.length := hB_len0
  have hrest_len : (A ++ (N2 ++ (K ++ (B ++ D)))).length = 10 + 2 * buf.length := by
    simp only [List.length_append, hA_len, hN_len, hK_len, hB_len, hD_len]
    omega
  have hj : j < 10 + 2 * buf.length := by
    rw [hrec] at hi2
    simp only [List.length_cons, hrest_len] at hi2
    omega
  have hset : (buildRecord none a buf).set (j + 1) c
      = ':' :: (A ++ (N2 ++ (K ++ (B ++ D)))).set j c := by
    rw [hrec]
    rfl
  have hrest_hex : ∀ x ∈ A ++ (N2 ++ (K ++ (B ++ D))), isUpHexDigit x = true := by
    intro x hx
    simp only [hA_def, hN_def, hK_def, hB_def, hD_def, List.mem_append] at hx
    rcases hx with h | h | h | h | h
    · exact hexN_all_hex 4 _ x h
    · exact hexN_all_hex 2 _ x h
    · exact hexN_all_hex 2 _ x h
    · exact bytesToHex_all_hex buf x h
    · exact hexN_all_hex 2 _ x h
  have hold_hex : isUpHexDigit ((A ++ (N2 ++ (K ++ (B ++ D)))).getD j ' ') = true :=
    hrest_hex _ (getD_mem_of_lt _ j ' ' (by rw [hrest_len]; omega))
  have hne2 : c ≠ (A ++ (N2 ++ (K ++ (B ++ D)))).getD j ' ' := by
    intro h
    apply hne
    rw [hrec]
    simpa using h
  have hvne : hexDigitVal c ≠ hexDigitVal ((A ++ (N2 ++ (K ++ (B ++ D)))).getD j ' ') :=
    fun h => hne2 (hexVal_inj c _ hc hold_hex h)
  have hvc : hexDigitVal c < 16 := hexVal_lt c hc
  have hN_parse : parseHex N2 = buf.length := by
    rw [hN_def]
    exact parseHex_hexN 2 buf.length (by norm_num; omega)
  have hK_parse : parseHex K = bcc (bcc (bcc 0 (a >>> 8)) a) buf.length := by
    rw [hK_def]
    exact parseHex_hexN 2 _ (by norm_num; omega)
  have hD_parse : parseHex D = buf.foldl bcc 0 := by
    rw [hD_def]
    exact parseHex_hexN 2 _ (by norm_num; omega)
  have hA_parse : parseHex A = a := by
    rw [hA_def]
    exact parseHex_hexN 4 a (by norm_num; omega)
  have hBp : bytePairs B = buf := by
    rw [hB_def]
    exact bytePairs_bytesToHex buf hb
  rcases (by omega : j < 4 ∨ (4 ≤ j ∧ j < 6) ∨ (6 ≤ j ∧ j < 8) ∨
      (8 ≤ j ∧ j < 8 + 2 * buf.length) ∨ 8 + 2 * buf.length ≤ j) with
    hr1 | ⟨hr2a, hr2b⟩ | ⟨hr3a, hr3b⟩ | ⟨hr4a, hr4b⟩ | hr5
  · -- an address digit was changed: the address checksum no longer matches
    right
    have hsplit : (A ++ (N2 ++ (K ++ (B ++ D)))).set j c
        = A.set j c ++ (N2 ++ (K ++ (B ++ D))) := by
      rw [List.set_append, if_pos (by rw [hA_len]; omega)]
    have hgd : (A ++ (N2 ++ (K ++ (B ++ D)))).getD j ' ' = A.getD j ' ' :=
      getD_append_left_own A _ j ' ' (by rw [hA_len]; omega)
    have hvne4 : hexDigitVal c ≠ hexDigitVal ((hexN 4 a).getD j ' ') := by
      rw [hgd, hA_def] at hvne
      exact hvne
    obtain ⟨ha2lt, hcase⟩ := parseHex_set_four a ha j hr1 c hc hvne4
    have hsethex : ∀ x ∈ A.set j c ++ (N2 ++ (K ++ (B ++ D))), isUpHexDigit x = true := by
      intro x hx
      rw [← hsplit] at hx
      rcases mem_of_mem_set_own _ j c x hx with h | h
      · exact hrest_hex x h
      · subst h
        exact hc
    rw [hset, hsplit, parse_shape (A.set j c) N2 K B D buf.length (by omega)
      (by rw [List.length_set, hA_len]) hN_len hK_len hB_len hD_len hsethex]
    rw [if_neg (by rw [hN_parse]; omega)]
    rw [if_pos (Or.inl (by
      rw [hK_parse, hBp, hA_def]
      exact asum_inj (parseHex ((hexN 4 a).set j c)) a buf.length ha2lt ha
        (hcase.elim (fun h => Or.inl ⟨h.2.1, h.2.2⟩) (fun h => Or.inr ⟨h.2.1, h.2.2⟩))))]
  · -- a byte-count digit was changed: the declared count no longer matches
    left
    have hsplit : (A ++ (N2 ++ (K ++ (B ++ D)))).set j c
        = A ++ (N2.set (j - 4) c ++ (K ++ (B ++ D))) := by
      rw [List.set_append, if_neg (by rw [hA_len]; omega)]
      rw [List.set_append, if_pos (by rw [hA_len, hN_len]; omega)]
      rw [hA_len]
    have hgd : (A ++ (N2 ++ (K ++ (B ++ D)))).getD j ' ' = N2.getD (j - 4) ' ' := by
      rw [getD_append_right_own A _ j ' ' (by rw [hA_len]; omega)]
      rw [getD_append_left_own N2 _ _ ' ' (by rw [hA_len, hN_len]; omega)]
      rw [hA_len]
    have hvne2 : hexDigitVal c ≠ hexDigitVal ((hexN 2 buf.length).getD (j - 4) ' ') := by
      rw [hgd, hN_def] at hvne
      exact hvne
    have hbcne := parseHex_set_two_ne buf.length (by omega) (j - 4) (by omega) c hvne2
    have hsethex : ∀ x ∈ A ++ (N2.set (j - 4) c ++ (K ++ (B ++ D))), isUpHexDigit x = true := by
      intro x hx
      rw [← hsplit] at hx
      rcases mem_of_mem_set_own _ j c x hx with h | h
      · exact hrest_hex x h
      · subst h
        exact hc
    rw [hset, hsplit, parse_shape A (N2.set (j - 4) c) K B D buf.length (by omega)
      hA_len (by rw [List.length_set, hN_len]) hK_len hB_len hD_len hsethex]
    rw [if_pos (by
      rw [hN_def]
      exact fun h => hbcne h.symm)]
  · -- an address-checksum digit was changed: the stored value no longer matches
    right
    have hsplit : (A ++ (N2 ++ (K ++ (B ++ D)))).set j c
        = A ++ (N2 ++ (K.set (j - 6) c ++ (B ++ D))) := by
      rw [List.set_append, if_neg (by rw [hA_len]; omega)]
      rw [List.set_append, if_neg (by rw [hA_len, hN_len]; omega)]
      rw [List.set_append, if_pos (by rw [hA_len, hN_len, hK_len]; omega)]
      rw [hA_len, hN_len]
      rw [show j - 4 - 2 = j - 6 from by omega]
    have hgd : (A ++ (N2 ++ (K ++ (B ++ D)))).getD j ' ' = K.getD (j - 6) ' ' := by
      rw [getD_append_right_own A _ j ' ' (by rw [hA_len]; omega)]
      rw [getD_append_right_own N2 _ _ ' ' (by rw [hA_len, hN_len]; omega)]
      rw [getD_append_left_own K _ _ ' ' (by rw [hA_len, hN_len, hK_len]; omega)]
      rw [hA_len, hN_len]
      rw [show j - 4 - 2 = j - 6 from by omega]
    have hvne2 : hexDigitVal c
        ≠ hexDigitVal ((hexN 2 (bcc (bcc (bcc 0 (a >>> 8)) a) buf.length)).getD (j - 6) ' ') := by
      rw [hgd, hK_def] at hvne
      exact hvne
    have hkne := parseHex_set_two_ne _ hasum_lt (j - 6) (by omega) c hvne2
    have hsethex : ∀ x ∈ A ++ (N2 ++ (K.set (j - 6) c ++ (B ++ D))), isUpHexDigit x = true := by
      intro x hx
      rw [← hsplit] at hx
      rcases mem_of_mem_set_own _ j c x hx with h | h
      · exact hrest_hex x h
      · subst h
        exact hc
    rw [hset, hsplit, parse_shape A N2 (K.set (j - 6) c) B D buf.length (by omega)
      hA_len hN_len (by rw [List.length_set, hK_len]) hB_len hD_len hsethex]
    rw [if_neg (by rw [hN_parse]; omega)]
    rw [if_pos (Or.inl (by
      rw [hA_parse, hBp, hK_def]
      exact fun h => hkne h.symm))]
  · -- a payload digit was changed: the data checksum no longer matches
    right
    obtain ⟨p, r, hpr, hrlt⟩ : ∃ p r, j - 8 = 2 * p + r ∧ r < 2 :=
      ⟨(j - 8) / 2, (j - 8) % 2, by omega, by omega⟩
    have hp_lt : p < buf.length := by omega
    have hbp_lt : buf.getD p 0 < 256 := hb _ (getD_mem_of_lt buf p 0 hp_lt)
    have hbuf_dec : buf.take p ++ buf.getD p 0 :: buf.drop (p + 1) = buf :=
      take_cons_drop_getD buf p 0 hp_lt
    have hpre_bytes : ∀ x ∈ buf.take p, x < 256 := fun x hx => hb x (List.mem_of_mem_take hx)
    have hpost_bytes : ∀ x ∈ buf.drop (p + 1), x < 256 := fun x hx =>
      hb x (List.mem_of_mem_drop hx)
    have hpre_len : (bytesToHex (buf.take p)).length = 2 * p := by
      rw [bytesToHex_length _ hpre_bytes, List.length_take]
      omega
    have hB_dec : B = bytesToHex (buf.take p)
        ++ (hexN 2 (buf.getD p 0) ++ bytesToHex (buf.drop (p + 1))) := by
      rw [hB_def]
      conv_lhs => rw [← hbuf_dec]
      simp only [bytesToHex, List.flatMap_append, List.flatMap_cons]
      rw [padHex_eq_hexN 2 _ (lt_of_lt_of_le hbp_lt (by norm_num))]
    have hBset : B.set (j - 8) c = bytesToHex (buf.take p)
        ++ ((hexN 2 (buf.getD p 0)).set r c ++ bytesToHex (buf.drop (p + 1))) := by
      rw [hB_dec, hpr, set_middle _ _ _ _ _ (by rw [hpre_len]; omega)
        (by rw [hpre_len, hexN_length]; omega)]
      rw [hpre_len]
      rw [show 2 * p + r - 2 * p = r from by omega]
    have hgd : (A ++ (N2 ++ (K ++ (B ++ D)))).getD j ' '
        = (hexN 2 (buf.getD p 0)).getD r ' ' := by
      rw [getD_append_right_own A _ j ' ' (by rw [hA_len]; omega)]
      rw [getD_append_right_own N2 _ _ ' ' (by rw [hA_len, hN_len]; omega)]
      rw [getD_append_right_own K _ _ ' ' (by rw [hA_len, hN_len, hK_len]; omega)]
      rw [getD_append_left_own B _ _ ' ' (by rw [hA_len, hN_len, hK_len, hB_len]; omega)]
      rw [hA_len, hN_len, hK_len]
      rw [show j - 4 - 2 - 2 = j - 8 from by omega]
      rw [hB_dec, hpr]
      rw [getD_append_right_own _ _ _ ' ' (by rw [hpre_len]; omega)]
      rw [getD_append_left_own _ _ _ ' ' (by rw [hpre_len, hexN_length]; omega)]
      rw [hpre_len]
      rw [show 2 * p + r - 2 * p = r from by omega]
    have hvne2 : hexDigitVal c ≠ hexDigitVal ((hexN 2 (buf.getD p 0)).getD r ' ') := by
      rw [hgd] at hvne
      exact hvne
    obtain ⟨b2, hb2_eq, hb2_lt, hb2_ne⟩ :=
      bytePairs_set_two (buf.getD p 0) hbp_lt r hrlt c hc hvne2
    have hsplit : (A ++ (N2 ++ (K ++ (B ++ D)))).set j c
        = A ++ (N2 ++ (K ++ (B.set (j - 8) c ++ D))) := by
      rw [List.set_append, if_neg (by rw [hA_len]; omega)]
      rw [List.set_append, if_neg (by rw [hA_len, hN_len]; omega)]
      rw [List.set_append, if_neg (by rw [hA_len, hN_len, hK_len]; omega)]
      rw [List.set_append, if_pos (by rw [hA_len, hN_len, hK_len, hB_len]; omega)]
      rw [hA_len, hN_len, hK_len]
      rw [show j - 4 - 2 - 2 = j - 8 from by omega]
    have hpairs : bytePairs (B.set (j - 8) c) = buf.set p b2 := by
      rw [hBset]
      rw [bytePairs_append _ _ (by rw [hpre_len]; omega)]
      rw [bytePairs_append _ _ (by rw [List.length_set, hexN_length])]
      rw [hb2_eq]
      rw [bytePairs_bytesToHex _ hpre_bytes, bytePairs_bytesToHex _ hpost_bytes]
      rw [set_eq_take_cons_drop buf p b2 hp_lt]
      rfl
    have hsethex : ∀ x ∈ A ++ (N2 ++ (K ++ (B.set (j - 8) c ++ D))),
        isUpHexDigit x = true := by
      intro x hx
      rw [← hsplit] at hx
      rcases mem_of_mem_set_own _ j c x hx with h | h
      · exact hrest_hex x h
      · subst h
        exact hc
    rw [hset, hsplit, parse_shape A N2 K (B.set (j - 8) c) D buf.length (by omega)
      hA_len hN_len hK_len (by rw [List.length_set, hB_len]) hD_len hsethex]
    rw [if_neg (by rw [hN_parse]; omega)]
    rw [if_pos (Or.inr (by
      rw [hpairs, hD_parse]
      exact foldl_bcc_set buf p b2 hp_lt hb hb2_lt hb2_ne))]
  · -- a data-checksum digit was changed: the stored value no longer matches
    right
    have hsplit : (A ++ (N2 ++ (K ++ (B ++ D)))).set j c
        = A ++ (N2 ++ (K ++ (B ++ D.set (j - 8 - 2 * buf.length) c))) := by
      rw [List.set_append, if_neg (by rw [hA_len]; omega)]
      rw [List.set_append, if_neg (by rw [hA_len, hN_len]; omega)]
      rw [List.set_append, if_neg (by rw [hA_len, hN_len, hK_len]; omega)]
      rw [List.set_append, if_neg (by rw [hA_len, hN_len, hK_len, hB_len]; omega)]
      rw [hA_len, hN_len, hK_len, hB_len]
      rw [show j - 4 - 2 - 2 - 2 * buf.length = j - 8 - 2 * buf.length from by omega]
    have hgd : (A ++ (N2 ++ (K ++ (B ++ D)))).getD j ' '
        = D.getD (j - 8 - 2 * buf.length) ' ' := by
      rw [getD_append_right_own A _ j ' ' (by rw [hA_len]; omega)]
      rw [getD_append_right_own N2 _ _ ' ' (by rw [hA_len, hN_len]; omega)]
      rw [getD_append_right_own K _ _ ' ' (by rw [hA_len, hN_len, hK_len]; omega)]
      rw [getD_append_right_own B _ _ ' ' (by rw [hA_len, hN_len, hK_len, hB_len]; omega)]
      rw [hA_len, hN_len, hK_len, hB_len]
      rw [show j - 4 - 2 - 2 - 2 * buf.length = j - 8 - 2 * buf.length from by omega]
    have hvne2 : hexDigitVal c
        ≠ hexDigitVal ((hexN 2 (buf.foldl bcc 0)).getD (j - 8 - 2 * buf.length) ' ') := by
      rw [hgd, hD_def] at hvne
      exact hvne
    have hdne := parseHex_set_two_ne _ hdsum_lt (j - 8 - 2 * buf.length) (by omega) c hvne2
    have hsethex : ∀ x ∈ A ++ (N2 ++ (K ++ (B ++ D.set (j - 8 - 2 * buf.length) c))),
        isUpHexDigit x = true := by
      intro x hx
      rw [← hsplit] at hx
      rcases mem_of_mem_set_own _ j c x hx with h | h
      · exact hrest_hex x h
      · subst h
        exact hc
    rw [hset, hsplit, parse_shape A N2 K B (D.set (j - 8 - 2 * buf.length) c) buf.length
      (by omega) hA_len hN_len hK_len hB_len (by rw [List.length_set, hD_len]) hsethex]
    rw [if_neg (by rw [hN_parse]; omega)]
    rw [if_pos (Or.inr (by
      rw [hBp, hD_def]
      exact fun h => hdne h.symm))]

end Signetics

namespace Intel

/-! ### Composition of Intel feeds: a chunked run equals one big run -/
theorem emitStep_tmpbuf (s : St) (x recb : List Nat) :
    emitStep { s with tmpbuf := x } recb = { emitStep s recb with tmpbuf := x } := by
  simp only [emitStep, pushRec]
  by_cases h1 : s.needea <;>
    by_cases h2 : jsShr16 s.ptr ≠ jsShr16 (s.ptr + s.reclen) <;>
      simp [h1, h2]

theorem feedLoop_tmpbuf : ∀ (bs rb x : List Nat) (s : St),
    feedLoop { s with tmpbuf := x } rb bs = feedLoop s rb bs := by
  intro bs
  induction bs with
  | nil => intro rb x s; rfl
  | cons b bs ih =>
    intro rb x s
    have hstep : feedLoop { s with tmpbuf := x } rb (b :: bs)
        = if (rb ++ [b]).length = s.reclen
          then feedLoop (emitStep { s with tmpbuf := x } (rb ++ [b])) [] bs
          else feedLoop { s with tmpbuf := x } (rb ++ [b]) bs := rfl
    have hstep2 : feedLoop s rb (b :: bs)
        = if (rb ++ [b]).length = s.reclen
          then feedLoop (emitStep s (rb ++ [b])) [] bs
          else feedLoop s (rb ++ [b]) bs := rfl
    rw [hstep, hstep2]
    split
    · rw [emitStep_tmpbuf, ih [] x (emitStep s (rb ++ [b]))]
    · rw [ih (rb ++ [b]) x s]

theorem feedLoop_merge : ∀ (xs ys rb : List Nat) (s : St),
    feedLoop s rb (xs ++ ys)
      = feedLoop (feedLoop s rb xs) (feedLoop s rb xs).tmpbuf ys := by
  intro xs
  induction xs with
  | nil =>
    intro ys rb s
    show feedLoop s rb ys = feedLoop { s with tmpbuf := rb } rb ys
    rw [feedLoop_tmpbuf ys rb rb s]
  | cons b xs ih =>
    intro ys rb s
    have hstep : feedLoop s rb ((b :: xs) ++ ys)
        = if (rb ++ [b]).length = s.reclen
          then feedLoop (emitStep s (rb ++ [b])) [] (xs ++ ys)
          else feedLoop s (rb ++ [b]) (xs ++ ys) := rfl
    have hstep2 : feedLoop s rb (b :: xs)
        = if (rb ++ [b]).length = s.reclen
          then feedLoop (emitStep s (rb ++ [b])) [] xs
          else feedLoop s (rb ++ [b]) xs := rfl
    rw [hstep, hstep2]
    split
    · rw [ih ys [] (emitStep s (rb ++ [b]))]
    · rw [ih ys (rb ++ [b]) s]

theorem feedLoop_preload : ∀ (x ys rb : List Nat) (s : St),
    rb.length + x.length < s.reclen →
    feedLoop s rb (x ++ ys) = feedLoop s (rb ++ x) ys := by
  intro x
  induction x with
  | nil =>
    intro ys rb s h
    rw [List.nil_append, List.append_nil]
  | cons b x ih =>
    intro ys rb s h
    simp only [List.length_cons] at h
    have hstep : feedLoop s rb ((b :: x) ++ ys)
        = if (rb ++ [b]).length = s.reclen
          then feedLoop (emitStep s (rb ++ [b])) [] (x ++ ys)
          else feedLoop s (rb ++ [b]) (x ++ ys) := rfl
    rw [hstep, if_neg (by simp only [List.length_append, List.length_singleton]; omega)]
    rw [ih ys (rb ++ [b]) s (by simp only [List.length_append, List.length_singleton]; omega)]
    rw [List.append_assoc]
    rfl

theorem foldl_feed_eq_feedLoop : ∀ (chunks : List (List Nat)) (s : St),
    s.tmpbuf.length < s.reclen →
    chunks.foldl feed s = feedLoop s [] (s.tmpbuf ++ chunks.flatten) := by
  intro chunks
  induction chunks with
  | nil =>
    intro s h
    show s = feedLoop s [] (s.tmpbuf ++ List.flatten [])
    rw [List.flatten_nil, List.append_nil]
    rw [feedLoop_short s.tmpbuf [] s (by simpa using h)]
    simp
  | cons c cs ih =>
    intro s h
    have hinv := feed_inv_int s c (by omega)
    show cs.foldl feed (feed s c) = _
    rw [ih (feed s c) (by omega)]
    rw [feedLoop_preload (feed s c).tmpbuf cs.flatten [] (feed s c)
      (by have h1 := hinv.1
          have h2 := hinv.2.1
          simp only [List.length_nil]
          omega)]
    rw [List.nil_append]
    show feedLoop (feedLoop s [] (s.tmpbuf ++ c)) (feedLoop s [] (s.tmpbuf ++ c)).tmpbuf
        cs.flatten = _
    rw [← feedLoop_merge (s.tmpbuf ++ c) cs.flatten [] s]
    rw [List.flatten_cons, List.append_assoc]

end Intel

namespace Motorola

/-! ### Unconditional Motorola pending-buffer bound, and record-type case facts -/
theorem atype_cases (p : Nat) : atype p = 7 ∨ atype p = 8 ∨ atype p = 9 := by
  simp only [atype]
  split
  · exact Or.inl rfl
  split
  · exact Or.inr (Or.inl rfl)
  · exact Or.inr (Or.inr rfl)

theorem ctype_cases (p : Nat) : ctype p = 5 ∨ ctype p = 6 := by
  simp only [ctype]
  split
  · exact Or.inr rfl
  · exact Or.inl rfl

theorem dataFlat_empty_buf (t a : Nat) : dataFlat [⟨t, a, []⟩] = [] := by
  simp only [dataFlat, List.filter]
  split <;> simp

theorem dataFlat_header (h : List Nat) : dataFlat [⟨0, 0, h⟩] = [] := by
  simp [dataFlat, List.filter, isData]

theorem feedMore_tmp (s0rl : Nat) :
    ∀ (fuel : Nat) (s : St) (chunk : List Nat) (chunkptr : Nat),
      chunk.length - chunkptr < fuel →
      s.reclen = s0rl → 1 ≤ s0rl →
      s.tmpbuf.length < s0rl →
      (feedMore fuel s chunk chunkptr).reclen = s0rl ∧
        (feedMore fuel s chunk chunkptr).tmpbuf.length < s0rl := by
  intro fuel
  induction fuel with
  | zero => intro s chunk chunkptr hfuel; omega
  | succ fuel ih =>
    intro s chunk chunkptr hfuel hrl h1 htmp
    have hstep : feedMore (fuel + 1) s chunk chunkptr
        = if chunkptr + s.reclen ≤ chunk.length then
            (if 4294967295 < s.ptr then { s with err := some "Load address too wide" }
            else
              feedMore fuel
                { pushRec s ⟨dtype s.ptr, s.ptr, (chunk.drop chunkptr).take s.reclen⟩ with
                    cnt := s.cnt + 1, ptr := s.ptr + s.reclen }
                chunk (chunkptr + s.reclen))
          else { s with tmpbuf := chunk.drop chunkptr } := rfl
    rw [hstep]
    by_cases hfit : chunkptr + s.reclen ≤ chunk.length
    · rw [if_pos hfit]
      by_cases hover : 4294967295 < s.ptr
      · rw [if_pos hover]
        exact ⟨hrl, htmp⟩
      · rw [if_neg hover]
        exact ih _ chunk (chunkptr + s.reclen) (by omega) hrl h1 htmp
    · rw [if_neg hfit]
      refine ⟨hrl, ?_⟩
      simp only [List.length_drop]
      omega

theorem feed_tmp (s : St) (c : List Nat) (h1 : 1 ≤ s.reclen)
    (htmp : s.tmpbuf.length < s.reclen) :
    (feed s c).reclen = s.reclen ∧ (feed s c).tmpbuf.length < s.reclen := by
  simp only [feed]
  by_cases herr : s.err.isSome
  · rw [if_pos herr]
    exact ⟨rfl, htmp⟩
  rw [if_neg herr]
  by_cases hsmall : s.tmpbuf.length + c.length < s.reclen
  · rw [if_pos hsmall]
    refine ⟨rfl, ?_⟩
    simp only [List.length_append]
    omega
  rw [if_neg hsmall]
  by_cases hover : 4294967295 < s.ptr
  · rw [if_pos hover]
    exact ⟨rfl, htmp⟩
  rw [if_neg hover]
  exact feedMore_tmp s.reclen (c.length + 1)
    { pushRec s ⟨dtype s.ptr, s.ptr, s.tmpbuf ++ c.take (s.reclen - s.tmpbuf.length)⟩ with
        cnt := s.cnt + 1, ptr := s.ptr + s.reclen }
    c (s.reclen - s.tmpbuf.length) (by omega) rfl h1 (by simpa using htmp)

theorem foldl_feed_tmp : ∀ (chunks : List (List Nat)) (s : St), 1 ≤ s.reclen →
    s.tmpbuf.length < s.reclen →
    (chunks.foldl feed s).reclen = s.reclen ∧
      (chunks.foldl feed s).tmpbuf.length < s.reclen := by
  intro chunks
  induction chunks with
  | nil => intro s h1 htmp; exact ⟨rfl, htmp⟩
  | cons c cs ih =>
    intro s h1 htmp
    have hc := feed_tmp s c h1 htmp
    have := ih (feed s c) (by omega) (by omega)
    rw [hc.1] at this
    exact this

end Motorola

/-! ### Concrete demonstration runs for the settled claims -/
/-- Motorola type 2 with a 252-byte payload (in the claimed 0-252 range,
address in range for the 24-bit type): the byte-count field 252+3+1 = 256
overflows its two hex digits, printf pads to three digits, and the built
record no longer parses. -/
theorem C1_counterexample :
    (Motorola.buildRecord 2 0 (List.replicate 252 0)).bind Motorola.parseRecord
      = .error "Invalid record" := by decide

/-- Streaming [170, 187] into a Motorola stream based at 0xFFFFFFFF with
record length 1: the first byte is emitted, then the stream errors and the
second byte is dropped, so the emitted payloads are not the input. -/
theorem C2_counterexample :
    (Motorola.run [] 4294967295 0 1 [[170, 187]]).map
        (fun s => (Motorola.dataFlat s.out, s.err))
      = .ok ([170], some "Load address too wide") ∧
      ([170] : List Nat) ≠ [170, 187] := by
  refine ⟨by decide, by decide⟩

/-- Two single-digit flips that valid parsers must reject but these accept:
the Motorola checksum digit (the precedence defect disables the checksum
comparison) and an address digit of a Signetics short EOF record (no
checksum covers the short form). -/
theorem C3_counterexample :
    (Motorola.buildRecord 1 0 [1] = .ok "S104000001FA".toList ∧
      Motorola.parseRecord ("S104000001FA".toList.set 11 'B') = .ok ⟨some 1, 0, [1]⟩) ∧
      (Signetics.buildRecord none 1280 [] = ":050000".toList ∧
        Signetics.parseRecord (":050000".toList.set 1 '1') = .ok ⟨none, 5376, []⟩) := by
  refine ⟨⟨by decide, by decide⟩, by decide, by decide⟩

/-- A 96-byte run from base 0xFFD0 with record length 32: the data record
at 0xFFF0 crosses the 64KB boundary with no extended-address record before
it; the extended-address record is pushed before the next record instead. -/
theorem C4_counterexample :
    (Intel.run 65488 0 32 [List.replicate 96 0]).map
        (fun s => s.out.map (fun e => (e.rtype, e.addr)))
      = .ok [(4, 0), (0, 65488), (0, 65520), (4, 0), (0, 16), (1, 0)] := by decide

/-- A Motorola stream whose pointer starts beyond 0xFFFF emits S2 data
records, but the count record at finish is S5, not S6: its type follows
the record count (here 1), not the pointer. -/
theorem C5_counterexample :
    (Motorola.run [] 65536 0 32 [List.replicate 32 9]).map
        (fun s => s.out.map (fun e => (e.rtype, e.addr)))
      = .ok [(2, 65536), (5, 1), (9, 0)] := by decide

/-- An Intel stream based at 0xFFFFFFFF with record length 1: the pointer
leaves the 32-bit space between the two data records, the second record
silently wraps to address 0 (fresh extended-address record 0000), and no
error is raised. -/
theorem C6_silent_wrap :
    (Intel.run 4294967295 0 1 [[170, 187]]).map
        (fun s => (s.out.map (fun e => (e.rtype, e.addr, e.buf)), s.err))
      = .ok ([(4, 0, [255, 255]), (0, 65535, [170]), (4, 0, [0, 0]), (0, 0, [187]),
          (1, 0, [])], none) := by decide

/-- An Intel stream with exec address 0x80000000 (accepted at
construction): flush calls writeInt32BE, which throws ERR_OUT_OF_RANGE,
so no start-linear-address record and no end-of-file record is emitted. -/
theorem C7_flush_crash :
    (Intel.run 0 2147483648 32 []).map (fun s => (s.out, s.err))
      = .ok ([], some "ERR_OUT_OF_RANGE") := by decide

/-- Constructing a Signetics stream with record length 0 (outside 1-255)
does not fail: an instance is created with the default length 32. -/
theorem C8_counterexample :
    Signetics.construct 0 0 0 = .ok ⟨[], 0, 0, 32, []⟩ := by decide

namespace Motorola

theorem isData_ctype (n a : Nat) (buf : List Nat) : isData ⟨ctype n, a, buf⟩ = false := by
  rcases ctype_cases n with h | h <;> simp [isData, h]

theorem isData_atype (n a : Nat) (buf : List Nat) : isData ⟨atype n, a, buf⟩ = false := by
  rcases atype_cases n with h | h | h <;> simp [isData, h]

theorem isData_rtype (e : Emit) (h : isData e = true) :
    e.rtype = 1 ∨ e.rtype = 2 ∨ e.rtype = 3 := by
  simp only [isData, Bool.or_eq_true, beq_iff_eq] at h
  tauto

theorem flush_dataFlat (base : Nat) (s : St)
    (herr : s.err = none)
    (hptr : s.ptr = base + (dataFlat s.out).length)
    (hbound : base + (dataFlat s.out).length + s.tmpbuf.length ≤ 4294967296) :
    dataFlat (flush s).out = dataFlat s.out ++ s.tmpbuf := by
  rw [(flush_shape base s herr hptr hbound).2]
  rw [dataFlat_append_mot, dataFlat_append_mot, dataFlat_append_mot]
  have h1 : dataFlat (if s.tmpbuf.length ≠ 0 then [⟨dtype s.ptr, s.ptr, s.tmpbuf⟩] else [])
      = s.tmpbuf := by
    split
    · have := dataFlat_push_data [] s.ptr s.ptr s.tmpbuf
      simpa using this
    · rename_i hz
      simp only [ne_eq, not_not] at hz
      rw [List.length_eq_zero] at hz
      simp [dataFlat, hz]
  have h2 : ∀ n : Nat, dataFlat (if 0 < n ∧ n ≤ 16777215 then
        [(⟨ctype n, n, []⟩ : Emit)] else []) = [] := by
    intro n
    split
    · exact dataFlat_empty_buf _ _
    · rfl
  have h3 : dataFlat [(⟨atype s.exec, s.exec, []⟩ : Emit)] = [] := dataFlat_empty_buf _ _
  rw [h1, h2, h3]
  simp

end Motorola

/-! ## The claims, settled -/
/-- C1.  Round-trip (corrected statement): parseRecord inverts buildRecord
for every format on in-range inputs, with the payload bound corrected per
format — Intel and Signetics take up to 255 payload bytes, while a
Motorola record needs byte count `payload + addressBytes + 1 ≤ 255`, that
is at most 252/251/250 bytes for the 16/24/32-bit types.  The claimed
uniform 0-252 payload range fails for Motorola types 2 and 3. -/
theorem C1_round_trip :
    (∀ (t a : Nat) (buf : List Nat), t < 256 → a < 65536 → buf.length ≤ 255 →
      (∀ b ∈ buf, b < 256) →
      Intel.parseRecord (Intel.buildRecord t a buf) = .ok ⟨some t, a, buf⟩) ∧
    (∀ (t a : Nat) (buf : List Nat), t = 0 ∨ t = 1 ∨ t = 5 ∨ t = 9 → a < 65536 →
      buf.length ≤ 252 → (∀ b ∈ buf, b < 256) →
      (Motorola.buildRecord t a buf).bind Motorola.parseRecord = .ok ⟨some t, a, buf⟩) ∧
    (∀ (t a : Nat) (buf : List Nat), t = 2 ∨ t = 6 ∨ t = 8 → a < 16777216 →
      buf.length ≤ 251 → (∀ b ∈ buf, b < 256) →
      (Motorola.buildRecord t a buf).bind Motorola.parseRecord = .ok ⟨some t, a, buf⟩) ∧
    (∀ (t a : Nat) (buf : List Nat), t = 3 ∨ t = 7 → a < 4294967296 →
      buf.length ≤ 250 → (∀ b ∈ buf, b < 256) →
      (Motorola.buildRecord t a buf).bind Motorola.parseRecord = .ok ⟨some t, a, buf⟩) ∧
    (∀ (a : Nat) (buf : List Nat), a < 65536 → buf.length ≤ 255 →
      (∀ b ∈ buf, b < 256) →
      Signetics.parseRecord (Signetics.buildRecord none a buf) = .ok ⟨none, a, buf⟩) := by
  refine ⟨?_, ?_, ?_, ?_, ?_⟩
  · intro t a buf ht ha hlen hb
    exact Intel.parse_build t a buf ht ha hlen hb
  · intro t a buf ht ha hlen hb
    exact Motorola.parse_build16 t a buf ht ha hlen hb
  · intro t a buf ht ha hlen hb
    exact Motorola.parse_build24 t a buf ht ha hlen hb
  · intro t a buf ht ha hlen hb
    exact Motorola.parse_build32 t a buf ht ha hlen hb
  · intro a buf ha hlen hb
    by_cases hz : buf.length = 0
    · rw [List.length_eq_zero] at hz
      subst hz
      exact Signetics.parse_build_empty a ha
    · exact Signetics.parse_build_data a buf ha hz hlen hb

/-- C3.  Tamper sensitivity (corrected statement): flipping any single hex
digit of a built record to a different hex digit makes parseRecord fail
with a byte-count or checksum error — for Intel records, and for
Signetics records with a nonempty payload.  The Motorola parser (dead
checksum comparison) and the Signetics short EOF form (no checksum at
all) lack the property. -/
theorem C3_tamper_sensitivity :
    (∀ (t a i : Nat) (buf : List Nat) (c : Char),
      t < 256 → a < 65536 → buf.length ≤ 255 → (∀ b ∈ buf, b < 256) →
      1 ≤ i → i < (Intel.buildRecord t a buf).length → isUpHexDigit c = true →
      c ≠ (Intel.buildRecord t a buf).getD i ' ' →
      Intel.parseRecord ((Intel.buildRecord t a buf).set i c)
          = .error "Incorrect byte count" ∨
        Intel.parseRecord ((Intel.buildRecord t a buf).set i c)
          = .error "Incorrect checksum") ∧
    (∀ (a i : Nat) (buf : List Nat) (c : Char),
      a < 65536 → 1 ≤ buf.length → buf.length ≤ 255 → (∀ b ∈ buf, b < 256) →
      1 ≤ i → i < (Signetics.buildRecord none a buf).length → isUpHexDigit c = true →
      c ≠ (Signetics.buildRecord none a buf).getD i ' ' →
      Signetics.parseRecord ((Signetics.buildRecord none a buf).set i c)
          = .error "Incorrect byte count" ∨
        Signetics.parseRecord ((Signetics.buildRecord none a buf).set i c)
          = .error "Incorrect checksum") := by
  constructor
  · intro t a i buf c ht ha hlen hb hi1 hi2 hc hne
    exact Intel.tamper_int t a buf ht ha hlen hb i c hi1 hi2 hc hne
  · intro a i buf c ha hn1 hlen hb hi1 hi2 hc hne
    exact Signetics.tamper_sig a buf ha hn1 hlen hb i c hi1 hi2 hc hne

/-- C8.  Signetics record-length validation (corrected statement): a
maximum record length outside 1-255 does not fail construction — an
instance is created with the silently substituted default 32, contrary to
the claimed ConfigurationError. -/
theorem C8_reclen_default (base exec reclen : Nat) (hb : base ≤ 65535)
    (he : exec ≤ 65535) (hbad : reclen < 1 ∨ 255 < reclen) :
    ∃ s0, Signetics.construct base exec reclen = .ok s0 ∧ s0.reclen = 32 := by
  refine ⟨⟨[], base, exec, 32, []⟩, ?_, rfl⟩
  simp only [Signetics.construct]
  rw [if_neg (by omega), if_neg (by omega), if_pos hbad]

/-- Witness for C8: record length 0 yields a constructed Signetics stream
whose record length is the default 32. -/
theorem C8_witness :
    ∃ s0, Signetics.construct 0 0 0 = .ok s0 ∧ s0.reclen = 32 :=
  C8_reclen_default 0 0 0 (by omega) (by omega) (Or.inl (by omega))

/-- C9.  Pending-buffer invariant (confirmed): for each of the three
stream encoders, the pending partial buffer is empty right after
construction and stays strictly shorter than the configured maximum
record length after any sequence of feed calls. -/
theorem C9_pending_invariant :
    (∀ (base exec reclen : Nat) (chunks : List (List Nat)) (s0 : Intel.St),
      Intel.construct base exec reclen = .ok s0 →
      s0.tmpbuf.length < s0.reclen ∧
        (chunks.foldl Intel.feed s0).tmpbuf.length < s0.reclen) ∧
    (∀ (header : List Nat) (base exec reclen : Nat) (chunks : List (List Nat))
        (s0 : Motorola.St),
      Motorola.construct header base exec reclen = .ok s0 →
      s0.tmpbuf.length < s0.reclen ∧
        (chunks.foldl Motorola.feed s0).tmpbuf.length < s0.reclen) ∧
    (∀ (base exec reclen : Nat) (chunks : List (List Nat)) (s0 : Signetics.St),
      Signetics.construct base exec reclen = .ok s0 →
      s0.tmpbuf.length < s0.reclen ∧
        (chunks.foldl Signetics.feed s0).tmpbuf.length < s0.reclen) := by
  refine ⟨?_, ?_, ?_⟩
  · intro base exec reclen chunks s0 h
    obtain ⟨ht, _, _, _, _, _, hrl, _, _, _⟩ := Intel.construct_ok_int base exec reclen s0 h
    refine ⟨by rw [ht]; simpa using hrl,
      (Intel.foldl_feed_inv_int chunks s0 hrl (by rw [ht]; simpa using hrl)).1⟩
  · intro header base exec reclen chunks s0 h
    obtain ⟨ht, _, _, _, _, hrl, _, _, _, _⟩ :=
      Motorola.construct_ok_mot header base exec reclen s0 h
    refine ⟨by rw [ht]; simpa using hrl, ?_⟩
    exact (Motorola.foldl_feed_tmp chunks s0 hrl (by rw [ht]; simpa using hrl)).2
  · intro base exec reclen chunks s0 h
    obtain ⟨ht, _, _, _, hrl, _, _, _⟩ := Signetics.construct_ok_sig base exec reclen s0 h
    refine ⟨by rw [ht]; simpa using hrl,
      (Signetics.foldl_feed_inv_sig chunks s0 hrl (by rw [ht]; simpa using hrl)).1⟩

/-- C10.  Motorola address masking (confirmed): buildRecord succeeds for
every supported type no matter how large the address argument is, and the
address is reduced modulo the width of the type's address field (2^16,
2^24 or 2^32 by type) rather than rejected as out of range. -/
theorem C10_address_masking (t a : Nat) (buf : List Nat) :
    ((t = 0 ∨ t = 1 ∨ t = 5 ∨ t = 9) →
      (∃ r, Motorola.buildRecord t a buf = .ok r) ∧
      Motorola.buildRecord t a buf = Motorola.buildRecord t (a % 65536) buf) ∧
    ((t = 2 ∨ t = 6 ∨ t = 8) →
      (∃ r, Motorola.buildRecord t a buf = .ok r) ∧
      Motorola.buildRecord t a buf = Motorola.buildRecord t (a % 16777216) buf) ∧
    ((t = 3 ∨ t = 7) →
      (∃ r, Motorola.buildRecord t a buf = .ok r) ∧
      Motorola.buildRecord t a buf = Motorola.buildRecord t (a % 4294967296) buf) := by
  refine ⟨fun ht => ?_, fun ht => ?_, fun ht => ?_⟩
  · have h1 : Motorola.buildRecord t a buf
        = .ok (Motorola.mkRecord t (buf.length + 3) (padHex 4 (a % 65536)) buf) := by
      simp only [Motorola.buildRecord, if_pos ht]
    have h2 : Motorola.buildRecord t (a % 65536) buf
        = .ok (Motorola.mkRecord t (buf.length + 3) (padHex 4 (a % 65536 % 65536)) buf) := by
      simp only [Motorola.buildRecord, if_pos ht]
    refine ⟨⟨_, h1⟩, ?_⟩
    rw [h1, h2, Nat.mod_mod_of_dvd a (dvd_refl 65536)]
  · have h1 : Motorola.buildRecord t a buf
        = .ok (Motorola.mkRecord t (buf.length + 4) (padHex 6 (a % 16777216)) buf) := by
      simp only [Motorola.buildRecord, if_neg (by omega : ¬ (t = 0 ∨ t = 1 ∨ t = 5 ∨ t = 9)),
        if_pos ht]
    have h2 : Motorola.buildRecord t (a % 16777216) buf
        = .ok (Motorola.mkRecord t (buf.length + 4)
            (padHex 6 (a % 16777216 % 16777216)) buf) := by
      simp only [Motorola.buildRecord, if_neg (by omega : ¬ (t = 0 ∨ t = 1 ∨ t = 5 ∨ t = 9)),
        if_pos ht]
    refine ⟨⟨_, h1⟩, ?_⟩
    rw [h1, h2, Nat.mod_mod_of_dvd a (dvd_refl 16777216)]
  · have h1 : Motorola.buildRecord t a buf
        = .ok (Motorola.mkRecord t (buf.length + 5) (padHex 8 (a % 4294967296)) buf) := by
      simp only [Motorola.buildRecord, if_neg (by omega : ¬ (t = 0 ∨ t = 1 ∨ t = 5 ∨ t = 9)),
        if_neg (by omega : ¬ (t = 2 ∨ t = 6 ∨ t = 8)), if_pos ht]
    have h2 : Motorola.buildRecord t (a % 4294967296) buf
        = .ok (Motorola.mkRecord t (buf.length + 5)
            (padHex 8 (a % 4294967296 % 4294967296)) buf) := by
      simp only [Motorola.buildRecord, if_neg (by omega : ¬ (t = 0 ∨ t = 1 ∨ t = 5 ∨ t = 9)),
        if_neg (by omega : ¬ (t = 2 ∨ t = 6 ∨ t = 8)), if_pos ht]
    refine ⟨⟨_, h1⟩, ?_⟩
    rw [h1, h2, Nat.mod_mod_of_dvd a (dvd_refl 4294967296)]

/-- C2.  Streaming completeness (corrected statement): the Intel and
Signetics stream encoders reproduce the input exactly — over every
successful construction and every chunking, the concatenated payloads of
the emitted data records equal the concatenation of the fed bytes.  The
Motorola encoder has the property only while its address pointer stays
inside the 32-bit space (its part carries that bound); past the bound it
errors mid-chunk and drops the rest of the input. -/
theorem C2_streaming_completeness :
    (∀ (base exec reclen : Nat) (chunks : List (List Nat)) (s : Intel.St),
      Intel.run base exec reclen chunks = .ok s →
      Intel.dataFlat s.out = chunks.flatten) ∧
    (∀ (base exec reclen : Nat) (chunks : List (List Nat)) (s : Signetics.St),
      Signetics.run base exec reclen chunks = .ok s →
      Signetics.dataFlat s.out = chunks.flatten) ∧
    (∀ (header : List Nat) (base exec reclen : Nat) (chunks : List (List Nat))
        (s : Motorola.St),
      Motorola.run header base exec reclen chunks = .ok s →
      base + chunks.flatten.length ≤ 4294967296 →
      Motorola.dataFlat s.out = chunks.flatten) := by
  refine ⟨?_, ?_, ?_⟩
  · intro base exec reclen chunks s hs
    rcases hc : Intel.construct base exec reclen with e | s0
    · rw [Intel.run, hc] at hs
      simp [Except.map] at hs
    · rw [Intel.run, hc] at hs
      simp only [Except.map] at hs
      injection hs with hs2
      subst hs2
      obtain ⟨ht, hout, _, _, _, _, hrl, _, _, _⟩ := Intel.construct_ok_int base exec reclen s0 hc
      rw [Intel.flush_data_int, Intel.foldl_feed_data_int chunks s0, hout, ht]
      simp [Intel.dataFlat]
  · intro base exec reclen chunks s hs
    rcases hc : Signetics.construct base exec reclen with e | s0
    · rw [Signetics.run, hc] at hs
      simp [Except.map] at hs
    · rw [Signetics.run, hc] at hs
      simp only [Except.map] at hs
      injection hs with hs2
      subst hs2
      obtain ⟨ht, hout, _, _, hrl, _, _, _⟩ := Signetics.construct_ok_sig base exec reclen s0 hc
      rw [Signetics.flush_data_sig, Signetics.foldl_feed_data_sig chunks s0, hout, ht]
      simp [Signetics.dataFlat]
  · intro header base exec reclen chunks s hs hbound
    rcases hc : Motorola.construct header base exec reclen with e | s0
    · rw [Motorola.run, hc] at hs
      simp [Except.map] at hs
    · rw [Motorola.run, hc] at hs
      simp only [Except.map] at hs
      injection hs with hs2
      subst hs2
      obtain ⟨ht, hcnt, hptr0, _, herr0, hrl1, _, _, _, hout0⟩ :=
        Motorola.construct_ok_mot header base exec reclen s0 hc
      have hdf0 : Motorola.dataFlat s0.out = [] := by
        rcases hout0 with h0 | h0 <;> rw [h0]
        · rfl
        · exact Motorola.dataFlat_header header
      have hfil0 : s0.out.filter Motorola.isData = [] := by
        rcases hout0 with h0 | h0 <;> rw [h0]
        · rfl
        · simp [Motorola.isData]
      have master := Motorola.foldl_feed_master base chunks s0 herr0
        (by rw [ht]; simpa using hrl1) hrl1
        (by rw [hptr0, hdf0]; simp)
        (by rw [hcnt, hfil0]; rfl)
        (by
          intro e he hd
          rcases hout0 with h0 | h0 <;> rw [h0] at he
          · simp at he
          · simp only [List.mem_singleton] at he
            subst he
            simp [Motorola.isData] at hd)
        (by rw [hdf0, ht]; simpa using hbound)
      obtain ⟨herrN, _, _, htmpN, hptrN, hcntN, hdataN, hinv4N⟩ := master
      have hlen : (Motorola.dataFlat (chunks.foldl Motorola.feed s0).out).length
          + (chunks.foldl Motorola.feed s0).tmpbuf.length = chunks.flatten.length := by
        have := congrArg List.length hdataN
        simp only [List.length_append, hdf0, ht] at this
        simpa using this
      rw [Motorola.flush_dataFlat base _ herrN hptrN (by omega)]
      rw [hdataN, hdf0, ht]
      simp

theorem mem_ite_singleton {α : Type} (c : Prop) [inst : Decidable c] (x e : α)
    (h : e ∈ (if c then [x] else [])) : e = x := by
  split at h
  · simpa using h
  · simp at h

theorem dtype_eq_two (p : Nat) (h1 : 65535 < p) (h2 : p ≤ 16777215) :
    Motorola.dtype p = 2 := by
  simp only [Motorola.dtype]
  rw [if_neg (by omega), if_pos h1]

/-- C4.  Intel extended-address placement (corrected statement): the feed
phase of an Intel stream constructed at `base` pushes exactly the records
`emitsFor true base reclen input`, over every chunking of the input: a
type-4 extended-address record (payload: high 16 bits of the record
pointer) accompanies data record k exactly when `eaNeeded` holds — at
record 0, or when record k-1 crossed or ended on a 64KB boundary.  The
extended-address record therefore immediately precedes the first data
record AFTER a crossing, not the data record that crosses. -/
theorem C4_ea_placement (base exec reclen : Nat) (chunks : List (List Nat))
    (s0 : Intel.St) (h : Intel.construct base exec reclen = .ok s0) :
    (chunks.foldl Intel.feed s0).out
      = Intel.emitsFor true base s0.reclen chunks.flatten := by
  obtain ⟨ht, hout, hptr, _, hneed, _, hrl, _, _, _⟩ :=
    Intel.construct_ok_int base exec reclen s0 h
  rw [Intel.foldl_feed_eq_feedLoop chunks s0 (by rw [ht]; simpa using hrl)]
  rw [ht, List.nil_append]
  have hc := (Intel.feedLoop_closed s0.reclen hrl chunks.flatten.length chunks.flatten
    (le_refl _) s0 rfl).1
  rw [hc, hout, hneed, hptr, List.nil_append]

/-- Witness for C4: a constructed stream at base 0xFFD0 fed two concrete
chunks emits exactly the closed-form record list. -/
theorem C4_witness :
    ([[1, 2], [3]].foldl Intel.feed
        (⟨[], 65488, 0, 32, true, [], none⟩ : Intel.St)).out
      = Intel.emitsFor true 65488 32 [1, 2, 3] :=
  C4_ea_placement 65488 0 32 [[1, 2], [3]] ⟨[], 65488, 0, 32, true, [], none⟩ (by decide)

/-- C5.  Motorola type escalation (corrected statement): data records are
typed from their own start address — S2 exactly when that address lies in
(0xFFFF, 0xFFFFFF] — but the count record pushed at finish is typed from
the record count, not the pointer: its address field equals the number of
data records emitted, and its type is S6 only when that count itself
exceeds 0xFFFF. -/
theorem C5_motorola_escalation (header : List Nat) (base exec reclen : Nat)
    (chunks : List (List Nat)) (s0 : Motorola.St)
    (h : Motorola.construct header base exec reclen = .ok s0)
    (hbound : base + chunks.flatten.length ≤ 4294967296) :
    ∀ s, Motorola.run header base exec reclen chunks = .ok s →
      (∀ e ∈ s.out, Motorola.isData e = true → 65535 < e.addr → e.addr ≤ 16777215 →
        e.rtype = 2) ∧
      (∀ e ∈ s.out, e.rtype = 5 ∨ e.rtype = 6 →
        e.rtype = Motorola.ctype e.addr ∧
          e.addr = (s.out.filter Motorola.isData).length) := by
  intro s hs
  rw [Motorola.run, h] at hs
  simp only [Except.map] at hs
  injection hs with hs2
  subst hs2
  obtain ⟨ht, hcnt, hptr0, _, herr0, hrl1, _, _, _, hout0⟩ :=
    Motorola.construct_ok_mot header base exec reclen s0 h
  have hdf0 : Motorola.dataFlat s0.out = [] := by
    rcases hout0 with h0 | h0 <;> rw [h0]
    · rfl
    · exact Motorola.dataFlat_header header
  have hfil0 : s0.out.filter Motorola.isData = [] := by
    rcases hout0 with h0 | h0 <;> rw [h0]
    · rfl
    · simp [Motorola.isData]
  have master := Motorola.foldl_feed_master base chunks s0 herr0
    (by rw [ht]; simpa using hrl1) hrl1
    (by rw [hptr0, hdf0]; simp)
    (by rw [hcnt, hfil0]; rfl)
    (by
      intro e he hd
      rcases hout0 with h0 | h0 <;> rw [h0] at he
      · simp at he
      · simp only [List.mem_singleton] at he
        subst he
        simp [Motorola.isData] at hd)
    (by rw [hdf0, ht]; simpa using hbound)
  obtain ⟨herrN, _, _, htmpN, hptrN, hcntN, hdataN, hinv4N⟩ := master
  have hlen : (Motorola.dataFlat (chunks.foldl Motorola.feed s0).out).length
      + (chunks.foldl Motorola.feed s0).tmpbuf.length = chunks.flatten.length := by
    have := congrArg List.length hdataN
    simp only [List.length_append, hdf0, ht] at this
    simpa using this
  have hfs := Motorola.flush_shape base (chunks.foldl Motorola.feed s0) herrN hptrN (by omega)
  obtain ⟨mono_new, hm1, hm2⟩ := Motorola.foldl_feed_out_mono chunks s0
  have hDdata : Motorola.isData
      ⟨Motorola.dtype (chunks.foldl Motorola.feed s0).ptr,
        (chunks.foldl Motorola.feed s0).ptr,
        (chunks.foldl Motorola.feed s0).tmpbuf⟩ = true := Motorola.isData_mk _ _ _
  have hfilD : (if (chunks.foldl Motorola.feed s0).tmpbuf.length ≠ 0 then
        [(⟨Motorola.dtype (chunks.foldl Motorola.feed s0).ptr,
          (chunks.foldl Motorola.feed s0).ptr,
          (chunks.foldl Motorola.feed s0).tmpbuf⟩ : Motorola.Emit)]
      else []).filter Motorola.isData
      = (if (chunks.foldl Motorola.feed s0).tmpbuf.length ≠ 0 then
        [(⟨Motorola.dtype (chunks.foldl Motorola.feed s0).ptr,
          (chunks.foldl Motorola.feed s0).ptr,
          (chunks.foldl Motorola.feed s0).tmpbuf⟩ : Motorola.Emit)]
      else []) := by
    split
    · simp [List.filter, hDdata]
    · rfl
  have hfilC : ∀ n : Nat, (if 0 < n ∧ n ≤ 16777215 then
        [(⟨Motorola.ctype n, n, []⟩ : Motorola.Emit)] else []).filter Motorola.isData
      = [] := by
    intro n
    split
    · simp [List.filter, Motorola.isData_ctype]
    · rfl
  have hfilA : ([(⟨Motorola.atype (chunks.foldl Motorola.feed s0).exec,
      (chunks.foldl Motorola.feed s0).exec, []⟩ : Motorola.Emit)]).filter Motorola.isData
      = [] := by
    simp [List.filter, Motorola.isData_atype]
  have hfilter : (Motorola.flush (chunks.foldl Motorola.feed s0)).out.filter Motorola.isData
      = (chunks.foldl Motorola.feed s0).out.filter Motorola.isData
        ++ (if (chunks.foldl Motorola.feed s0).tmpbuf.length ≠ 0 then
          [(⟨Motorola.dtype (chunks.foldl Motorola.feed s0).ptr,
            (chunks.foldl Motorola.feed s0).ptr,
            (chunks.foldl Motorola.feed s0).tmpbuf⟩ : Motorola.Emit)]
        else []) := by
    rw [hfs.2]
    rw [List.filter_append, List.filter_append, List.filter_append]
    rw [hfilD, hfilC, hfilA]
    simp
  have hdlen : (if (chunks.foldl Motorola.feed s0).tmpbuf.length ≠ 0 then
        [(⟨Motorola.dtype (chunks.foldl Motorola.feed s0).ptr,
          (chunks.foldl Motorola.feed s0).ptr,
          (chunks.foldl Motorola.feed s0).tmpbuf⟩ : Motorola.Emit)]
      else []).length
      = (if (chunks.foldl Motorola.feed s0).tmpbuf.length ≠ 0 then 1 else 0) := by
    split <;> rfl
  constructor
  · intro e he hd h16 h24
    rw [hfs.2] at he
    rcases List.mem_append.mp he with h1 | h2
    · rcases List.mem_append.mp h1 with h11 | h12
      · obtain ⟨hrt, _, _, _⟩ := hinv4N e h11 hd
        rw [hrt]
        exact dtype_eq_two e.addr h16 h24
      · have he2 := mem_ite_singleton _ _ e h12
        rw [he2] at h16 h24 ⊢
        exact dtype_eq_two _ h16 h24
    · rcases List.mem_append.mp h2 with h21 | h22
      · have he2 := mem_ite_singleton _ _ e h21
        rw [he2] at hd
        simp [Motorola.isData_ctype] at hd
      · simp only [List.mem_singleton] at h22
        rw [h22] at hd
        simp [Motorola.isData_atype] at hd
  · intro e he h56
    rw [hfs.2] at he
    rcases List.mem_append.mp he with h1 | h2
    · rcases List.mem_append.mp h1 with h11 | h12
      · rw [hm1] at h11
        rcases List.mem_append.mp h11 with h111 | h112
        · rcases hout0 with h0 | h0 <;> rw [h0] at h111
          · simp at h111
          · simp only [List.mem_singleton] at h111
            rw [h111] at h56
            have h560 : (0 : Nat) = 5 ∨ (0 : Nat) = 6 := h56
            omega
        · have := Motorola.isData_rtype e (hm2 e h112)
          omega
      · have he2 := mem_ite_singleton _ _ e h12
        rw [he2] at h56
        have := Motorola.dtype_cases (chunks.foldl Motorola.feed s0).ptr
        have h56d : Motorola.dtype (chunks.foldl Motorola.feed s0).ptr = 5 ∨
            Motorola.dtype (chunks.foldl Motorola.feed s0).ptr = 6 := h56
        omega
    · rcases List.mem_append.mp h2 with h21 | h22
      · have he2 := mem_ite_singleton _ _ e h21
        rw [he2]
        refine ⟨rfl, ?_⟩
        rw [hfilter, List.length_append, ← hcntN, hdlen]
      · simp only [List.mem_singleton] at h22
        rw [h22] at h56
        have := Motorola.atype_cases (chunks.foldl Motorola.feed s0).exec
        have h56a : Motorola.atype (chunks.foldl Motorola.feed s0).exec = 5 ∨
            Motorola.atype (chunks.foldl Motorola.feed s0).exec = 6 := h56
        omega

/-- Witness for C5: the run of the counterexample configuration, with the
conclusion read off at its S2 data record and its S5 count record. -/
theorem C5_witness :
    Motorola.Emit.rtype ⟨2, 65536, List.replicate 32 9⟩ = 2 ∧
      Motorola.Emit.rtype ⟨5, 1, []⟩ = Motorola.ctype 1 := by
  have h := C5_motorola_escalation [] 65536 0 32 [List.replicate 32 9]
    ⟨[], 0, 65536, 0, 32, [], none⟩ (by decide) (by decide)
    ⟨[], 1, 65568, 0, 32,
      [⟨2, 65536, List.replicate 32 9⟩, ⟨5, 1, []⟩, ⟨9, 0, []⟩], none⟩ (by decide)
  constructor
  · exact h.1 ⟨2, 65536, List.replicate 32 9⟩ (by decide) (by decide) (by decide) (by decide)
  · have h2 := h.2 ⟨5, 1, []⟩ (by decide) (Or.inl rfl)
    exact h2.1
